import Mathlib

/-!
# ECE250 projects: verification development

Shallow embedding of `src/4_lab/graph.{h,cpp}` (the traffic-weighted graph), of the
hash table and dictionary of lab 3, the trie of lab 2, the player list of lab 1 and
the playlist of lab 0, and theorems about them.  The definitions of all parts come
first, the theorems after them.

Modelling conventions.

* `std::unordered_map<int, β>` is an association list `UMap β`; `find` is
  `UMap.find`, a read through `operator[]` is `UMap.getD` with the
  value-initialised default, a write through `operator[]` is `UMap.set`, and
  `erase(key)` is `UMap.erase`.  The iteration order of an `unordered_map` is
  unspecified; the list order stands for it.
* `double` is exact rational arithmetic in `dijkstra`, `path` and `lowest`; the
  `+infinity` used by `dijkstra` is the top element of `WithTop ℚ`.  The statements
  about costs assume positive edge attributes, where `d / (s * a)` is the rational
  quotient, and they are statements about the costs taken in exact arithmetic.
* `Dbl` is binary64 with its rounding, its infinities and its NaN, and `dijkstraD`,
  `pathD` and `lowestD` are the same code with the costs in `Dbl`: they are what the
  program prints where a cost is not a `double`, in particular where it overflows.
* a call with undefined behaviour returns `none`: `delete_n_exec` is `delete_n` as the
  call executes, undefined on a node that is its own neighbour.
* `while` loops that C++ does not bound take a `fuel` argument and return
  `none` when it runs out.
* what a command prints to `cout` is an `Output`.
-/

namespace Lab4

/-! ## Containers -/

/-- An `std::unordered_map<int, β>` as an association list. -/
abbrev UMap (β : Type) := List (Int × β)

/-- The call `m.find(x)`: the value stored under `x`, if any. -/
def UMap.find {β : Type} : UMap β → Int → Option β
  | [], _ => none
  | (k, v) :: m, x => if k = x then some v else UMap.find m x

/-- A read of `m[x]`: the stored value, or the value-initialised `dflt`. -/
def UMap.getD {β : Type} (m : UMap β) (x : Int) (dflt : β) : β :=
  (UMap.find m x).getD dflt

/-- The assignment `m[x] = v`: overwrite the entry or create it. -/
def UMap.set {β : Type} : UMap β → Int → β → UMap β
  | [], x, v => [(x, v)]
  | (k, w) :: m, x, v => if k = x then (k, v) :: m else (k, w) :: UMap.set m x v

/-- The call `m.erase(x)`. -/
def UMap.erase {β : Type} (m : UMap β) (x : Int) : UMap β :=
  m.filter (fun p => !decide (p.1 = x))

/-- The keys of a map, in iteration order. -/
def UMap.keys {β : Type} (m : UMap β) : List Int :=
  m.map Prod.fst

/-! ## graph.h -/

/-- The `struct Edge` of graph.h: distance, speed limit, traffic factor. -/
structure Edge where
  d : ℚ
  s : ℚ
  a : ℚ
  deriving DecidableEq

/-- A value-initialised `Edge`: `d` and `s` zeroed, `a = 1.0`. -/
def Edge.init : Edge := { d := 0, s := 0, a := 1 }

/-- The member `g` of `class Graph`. -/
abbrev Graph := UMap (UMap Edge)

/-- What a command writes to `cout`. -/
inductive Output
  | silent
  | success
  | failure
  | nodes (p : List Int)
  | cost (c : ℚ)
  deriving DecidableEq

/-! ## graph.cpp: storage and mutation -/

/-- The entry `a -> b` of the adjacency storage, if present. -/
def entry (g : Graph) (a b : Int) : Option Edge :=
  (UMap.find g a).bind (fun row => UMap.find row b)

/-- Translation of `Graph::node_exists`. -/
def node_exists (g : Graph) (a : Int) : Bool :=
  (UMap.find g a).isSome

/-- Translation of `Graph::edge_exists`. -/
def edge_exists (g : Graph) (a b : Int) : Bool :=
  let ab_exists := (UMap.find g a).isSome && (UMap.find (UMap.getD g a []) b).isSome
  let ba_exists := (UMap.find g b).isSome && (UMap.find (UMap.getD g b []) a).isSome
  ab_exists && ba_exists

/-- The statement `g[a][b] = f(g[a][b])`: both `operator[]` calls create what is missing. -/
def modifyEntry (g : Graph) (a b : Int) (f : Edge → Edge) : Graph :=
  let row := UMap.getD g a []
  UMap.set g a (UMap.set row b (f (UMap.getD row b Edge.init)))

/-- Translation of `Graph::insert`. -/
def insert (g : Graph) (a b : Int) (d s : ℚ) (silence : Bool) : Graph × Output :=
  let g1 := modifyEntry g a b (fun e => { e with d := d })
  let g2 := modifyEntry g1 a b (fun e => { e with s := s })
  let g3 := modifyEntry g2 b a (fun e => { e with d := d })
  let g4 := modifyEntry g3 b a (fun e => { e with s := s })
  (g4, if silence then Output.silent else Output.success)

/-- The statement `g[i].erase(a)` of `delete_n`; `g[i]` is created when missing. -/
def eraseFrom (a : Int) (g : Graph) (i : Int) : Graph :=
  UMap.set g i (UMap.erase (UMap.getD g i []) a)

/-- The graph and the output of `Graph::delete_n`, with its loop run over the neighbours
that `g[a]` has when the loop starts.  This is the result of the call whenever `a` is not
its own neighbour.  For a self-loop `a -> a` the C++ loop erases the element its own
iterator stands on and the call has undefined behaviour: `delete_n_exec` is the call with
that case, and this function gives there the graph that the loop is written to produce. -/
def delete_n (g : Graph) (a : Int) : Graph × Output :=
  if node_exists g a then
    let g1 := (UMap.keys (UMap.getD g a [])).foldl (eraseFrom a) g
    (UMap.erase g1 a, Output.success)
  else
    (g, Output.failure)

/-- Translation of `Graph::traffic`. -/
def traffic (g : Graph) (a b : Int) (aprime : ℚ) (silence : Bool) : Graph × Output :=
  if !edge_exists g a b then
    (g, if silence then Output.silent else Output.failure)
  else
    let g1 := modifyEntry g a b (fun e => { e with a := aprime })
    let g2 := modifyEntry g1 b a (fun e => { e with a := aprime })
    (g2, if silence then Output.silent else Output.success)

/-- Translation of `Graph::print`. -/
def print (g : Graph) (a : Int) : Graph × Output :=
  if !node_exists g a then (g, Output.failure)
  else (g, Output.nodes (UMap.keys (UMap.getD g a [])))

/-- One line of the file read by `update`, once parsed. -/
def updateStep (acc : Graph × Bool) (r : Int × Int × ℚ) : Graph × Bool :=
  if edge_exists acc.1 r.1 r.2.1 then
    ((traffic acc.1 r.1 r.2.1 r.2.2 true).1, true)
  else acc

/-- Translation of `Graph::update`, on the parsed lines of the file. -/
def update (g : Graph) (records : List (Int × Int × ℚ)) : Graph × Output :=
  let r := records.foldl updateStep (g, false)
  (r.1, if r.2 then Output.success else Output.failure)

/-- One line of the file read by `load`, once parsed. -/
def loadStep (g : Graph) (r : Int × Int × ℚ × ℚ) : Graph :=
  (insert g r.1 r.2.1 r.2.2.1 r.2.2.2 true).1

/-- Translation of `Graph::load`, on the parsed lines of the file. -/
def load (g : Graph) (records : List (Int × Int × ℚ × ℚ)) : Graph × Output :=
  (records.foldl loadStep g, Output.success)

/-! ## graph.cpp: shortest paths -/

/-- The order of `greater<pair<double, int>>`: the queue pops the least pair. -/
def pqLe (x y : WithTop ℚ × Int) : Prop :=
  x.1 < y.1 ∨ (x.1 = y.1 ∧ x.2 ≤ y.2)

instance : DecidableRel pqLe := fun x y =>
  inferInstanceAs (Decidable (x.1 < y.1 ∨ (x.1 = y.1 ∧ x.2 ≤ y.2)))

/-- The call `pq.push(e)`: the queue is kept in pop order. -/
def pqPush (e : WithTop ℚ × Int) (pq : List (WithTop ℚ × Int)) : List (WithTop ℚ × Int) :=
  List.orderedInsert pqLe e pq

/-- The variables of `Graph::dijkstra`: the graph, `dist`, `prev` and the queue. -/
structure DState where
  g : Graph
  dist : UMap (WithTop ℚ)
  prev : UMap Int
  pq : List (WithTop ℚ × Int)

/-- The derived cost `d / (s * a)` of an edge. -/
def weight (e : Edge) : ℚ :=
  e.d / (e.s * e.a)

/-- The body of the loop over `g[u]` in `dijkstra`. -/
def relax (u : Int) (st : DState) (edge : Int × Edge) : DState :=
  let v := edge.1
  let w : WithTop ℚ := ((weight edge.2 : ℚ) : WithTop ℚ)
  if UMap.getD st.dist u 0 + w < UMap.getD st.dist v 0 then
    let dist1 := UMap.set st.dist v (UMap.getD st.dist u 0 + w)
    { st with
      dist := dist1
      prev := UMap.set st.prev v u
      pq := pqPush (UMap.getD dist1 v 0, v) st.pq }
  else st

/-- The access `g[u]` that creates the node when it is missing. -/
def touch (g : Graph) (u : Int) : Graph :=
  if (UMap.find g u).isSome then g else UMap.set g u []

/-- The `while (!pq.empty())` loop of `dijkstra`; one unit of fuel per iteration. -/
def dijkstraLoop (dest : Int) : Nat → DState → Option DState
  | fuel, st =>
    match st.pq with
    | [] => some st
    | (current_dist, u) :: rest =>
      match fuel with
      | 0 => none
      | fuel + 1 =>
        let st1 : DState := { st with pq := rest }
        if current_dist > UMap.getD st1.dist u 0 then
          dijkstraLoop dest fuel st1
        else if u = dest then
          some st1
        else
          let g1 := touch st1.g u
          dijkstraLoop dest fuel ((UMap.getD g1 u []).foldl (relax u) { st1 with g := g1 })

/-- The initialisation loop of `dijkstra`. -/
def initStep (st : DState) (node : Int × UMap Edge) : DState :=
  { st with dist := UMap.set st.dist node.1 ⊤, prev := UMap.set st.prev node.1 (-1) }

/-- Translation of `Graph::dijkstra`; `dist` and `prev` are the maps passed by reference. -/
def dijkstra (fuel : Nat) (g : Graph) (source dest : Int)
    (dist : UMap (WithTop ℚ)) (prev : UMap Int) : Option DState :=
  let st0 := g.foldl initStep { g := g, dist := dist, prev := prev, pq := [] }
  let st1 : DState :=
    { st0 with dist := UMap.set st0.dist source 0, pq := pqPush (0, source) st0.pq }
  dijkstraLoop dest fuel st1

/-- The loop `for (int at = b; at != -1; at = prev[at]) path.push_back(at)`. -/
def pathBack (prev : UMap Int) : Nat → Int → Option (List Int)
  | fuel, cur =>
    if cur = -1 then some []
    else
      match fuel with
      | 0 => none
      | fuel + 1 => (pathBack prev fuel (UMap.getD prev cur 0)).map (fun p => cur :: p)

/-- Translation of `Graph::path`. -/
def path (fuel : Nat) (g : Graph) (a b : Int) : Option (Graph × Output) :=
  if !node_exists g a || !node_exists g b then some (g, Output.failure)
  else if a = b then some (g, Output.failure)
  else
    match dijkstra fuel g a b [] [] with
    | none => none
    | some st =>
      if UMap.getD st.dist b 0 = ⊤ then some (st.g, Output.failure)
      else
        match pathBack st.prev fuel b with
        | none => none
        | some p =>
          let path := p.reverse
          if path.length = 1 ∧ path.head? = some a then some (st.g, Output.failure)
          else some (st.g, Output.nodes path)

/-- Translation of `Graph::lowest`; the printed number is kept exact.  The `none` of
`WithTop ℚ` is `+infinity`. -/
def lowest (fuel : Nat) (g : Graph) (a b : Int) : Option (Graph × Output) :=
  if !node_exists g a || !node_exists g b then some (g, Output.failure)
  else
    match dijkstra fuel g a b [] [] with
    | none => none
    | some st =>
      match UMap.getD st.dist b 0 with
      | none => some (st.g, Output.failure)
      | some c => some (st.g, Output.cost c)

/-! ## Reachable states and the properties used in the statements -/

/-- The graph states that the commands can produce from the empty graph.  The states
after `delete_n` on a node that is its own neighbour are included, as if that call had
completed: this only adds states to those that the program can reach. -/
inductive Reachable : Graph → Prop
  | empty : Reachable []
  | ins (g : Graph) (a b : Int) (d s : ℚ) (silence : Bool) :
      Reachable g → Reachable (insert g a b d s silence).1
  | del (g : Graph) (a : Int) : Reachable g → Reachable (delete_n g a).1
  | traf (g : Graph) (a b : Int) (f : ℚ) (silence : Bool) :
      Reachable g → Reachable (traffic g a b f silence).1
  | ld (g : Graph) (records : List (Int × Int × ℚ × ℚ)) :
      Reachable g → Reachable (load g records).1
  | upd (g : Graph) (records : List (Int × Int × ℚ)) :
      Reachable g → Reachable (update g records).1

/-- Every entry has its mirrored entry, with the same attributes. -/
def Mirror (g : Graph) : Prop :=
  ∀ a b e, entry g a b = some e → entry g b a = some e

/-- No key occurs twice, in the node map or in a neighbour map. -/
def WF (g : Graph) : Prop :=
  (UMap.keys g).Nodup ∧ ∀ k row, (k, row) ∈ g → (UMap.keys row).Nodup

/-- Every edge has positive distance, speed limit and traffic factor. -/
def PosAttrs (g : Graph) : Prop :=
  ∀ a b e, entry g a b = some e → 0 < e.d ∧ 0 < e.s ∧ 0 < e.a

/-- The cost of a node sequence: the sum of `d / (s * a)` over its consecutive pairs. -/
def walkCost (g : Graph) : List Int → ℚ
  | u :: v :: rest => ((entry g u v).map weight).getD 0 + walkCost g (v :: rest)
  | _ => 0

/-- Every two consecutive nodes of the sequence are joined by an edge. -/
def IsWalk (g : Graph) : List Int → Prop
  | u :: v :: rest => (entry g u v).isSome = true ∧ IsWalk g (v :: rest)
  | _ => True

/-- Whether a sequence is a walk can be computed. -/
def IsWalk.dec (g : Graph) : (w : List Int) → Decidable (IsWalk g w)
  | [] => isTrue trivial
  | [_] => isTrue trivial
  | u :: v :: rest =>
    match IsWalk.dec g (v :: rest) with
    | isTrue h =>
      if h1 : (entry g u v).isSome = true then isTrue ⟨h1, h⟩
      else isFalse (fun hc => h1 hc.1)
    | isFalse h => isFalse (fun hc => h hc.2)

instance (g : Graph) (w : List Int) : Decidable (IsWalk g w) :=
  IsWalk.dec g w

/-- The sequence is a walk of the graph that starts at `a` and ends at `b`. -/
def WalkFromTo (g : Graph) (a b : Int) (w : List Int) : Prop :=
  w.head? = some a ∧ w.getLast? = some b ∧ IsWalk g w

instance (g : Graph) (a b : Int) (w : List Int) : Decidable (WalkFromTo g a b w) :=
  inferInstanceAs (Decidable (w.head? = some a ∧ w.getLast? = some b ∧ IsWalk g w))

/-- Node `b` is connected to node `a` through existing edges. -/
def Connected (g : Graph) (a b : Int) : Prop :=
  ∃ w, WalkFromTo g a b w

/-- Node `v` can be reached from `s` at cost `c`, one edge after the other. -/
inductive Reach (g : Graph) (s : Int) : Int → ℚ → Prop
  | refl : Reach g s s 0
  | step (u v : Int) (e : Edge) (c c1 : ℚ) :
      Reach g s u c → entry g u v = some e → c1 = c + weight e → Reach g s v c1

/-- Iterations that `dijkstra` and the loop of `path` need at most on graph `g`. -/
def fuelBound (g : Graph) : Nat :=
  2 + g.length + (g.map (fun p => p.2.length)).sum

/-! ## The invariants of `dijkstra` -/

/-- The read `dist[v]`. -/
def DState.D (st : DState) (v : Int) : WithTop ℚ :=
  UMap.getD st.dist v 0

/-- The read `prev[v]`. -/
def DState.P (st : DState) (v : Int) : Int :=
  UMap.getD st.prev v 0

/-- Node `k` is still waiting: not reached yet, or queued with its current cost. -/
def pend (st : DState) (k : Int) : Bool :=
  decide (st.D k = ⊤) || decide ((st.D k, k) ∈ st.pq)

/-- The edges of the waiting nodes: the pushes that can still happen. -/
def pendSum (g : Graph) (st : DState) : Nat :=
  (g.map (fun p => if pend st p.1 then p.2.length else 0)).sum

/-- What `dijkstra` assumes of the graph and of the source. -/
structure Ctx (g : Graph) (s : Int) : Prop where
  wf : WF g
  closed : ∀ u v e, entry g u v = some e → v ∈ UMap.keys g
  pos : ∀ u v e, entry g u v = some e → 0 < weight e
  src : s ∈ UMap.keys g

/-- The part of the loop invariant of `dijkstra` that holds at every program point. -/
structure Core (g : Graph) (s : Int) (st : DState) : Prop where
  hg : st.g = g
  hs : st.D s = 0
  hnn : ∀ v, 0 ≤ st.D v
  hps : st.P s = -1
  hfin : ∀ x ∈ st.pq, x.1 ≠ ⊤ ∧ x.2 ∈ UMap.keys g ∧ st.D x.2 ≤ x.1
  hsorted : st.pq.Pairwise (fun x y => x.1 ≤ y.1)
  hnodup : st.pq.Nodup
  hA : ∀ v ∈ UMap.keys g, ∀ c : ℚ, st.D v = (c : WithTop ℚ) → Reach g s v c
  hPV : ∀ v ∈ UMap.keys g, v ≠ s → st.D v ≠ ⊤ →
    ∃ e, entry g (st.P v) v = some e ∧ st.D (st.P v) + ((weight e : ℚ) : WithTop ℚ) ≤ st.D v

/-- The invariant of the `while` loop of `dijkstra`. -/
structure DInv (g : Graph) (s : Int) (st : DState) extends Core g s st : Prop where
  hL : ∀ v ∈ UMap.keys g, st.D v ≠ ⊤ → (st.D v, v) ∈ st.pq ∨ ∀ x ∈ st.pq, st.D v ≤ x.1
  hK : ∀ u v e, entry g u v = some e →
    st.D v ≤ st.D u + ((weight e : ℚ) : WithTop ℚ) ∨ (st.D u, u) ∈ st.pq

/-- The invariant of the loop over `g[u]`, with `todo` the edges still to visit, `d` the
cost at which `u` was popped and `B` a bound on the remaining iterations. -/
structure Mid (g : Graph) (s u : Int) (d : WithTop ℚ) (todo : List (Int × Edge)) (B : Nat)
    (st : DState) extends Core g s st : Prop where
  hd : st.D u = d
  hdfin : d ≠ ⊤
  hmin : ∀ x ∈ st.pq, d ≤ x.1
  hL : ∀ v ∈ UMap.keys g, st.D v ≠ ⊤ → (st.D v, v) ∈ st.pq ∨ st.D v ≤ d
  hK : ∀ u1 v e, entry g u1 v = some e →
    st.D v ≤ st.D u1 + ((weight e : ℚ) : WithTop ℚ) ∨ (st.D u1, u1) ∈ st.pq ∨
      (u1 = u ∧ (v, e) ∈ todo)
  htodo : ∀ p ∈ todo, entry g u p.1 = some p.2
  hM : st.pq.length + pendSum g st + todo.length ≤ B

/-- What callers of `dijkstra` use of the final state. -/
structure Post (g : Graph) (s dest : Int) (st : DState) : Prop where
  hg : st.g = g
  hs : st.D s = 0
  hps : st.P s = -1
  hA : ∀ v ∈ UMap.keys g, ∀ c : ℚ, st.D v = (c : WithTop ℚ) → Reach g s v c
  hPV : ∀ v ∈ UMap.keys g, v ≠ s → st.D v ≠ ⊤ →
    ∃ e, entry g (st.P v) v = some e ∧ st.D (st.P v) + ((weight e : ℚ) : WithTop ℚ) ≤ st.D v
  hopt : ∀ c : ℚ, Reach g s dest c → st.D dest ≤ (c : WithTop ℚ)

/-- The number of nodes recorded as strictly cheaper than `v`. -/
def rank (g : Graph) (st : DState) (v : Int) : Nat :=
  (UMap.keys g).countP (fun k => decide (st.D k < st.D v))

/-- No node identifier is negative. -/
def NoNeg (g : Graph) : Prop :=
  ∀ k ∈ UMap.keys g, 0 ≤ k

/-! ## Example graphs -/

/-- The graph after `insert 1 2 10 5`. -/
def exEdge : Graph :=
  (insert [] 1 2 10 5 false).1

/-- The graph after `insert 1 2 5 5` and `insert 2 3 5 5`. -/
def exChain : Graph :=
  (insert (insert [] 1 2 5 5 false).1 2 3 5 5 false).1

/-- The graph after `insert -1 2 1 1`. -/
def exSentinel : Graph :=
  (insert [] (-1) 2 1 1 false).1

/-! ## Definitions for the bulk operations and the node set -/

/-- The effect of one applicable record of `update` on the graph: a `traffic` call. -/
def applyTraffic (g : Graph) (r : Int × Int × ℚ) : Graph :=
  (traffic g r.1 r.2.1 r.2.2 false).1

/-- The bulk load as the spec words it: `insert` called on each record, in sequence
order. -/
def bulkLoadSpec : Graph → List (Int × Int × ℚ × ℚ) → Graph
  | g, [] => g
  | g, r :: rs => bulkLoadSpec (insert g r.1 r.2.1 r.2.2.1 r.2.2.2 false).1 rs

/-- The graph states that the commands other than `delete_n` can produce from the empty
graph. -/
inductive ReachableNoDelete : Graph → Prop
  | empty : ReachableNoDelete []
  | ins (g : Graph) (a b : Int) (d s : ℚ) (silence : Bool) :
      ReachableNoDelete g → ReachableNoDelete (insert g a b d s silence).1
  | traf (g : Graph) (a b : Int) (f : ℚ) (silence : Bool) :
      ReachableNoDelete g → ReachableNoDelete (traffic g a b f silence).1
  | ld (g : Graph) (records : List (Int × Int × ℚ × ℚ)) :
      ReachableNoDelete g → ReachableNoDelete (load g records).1
  | upd (g : Graph) (records : List (Int × Int × ℚ)) :
      ReachableNoDelete g → ReachableNoDelete (update g records).1

/-- Every node of the graph has at least one neighbour. -/
def NoIsolated (g : Graph) : Prop :=
  ∀ x, node_exists g x = true → ∃ y, (entry g x y).isSome = true

/-- The graph after `insert 1 2 10 5` and `delete 2`. -/
def exIsolated : Graph :=
  (delete_n exEdge 2).1

/-- The loop of `dijkstraLoop` without the early exit; one unit of fuel per iteration. -/
def dijkstraLoopExhaust : Nat → DState → Option DState
  | fuel, st =>
    match st.pq with
    | [] => some st
    | (current_dist, u) :: rest =>
      match fuel with
      | 0 => none
      | fuel + 1 =>
        let st1 : DState := { st with pq := rest }
        if current_dist > UMap.getD st1.dist u 0 then
          dijkstraLoopExhaust fuel st1
        else
          let g1 := touch st1.g u
          dijkstraLoopExhaust fuel ((UMap.getD g1 u []).foldl (relax u) { st1 with g := g1 })

/-- The search of `dijkstra` run until the priority queue is exhausted. -/
def dijkstraExhaust (fuel : Nat) (g : Graph) (source : Int)
    (dist : UMap (WithTop ℚ)) (prev : UMap Int) : Option DState :=
  let st0 := g.foldl initStep { g := g, dist := dist, prev := prev, pq := [] }
  let st1 : DState :=
    { st0 with dist := UMap.set st0.dist source 0, pq := pqPush (0, source) st0.pq }
  dijkstraLoopExhaust fuel st1

/-! ## Definitions for the queries -/

/-- The graph after `insert 1 2 1 1`, `insert 1 3 10 1` and `insert 2 3 1 1`: the edge
from 1 to 3 costs 10, the way over 2 costs 2. -/
def exTriangle : Graph :=
  (insert (insert (insert [] 1 2 1 1 false).1 1 3 10 1 false).1 2 3 1 1 false).1

/-- The body of `Graph::edge_exists` with each access `g[a]`, `g[b]` spelled out as
`touch`: `operator[]` creates a missing node, and `&&` evaluates its right operand only
when the left one is true.  The graph after the call and the returned flag. -/
def edge_exists_st (g : Graph) (a b : Int) : Graph × Bool :=
  let r1 : Graph × Bool :=
    if (UMap.find g a).isSome then
      (touch (touch g a) a, (UMap.find (UMap.getD (touch g a) a []) b).isSome)
    else (g, false)
  let r2 : Graph × Bool :=
    if (UMap.find r1.1 b).isSome then
      (touch (touch r1.1 b) b, (UMap.find (UMap.getD (touch r1.1 b) b []) a).isSome)
    else (r1.1, false)
  (r2.1, r1.2 && r2.2)

/-- The body of `Graph::print` with the access `g[a]` of its loop spelled out as
`touch`. -/
def print_st (g : Graph) (a : Int) : Graph × Output :=
  if !node_exists g a then (g, Output.failure)
  else
    let g1 := touch g a
    (g1, Output.nodes (UMap.keys (UMap.getD g1 a [])))

/-! ## The search with a record of the relaxed nodes -/

/-- The loop of `dijkstra` together with a record of the nodes whose edges it relaxes:
the steps are those of `dijkstraLoop`, and `u` is appended to the record where the loop
over `g[u]` is entered. -/
def dijkstraLoopTrace (dest : Int) : Nat → DState → List Int → Option (DState × List Int)
  | fuel, st, tr =>
    match st.pq with
    | [] => some (st, tr)
    | (current_dist, u) :: rest =>
      match fuel with
      | 0 => none
      | fuel + 1 =>
        let st1 : DState := { st with pq := rest }
        if current_dist > UMap.getD st1.dist u 0 then
          dijkstraLoopTrace dest fuel st1 tr
        else if u = dest then
          some (st1, tr)
        else
          let g1 := touch st1.g u
          dijkstraLoopTrace dest fuel
            ((UMap.getD g1 u []).foldl (relax u) { st1 with g := g1 }) (tr ++ [u])

/-- The search of `dijkstra` with the record of the relaxed nodes. -/
def dijkstraTrace (fuel : Nat) (g : Graph) (source dest : Int)
    (dist : UMap (WithTop ℚ)) (prev : UMap Int) : Option (DState × List Int) :=
  let st0 := g.foldl initStep { g := g, dist := dist, prev := prev, pq := [] }
  let st1 : DState :=
    { st0 with dist := UMap.set st0.dist source 0, pq := pqPush (0, source) st0.pq }
  dijkstraLoopTrace dest fuel st1 []

/-- What holds of `prev` and of the record `tr` of relaxed nodes while the edges of a node
popped at cost `d` are relaxed: a reached node other than the source was reached over the
edge from its predecessor, whose cost is final and at most `d`; an unreached node has no
predecessor; no node is recorded twice, and a recorded node has a cost of at most `d` and
is not queued at its cost. -/
structure AuxMid (g : Graph) (s : Int) (d : WithTop ℚ) (st : DState) (tr : List Int) :
    Prop where
  hE : ∀ v ∈ UMap.keys g, v ≠ s → st.D v ≠ ⊤ →
    ∃ e, entry g (st.P v) v = some e ∧
      st.D v = st.D (st.P v) + ((weight e : ℚ) : WithTop ℚ) ∧ st.D (st.P v) ≤ d
  hT : ∀ v ∈ UMap.keys g, st.D v = ⊤ → st.P v = -1
  hN : tr.Nodup
  hR : ∀ u ∈ tr, st.D u ≤ d ∧ (st.D u, u) ∉ st.pq

/-- The same facts where the `while` loop tests its condition: the costs of the
predecessors and of the recorded nodes are at most every queued cost. -/
structure AuxHead (g : Graph) (s : Int) (st : DState) (tr : List Int) : Prop where
  hE : ∀ v ∈ UMap.keys g, v ≠ s → st.D v ≠ ⊤ →
    ∃ e, entry g (st.P v) v = some e ∧
      st.D v = st.D (st.P v) + ((weight e : ℚ) : WithTop ℚ) ∧
      ∀ x ∈ st.pq, st.D (st.P v) ≤ x.1
  hT : ∀ v ∈ UMap.keys g, st.D v = ⊤ → st.P v = -1
  hN : tr.Nodup
  hR : ∀ u ∈ tr, (∀ x ∈ st.pq, st.D u ≤ x.1) ∧ (st.D u, u) ∉ st.pq

/-! ## `delete_n` as the call executes -/

/-- The graph after `insert 1 1 1 1`: node 1 with an edge to itself. -/
def exSelfLoop : Graph :=
  (insert [] 1 1 1 1 false).1

/-- Whether the call `delete_n(a)` has undefined behaviour: `a` is a node and its own
neighbour.  The loop `for (auto i : g[a]) g[i.first].erase(a);` then reaches the element
with key `a` of `g[a]`, where `g[i.first].erase(a)` is `g[a].erase(a)`: it destroys the
element that the iterator of the range-for stands on, and the loop increments that
iterator afterwards. -/
def delete_n_ub (g : Graph) (a : Int) : Bool :=
  node_exists g a && (UMap.find (UMap.getD g a []) a).isSome

/-- Translation of `Graph::delete_n` as the call executes: `none` when its behaviour is
undefined (nothing is printed then and no graph is left to speak of), and otherwise the
graph and the output given by `delete_n`. -/
def delete_n_exec (g : Graph) (a : Int) : Option (Graph × Output) :=
  if delete_n_ub g a then none else some (delete_n g a)

/-! ## Binary64 arithmetic

The `double` of the C++ code with its rounding and its overflow, for the inputs on which
the search in `double` and the search in exact arithmetic part ways. -/

/-- A `double`: a finite value given by its sign and its magnitude (so `-0.0` is a value of
its own), an infinity, or a NaN. -/
inductive Dbl
  | fin (neg : Bool) (mag : ℚ)
  | inf (neg : Bool)
  | nan
  deriving DecidableEq

/-- The power `2 ^ e` for an integer exponent. -/
def pow2 (e : Int) : ℚ :=
  if 0 ≤ e then ((2 ^ e.toNat : Nat) : ℚ) else 1 / ((2 ^ (-e).toNat : Nat) : ℚ)

/-- The number of halvings that take `n` below 2, with at most `fuel` of them. -/
def halvings : Nat → Nat → Nat
  | 0, _ => 0
  | fuel + 1, n => if 2 ≤ n then halvings fuel (n / 2) + 1 else 0

/-- The exponent `e` with `2 ^ e ≤ n < 2 ^ (e + 1)`, for a natural number `n > 0`. -/
def natLog2 (n : Nat) : Nat :=
  halvings n n

/-- The exponent `e` with `2 ^ e ≤ q < 2 ^ (e + 1)`, for `q > 0`: the difference of the
exponents of numerator and denominator, or one less. -/
def ilog2 (q : ℚ) : Int :=
  let e : Int := (natLog2 q.num.natAbs : Int) - (natLog2 q.den : Int)
  if pow2 e ≤ q then e else e - 1

/-- The integer nearest to `x ≥ 0`, the even one of the two when `x` is half-way. -/
def roundEven (x : ℚ) : Int :=
  let f := Rat.floor x
  if x - f < 1 / 2 then f
  else if 1 / 2 < x - f then f + 1
  else if f % 2 = 0 then f else f + 1

/-- The magnitude `q ≥ 0` rounded to binary64 in the default rounding mode (to nearest,
ties to even): 53 significant bits, the spacing of the values below `2 ^ -1022` stays
`2 ^ -1074`, and a result of `2 ^ 1024` or more is an infinity. -/
def Dbl.round (neg : Bool) (q : ℚ) : Dbl :=
  if q = 0 then Dbl.fin neg 0
  else
    let ulp := pow2 (max (ilog2 q) (-1022) - 52)
    let r : ℚ := ((roundEven (q / ulp) : Int) : ℚ) * ulp
    if pow2 1024 ≤ r then Dbl.inf neg else Dbl.fin neg r

/-- The `double` that a decimal numeral of value `q` is read as. -/
def Dbl.ofRat (q : ℚ) : Dbl :=
  Dbl.round (decide (q < 0)) |q|

/-- The value of a finite `double`. -/
def Dbl.val (neg : Bool) (mag : ℚ) : ℚ :=
  if neg then -mag else mag

/-- The `double` `0.0`, which `operator[]` of `unordered_map<int, double>` creates. -/
def Dbl.zero : Dbl :=
  Dbl.fin false 0

/-- The product `x * y` of two `double`s. -/
def Dbl.mul : Dbl → Dbl → Dbl
  | Dbl.nan, _ => Dbl.nan
  | _, Dbl.nan => Dbl.nan
  | Dbl.inf n1, Dbl.inf n2 => Dbl.inf (xor n1 n2)
  | Dbl.inf n1, Dbl.fin n2 m2 => if m2 = 0 then Dbl.nan else Dbl.inf (xor n1 n2)
  | Dbl.fin n1 m1, Dbl.inf n2 => if m1 = 0 then Dbl.nan else Dbl.inf (xor n1 n2)
  | Dbl.fin n1 m1, Dbl.fin n2 m2 => Dbl.round (xor n1 n2) (m1 * m2)

/-- The quotient `x / y` of two `double`s. -/
def Dbl.div : Dbl → Dbl → Dbl
  | Dbl.nan, _ => Dbl.nan
  | _, Dbl.nan => Dbl.nan
  | Dbl.inf _, Dbl.inf _ => Dbl.nan
  | Dbl.inf n1, Dbl.fin n2 _ => Dbl.inf (xor n1 n2)
  | Dbl.fin n1 _, Dbl.inf n2 => Dbl.fin (xor n1 n2) 0
  | Dbl.fin n1 m1, Dbl.fin n2 m2 =>
    if m2 = 0 then (if m1 = 0 then Dbl.nan else Dbl.inf (xor n1 n2))
    else Dbl.round (xor n1 n2) (m1 / m2)

/-- The sum `x + y` of two `double`s. -/
def Dbl.add : Dbl → Dbl → Dbl
  | Dbl.nan, _ => Dbl.nan
  | _, Dbl.nan => Dbl.nan
  | Dbl.inf n1, Dbl.inf n2 => if n1 = n2 then Dbl.inf n1 else Dbl.nan
  | Dbl.inf n1, Dbl.fin _ _ => Dbl.inf n1
  | Dbl.fin _ _, Dbl.inf n2 => Dbl.inf n2
  | Dbl.fin n1 m1, Dbl.fin n2 m2 =>
    let s := Dbl.val n1 m1 + Dbl.val n2 m2
    if s = 0 then Dbl.fin (n1 && n2) 0
    else Dbl.round (decide (s < 0)) |s|

/-- The comparison `x < y` of two `double`s; false when one of them is a NaN. -/
def Dbl.lt : Dbl → Dbl → Bool
  | Dbl.nan, _ => false
  | _, Dbl.nan => false
  | Dbl.inf n1, Dbl.inf n2 => n1 && !n2
  | Dbl.inf n1, Dbl.fin _ _ => n1
  | Dbl.fin _ _, Dbl.inf n2 => !n2
  | Dbl.fin n1 m1, Dbl.fin n2 m2 => decide (Dbl.val n1 m1 < Dbl.val n2 m2)

/-- The comparison `x == y` of two `double`s; false when one of them is a NaN, true for
`0.0` and `-0.0`. -/
def Dbl.eq : Dbl → Dbl → Bool
  | Dbl.inf n1, Dbl.inf n2 => n1 == n2
  | Dbl.fin n1 m1, Dbl.fin n2 m2 => decide (Dbl.val n1 m1 = Dbl.val n2 m2)
  | _, _ => false

/-! ## graph.cpp: shortest paths in `double` -/

/-- What `path` and `lowest` write to `cout` when the costs are `double`s. -/
inductive OutputD
  | failure
  | nodes (p : List Int)
  | cost (c : Dbl)
  deriving DecidableEq

/-- The `operator<` of `pair<double, int>`. -/
def pairLt (x y : Dbl × Int) : Bool :=
  Dbl.lt x.1 y.1 || (!Dbl.lt y.1 x.1 && decide (x.2 < y.2))

/-- The call `pq.push(e)` on the queue kept in pop order: with `greater<pair<double, int>>`
the queue pops a least pair, and `e` goes before the first pair that is not less than it.
(With a NaN among the costs `operator<` is no ordering and the pop order of
`std::priority_queue` is that of its heap; the model is used where no NaN arises.) -/
def pqPushD (e : Dbl × Int) : List (Dbl × Int) → List (Dbl × Int)
  | [] => [e]
  | x :: pq => if pairLt x e then x :: pqPushD e pq else e :: x :: pq

/-- The variables of `Graph::dijkstra`, with `dist` and the queue in `double`. -/
structure DStateD where
  g : Graph
  dist : UMap Dbl
  prev : UMap Int
  pq : List (Dbl × Int)

/-- The statement `double weight = edge.second.d / (edge.second.s * edge.second.a)`; the
attributes of the edge are the `double`s that the numerals were read as. -/
def weightD (e : Edge) : Dbl :=
  Dbl.div (Dbl.ofRat e.d) (Dbl.mul (Dbl.ofRat e.s) (Dbl.ofRat e.a))

/-- The body of the loop over `g[u]` in `dijkstra`, in `double`. -/
def relaxD (u : Int) (st : DStateD) (edge : Int × Edge) : DStateD :=
  let v := edge.1
  let weight := weightD edge.2
  if Dbl.lt (Dbl.add (UMap.getD st.dist u Dbl.zero) weight) (UMap.getD st.dist v Dbl.zero) then
    let dist1 := UMap.set st.dist v (Dbl.add (UMap.getD st.dist u Dbl.zero) weight)
    { st with
      dist := dist1
      prev := UMap.set st.prev v u
      pq := pqPushD (UMap.getD dist1 v Dbl.zero, v) st.pq }
  else st

/-- The `while (!pq.empty())` loop of `dijkstra`, in `double`; one unit of fuel per
iteration. -/
def dijkstraLoopD (dest : Int) : Nat → DStateD → Option DStateD
  | fuel, st =>
    match st.pq with
    | [] => some st
    | (current_dist, u) :: rest =>
      match fuel with
      | 0 => none
      | fuel + 1 =>
        let st1 : DStateD := { st with pq := rest }
        if Dbl.lt (UMap.getD st1.dist u Dbl.zero) current_dist then
          dijkstraLoopD dest fuel st1
        else if u = dest then
          some st1
        else
          let g1 := touch st1.g u
          dijkstraLoopD dest fuel ((UMap.getD g1 u []).foldl (relaxD u) { st1 with g := g1 })

/-- The initialisation loop of `dijkstra`, in `double`. -/
def initStepD (st : DStateD) (node : Int × UMap Edge) : DStateD :=
  { st with dist := UMap.set st.dist node.1 (Dbl.inf false), prev := UMap.set st.prev node.1 (-1) }

/-- Translation of `Graph::dijkstra` with the costs in `double`. -/
def dijkstraD (fuel : Nat) (g : Graph) (source dest : Int)
    (dist : UMap Dbl) (prev : UMap Int) : Option DStateD :=
  let st0 := g.foldl initStepD { g := g, dist := dist, prev := prev, pq := [] }
  let st1 : DStateD :=
    { st0 with dist := UMap.set st0.dist source Dbl.zero, pq := pqPushD (Dbl.zero, source) st0.pq }
  dijkstraLoopD dest fuel st1

/-- Translation of `Graph::path` with the costs in `double`. -/
def pathD (fuel : Nat) (g : Graph) (a b : Int) : Option (Graph × OutputD) :=
  if !node_exists g a || !node_exists g b then some (g, OutputD.failure)
  else if a = b then some (g, OutputD.failure)
  else
    match dijkstraD fuel g a b [] [] with
    | none => none
    | some st =>
      if Dbl.eq (UMap.getD st.dist b Dbl.zero) (Dbl.inf false) then some (st.g, OutputD.failure)
      else
        match pathBack st.prev fuel b with
        | none => none
        | some p =>
          let path := p.reverse
          if path.length = 1 ∧ path.head? = some a then some (st.g, OutputD.failure)
          else some (st.g, OutputD.nodes path)

/-- Translation of `Graph::lowest` with the costs in `double`; the number is kept as the
`double` that is printed, before its formatting to three decimals. -/
def lowestD (fuel : Nat) (g : Graph) (a b : Int) : Option (Graph × OutputD) :=
  if !node_exists g a || !node_exists g b then some (g, OutputD.failure)
  else
    match dijkstraD fuel g a b [] [] with
    | none => none
    | some st =>
      if Dbl.eq (UMap.getD st.dist b Dbl.zero) (Dbl.inf false) then some (st.g, OutputD.failure)
      else some (st.g, OutputD.cost (UMap.getD st.dist b Dbl.zero))

end Lab4

/-! # Lab 3: the hash table and the dictionary (`src/3_lab/tokenize.{h,cpp}`)

A `std::string` is a `String` and a `char` counts by its code (the keys the table accepts
are ASCII letters); the array of `forward_list` buckets is a list of lists, `push_front`
is `cons`; `unsigned int` is a natural number reduced modulo `2 ^ 32` after every
operation that can leave the range; a thrown `KeyError` is `none`. The load factor is the
exact quotient: for counters below `2 ^ 32` the quotient differs from `4 / 5` by more than
the rounding of a `double` unless it equals it, so the comparison with `0.8` in `double`
gives the same answer. -/

namespace Lab3

/-- The instantiated class `HashTable<std::string, int>`. -/
structure HashTable where
  array : List (List (String × Int))
  curr_size : Nat
  capacity : Nat

/-- The member `threshold`. -/
def threshold : ℚ := 8 / 10

/-- The constructor `HashTable(size)`. -/
def HashTable.create (size : Nat) : HashTable :=
  { array := List.replicate size [], curr_size := 0, capacity := size }

/-- Translation of `HashTable::hash`. -/
def HashTable.hash (ht : HashTable) (str : String) : Nat :=
  (str.data.foldl (fun ans c => (ans * 29 + c.toNat) % 2 ^ 32) 0) % ht.capacity

/-- The statement `new_array[hash(item.first)].push_front(item)` of `double_size`, the
hash taken with the capacity of `ht`. -/
def HashTable.rehashItem (ht : HashTable) (new_array : List (List (String × Int)))
    (item : String × Int) : List (List (String × Int)) :=
  let new_hash_int := ht.hash item.1
  new_array.set new_hash_int (item :: new_array.getD new_hash_int [])

/-- Translation of `HashTable::double_size`. -/
def HashTable.double_size (ht : HashTable) : HashTable :=
  let ht1 : HashTable := { ht with capacity := (ht.capacity * 2) % 2 ^ 32 }
  let new_array := (List.range (ht1.capacity / 2)).foldl
    (fun new_array i => (ht1.array.getD i []).foldl ht1.rehashItem new_array)
    (List.replicate ht1.capacity [])
  { ht1 with array := new_array }

/-- Translation of `HashTable::load_factor`. -/
def HashTable.load_factor (ht : HashTable) : ℚ :=
  (ht.curr_size : ℚ) / (ht.capacity : ℚ)

/-- The end of `HashTable::insert`, from `this_list.push_front(pair)` on. -/
def HashTable.pushAndGrow (ht : HashTable) (hash_int : Nat) (pair : String × Int) :
    HashTable × Bool :=
  let ht1 : HashTable :=
    { ht with array := ht.array.set hash_int (pair :: ht.array.getD hash_int []) }
  let ht2 : HashTable := { ht1 with curr_size := (ht1.curr_size + 1) % 2 ^ 32 }
  if ht2.load_factor ≥ threshold then (ht2.double_size, true) else (ht2, true)

/-- Translation of `HashTable::insert`: the new table and the returned flag. -/
def HashTable.insert (ht : HashTable) (pair : String × Int) : HashTable × Bool :=
  if pair.1.data.any (fun c => !c.isAlpha) then (ht, false)
  else
    let hash_int := ht.hash pair.1
    let this_list := ht.array.getD hash_int []
    if this_list.isEmpty then ht.pushAndGrow hash_int pair
    else if this_list.any (fun item => decide (item.1 = pair.1)) then (ht, false)
    else ht.pushAndGrow hash_int pair

/-- Translation of `HashTable::get`; `none` is the thrown `KeyError`. -/
def HashTable.get (ht : HashTable) (word : String) : Option Int :=
  let hash_int := ht.hash word
  if !(ht.array.getD hash_int []).isEmpty then
    ((ht.array.getD hash_int []).find? (fun item => decide (item.1 = word))).map Prod.snd
  else none

/-- Translation of `HashTable::get_size`. -/
def HashTable.get_size (ht : HashTable) : Nat := ht.curr_size

/-- Translation of `HashTable::get_max_size`. -/
def HashTable.get_max_size (ht : HashTable) : Nat := ht.capacity

/-- A sequence of `insert` calls: the final table and the returned flags, in order. -/
def HashTable.insertAll (ht : HashTable) : List (String × Int) → HashTable × List Bool
  | [] => (ht, [])
  | pair :: rest =>
    let r := ht.insert pair
    let rs := r.1.insertAll rest
    (rs.1, r.2 :: rs.2)

/-- The pairs stored in the table: the contents of all buckets. -/
def HashTable.items (ht : HashTable) : List (String × Int) :=
  ht.array.flatten

/-- The state of a table between calls: one bucket per unit of capacity, every pair in the
bucket of its hash, no key stored twice, `curr_size` the number of stored pairs, and
the load factor below the threshold. -/
structure HashTable.Inv (ht : HashTable) : Prop where
  len : ht.array.length = ht.capacity
  pos : 1 ≤ ht.capacity
  home : ∀ i, ∀ item ∈ ht.array.getD i [], ht.hash item.1 = i
  nodup : (ht.items.map Prod.fst).Nodup
  size : ht.curr_size = ht.items.length
  load : 5 * ht.curr_size < 4 * ht.capacity

/-- What the rehash of `double_size` keeps of the new array: one bucket per unit of
capacity, every pair in the bucket of its hash. -/
structure Homed (ht : HashTable) (arr : List (List (String × Int))) : Prop where
  len : arr.length = ht.capacity
  home : ∀ i, ∀ item ∈ arr.getD i [], ht.hash item.1 = i

/-- The conversion of an `unsigned int` to `int`. -/
def toInt (n : Nat) : Int :=
  if n % 2 ^ 32 < 2 ^ 31 then ((n % 2 ^ 32 : Nat) : Int) else ((n % 2 ^ 32 : Nat) : Int) - 2 ^ 32

/-- The class `Dictionary`. -/
structure Dictionary where
  words : List String
  hash_table : HashTable

/-- The constructor `Dictionary(size)`. -/
def Dictionary.create (size : Nat) : Dictionary :=
  { words := [""], hash_table := HashTable.create size }

/-- Translation of `Dictionary::insert`. -/
def Dictionary.insert (d : Dictionary) (str : String) : Dictionary × Bool :=
  let token := d.words.length % 2 ^ 32
  let r := d.hash_table.insert (str, toInt token)
  if !r.2 then ({ d with hash_table := r.1 }, false)
  else ({ words := d.words ++ [str], hash_table := r.1 }, true)

/-- Translation of `Dictionary::token`. -/
def Dictionary.token (d : Dictionary) (word : String) : Int :=
  match d.hash_table.get word with
  | some v => v
  | none => -1

/-- Translation of `Dictionary::ret`. -/
def Dictionary.ret (d : Dictionary) (token : Int) : String :=
  if token < 1 ∨ token ≥ (d.words.length : Int) then "N/A"
  else d.words.getD token.toNat ""

/-- A sequence of `Dictionary::insert` calls: the final dictionary and the returned
flags, in order. -/
def Dictionary.insertAll (d : Dictionary) : List String → Dictionary × List Bool
  | [] => (d, [])
  | str :: rest =>
    let r := d.insert str
    let rs := r.1.insertAll rest
    (rs.1, r.2 :: rs.2)

/-- The state of a dictionary between calls: the table is in order, and it maps exactly
the words at the positions from 1 on to their positions. -/
structure Dictionary.Inv (d : Dictionary) : Prop where
  table : d.hash_table.Inv
  size : d.hash_table.curr_size + 1 = d.words.length
  toks : ∀ k v, (k, v) ∈ d.hash_table.items ↔
    ∃ n : Nat, 1 ≤ n ∧ v = (n : Int) ∧ d.words[n]? = some k

/-- The ten pairs (`keyA`, 1) .. (`keyJ`, 10) of `test_hash_table`. -/
def exKeys : List (String × Int) :=
  [("keyA", 1), ("keyB", 2), ("keyC", 3), ("keyD", 4), ("keyE", 5),
   ("keyF", 6), ("keyG", 7), ("keyH", 8), ("keyI", 9), ("keyJ", 10)]

end Lab3

/-! # Lab 2: the trie (`src/2_lab/trie.{h,cpp}`)

A `char` is its code (`'A'` is 65, `'Z'` is 90) and a `std::string` the list of the
codes of its characters; the array `_children[26]` is a list of optional nodes, a null
pointer being `none`; a call that throws `std::invalid_argument` returns `none`; the
counter `num_words` is an `unsigned int`, reduced modulo `2 ^ 32`. -/

namespace Lab2

/-- The class `TrieNode`: the array `_children` and the flag `_is_last_char`. -/
inductive TrieNode where
  | mk (_children : List (Option TrieNode)) (_is_last_char : Bool) : TrieNode

/-- The member `_children`. -/
def TrieNode._children : TrieNode → List (Option TrieNode)
  | .mk cs _ => cs

/-- Translation of `TrieNode::isLastChar`. -/
def TrieNode.isLastChar : TrieNode → Bool
  | .mk _ b => b

/-- The constructor `TrieNode(last_char)`. -/
def TrieNode.create (last_char : Bool) : TrieNode :=
  .mk (List.replicate 26 none) last_char

/-- Translation of `TrieNode::getChild`: the content of the slot of the letter. -/
def TrieNode.getChild (n : TrieNode) (uppercaseLetter : Nat) : Option (Option TrieNode) :=
  if uppercaseLetter < 65 ∨ uppercaseLetter > 90 then none
  else
    let index := uppercaseLetter - 0x41
    some (n._children.getD index none)

/-- An assignment through the reference that `getChild` returns (for a letter that
`getChild` accepted). -/
def TrieNode.putChild (n : TrieNode) (uppercaseLetter : Nat) (p : Option TrieNode) :
    TrieNode :=
  .mk (n._children.set (uppercaseLetter - 0x41) p) n.isLastChar

/-- Translation of `TrieNode::setLastChar`. -/
def TrieNode.setLastChar (n : TrieNode) (last_char : Bool) : TrieNode :=
  .mk n._children last_char

/-- Translation of `TrieNode::has_children`. -/
def TrieNode.has_children (n : TrieNode) : Bool :=
  n._children.any (fun c => c.isSome)

/-- The class `Trie`. -/
structure Trie where
  _root : TrieNode
  num_words : Nat

/-- The constructor `Trie()`. -/
def Trie.create : Trie :=
  { _root := TrieNode.create false, num_words := 0 }

/-- The loop of `Trie::_findNode` from the node `curr` on: `some none` is the null
pointer. -/
def findLoop : List Nat → TrieNode → Option (Option TrieNode)
  | [], curr => some (some curr)
  | c :: rest, curr =>
    match curr.getChild c with
    | none => none
    | some none => some none
    | some (some child) => findLoop rest child

/-- Translation of `Trie::_findNode`. -/
def Trie._findNode (t : Trie) (word : List Nat) : Option (Option TrieNode) :=
  findLoop word t._root

/-- The loop of `Trie::insert` from the node `curr` on, over the characters still to
read: the node `curr` after the loop, and false when the loop ended with `return false`. -/
def insertLoop : List Nat → TrieNode → Option (TrieNode × Bool)
  | [], curr => some (curr, true)
  | c :: rest, curr =>
    let is_last_char := rest.isEmpty
    match curr.getChild c with
    | none => none
    | some none =>
      (insertLoop rest (TrieNode.create is_last_char)).map
        (fun r => (curr.putChild c (some r.1), r.2))
    | some (some child) =>
      if is_last_char && child.isLastChar then some (curr, false)
      else
        let child1 :=
          if is_last_char && !child.isLastChar then child.setLastChar true else child
        (insertLoop rest child1).map (fun r => (curr.putChild c (some r.1), r.2))

/-- Translation of `Trie::insert`. -/
def Trie.insert (t : Trie) (word : List Nat) : Option (Trie × Bool) :=
  match insertLoop word t._root with
  | none => none
  | some (root, false) => some ({ t with _root := root }, false)
  | some (root, true) => some ({ _root := root, num_words := (t.num_words + 1) % 2 ^ 32 }, true)

/-- Translation of `Trie::eraseRecursive`, with `rest` the characters of `word` after
position `i`: the new content of the slot `curr_node` and the returned flag. -/
def eraseRecursive : List Nat → Option TrieNode → Option (Option TrieNode × Bool)
  | _, none => some (none, false)
  | [], some curr_node =>
    let curr1 := curr_node.setLastChar false
    if !curr1.has_children then some (none, true) else some (some curr1, true)
  | c :: rest, some curr_node =>
    match curr_node.getChild c with
    | none => none
    | some child_of_next_char =>
      match eraseRecursive rest child_of_next_char with
      | none => none
      | some (child1, deleted) =>
        let curr1 := curr_node.putChild c child1
        if !curr1.has_children && !curr1.isLastChar then some (none, deleted)
        else some (some curr1, deleted)

/-- Translation of `Trie::erase`; `word[0]` of the empty string is the character 0. -/
def Trie.erase (t : Trie) (word : List Nat) : Option (Trie × Bool) :=
  match t._root.getChild (word.headD 0) with
  | none => none
  | some first_char_pointer =>
    match eraseRecursive word.tail first_char_pointer with
    | none => none
    | some (p, deleted) =>
      let root := t._root.putChild (word.headD 0) p
      if deleted then
        some ({ _root := root, num_words := (t.num_words + 2 ^ 32 - 1) % 2 ^ 32 }, true)
      else some ({ t with _root := root }, false)

/-- Translation of the no-argument `Trie::numWords`. -/
def Trie.numWords (t : Trie) : Nat :=
  t.num_words

mutual
/-- Translation of `Trie::numWordsRecursive`. -/
def numWordsRecursive : TrieNode → Nat → Nat
  | .mk cs _, numWords => numWordsLoop cs numWords
/-- The loop of `numWordsRecursive` over the slots still to visit. -/
def numWordsLoop : List (Option TrieNode) → Nat → Nat
  | [], numWords => numWords
  | none :: cs, numWords => numWordsLoop cs numWords
  | some child_ptr :: cs, numWords =>
    numWordsLoop cs
      (numWordsRecursive child_ptr
        ((numWords + (if child_ptr.isLastChar then 1 else 0)) % 2 ^ 32))
end

/-- Translation of `Trie::numWords(std::string prefix)`. -/
def Trie.numWordsWith (t : Trie) (pfx : List Nat) : Option Nat :=
  match t._findNode pfx with
  | none => none
  | some none => none
  | some (some prefix_ptr) =>
    some (numWordsRecursive prefix_ptr (if prefix_ptr.isLastChar then 1 else 0))

/-- Translation of `Trie::clear`. -/
def Trie.clear (t : Trie) : Trie :=
  { _root := .mk (t._root._children.map (fun _ => none)) t._root.isLastChar, num_words := 0 }

/-- The codes of the characters of a string. -/
def str (s : String) : List Nat :=
  s.data.map Char.toNat

/-- A word of letters `A` to `Z`. -/
def Upper (word : List Nat) : Prop :=
  ∀ c ∈ word, 65 ≤ c ∧ c ≤ 90

instance (word : List Nat) : Decidable (Upper word) :=
  inferInstanceAs (Decidable (∀ c ∈ word, 65 ≤ c ∧ c ≤ 90))

mutual
/-- The words stored below a node, each as the list of characters on the path from the
node to a node marked as the last character of a word. -/
def TrieNode.words : TrieNode → List (List Nat)
  | .mk cs b => (if b then [[]] else []) ++ wordsFrom cs 65
/-- The words stored below the nodes of a list of slots, the first slot being that of
the character `c`. -/
def wordsFrom : List (Option TrieNode) → Nat → List (List Nat)
  | [], _ => []
  | none :: cs, c => wordsFrom cs (c + 1)
  | some child :: cs, c => (child.words.map (fun w => c :: w)) ++ wordsFrom cs (c + 1)
end

/-- The words stored below the node of a slot, none for a null pointer. -/
def slotWords : Option TrieNode → List (List Nat)
  | none => []
  | some child => child.words

/-- The words stored in the trie. -/
def Trie.words (t : Trie) : List (List Nat) :=
  t._root.words

mutual
/-- Every node has 26 slots. -/
def TrieNode.WF : TrieNode → Prop
  | .mk cs _ => cs.length = 26 ∧ WFList cs
/-- Every node below a list of slots has 26 slots. -/
def WFList : List (Option TrieNode) → Prop
  | [] => True
  | none :: cs => WFList cs
  | some child :: cs => child.WF ∧ WFList cs
end

mutual
/-- Every node, this one included, is marked as the last character of a word or has a
child. -/
def TrieNode.Live : TrieNode → Prop
  | .mk cs b => (b = true ∨ cs.any (fun c => c.isSome) = true) ∧ LiveList cs
/-- Every node below a list of slots is marked or has a child. -/
def LiveList : List (Option TrieNode) → Prop
  | [] => True
  | none :: cs => LiveList cs
  | some child :: cs => child.Live ∧ LiveList cs
end

/-- The state of a trie between calls: every node has 26 slots, every node other than
the root is marked or has a child, and the root is not marked. -/
structure Trie.Inv (t : Trie) : Prop where
  wf : t._root.WF
  live : LiveList t._root._children
  root : t._root.isLastChar = false

/-- The tries that `insert`, `erase` and `clear` with non-empty words of letters `A` to
`Z` produce from the empty trie. -/
inductive Trie.Reachable : Trie → Prop
  | create : Trie.Reachable Trie.create
  | insert (t t1 : Trie) (word : List Nat) (b : Bool) :
      Trie.Reachable t → word ≠ [] → Upper word → t.insert word = some (t1, b) →
      Trie.Reachable t1
  | erase (t t1 : Trie) (word : List Nat) (b : Bool) :
      Trie.Reachable t → word ≠ [] → Upper word → t.erase word = some (t1, b) →
      Trie.Reachable t1
  | clear (t : Trie) : Trie.Reachable t → Trie.Reachable t.clear

/-- The trie after `insert("AB")`. -/
def exAB : Trie :=
  ((Trie.create.insert (str "AB")).map Prod.fst).getD Trie.create

/-- The trie after `insert("AB")` and `insert("A")`. -/
def exABA : Trie :=
  ((exAB.insert (str "A")).map Prod.fst).getD Trie.create

/-- The trie after `insert("AB")` and `erase("A")`. -/
def exMiscount : Option Trie :=
  ((Trie.create.insert (str "AB")).bind (fun r => r.1.erase (str "A"))).map Prod.fst

end Lab2

/-! # Lab 1: the player list of the game (`src/1_lab/game.{h,cpp}`)

The linked list that starts at `_head` is the list of its players, in link order; the
coordinates are exact rationals. -/

namespace Lab1

/-- The class `Player` without its link: the position. -/
structure Player where
  x : ℚ
  y : ℚ
  deriving DecidableEq

/-- The class `Game`: the players reached from `_head`, and `_num_players`. -/
structure Game where
  _head : List Player
  _num_players : Int

/-- The first loop of `_filter_list`: remove head nodes while the head fails the filter. -/
def filterHead (filter_fn : Player → Bool) : List Player → Int → List Player × Int
  | [], n => ([], n)
  | p :: ps, n => if !filter_fn p then filterHead filter_fn ps (n - 1) else (p :: ps, n)

/-- The second loop of `_filter_list`, with `curr` the cursor and the list its successors:
the list from `curr` on when the loop ends, and the counter. -/
def filterRest (filter_fn : Player → Bool) (curr : Player) :
    List Player → Int → List Player × Int
  | [], n => ([curr], n)
  | [nx], n =>
    if !filter_fn nx then ([curr], n - 1)
    else
      let r := filterRest filter_fn nx [] n
      (curr :: r.1, r.2)
  | nx :: m :: rest, n =>
    if !filter_fn nx then
      if filter_fn m then
        let r := filterRest filter_fn m rest (n - 1)
        (curr :: r.1, r.2)
      else filterRest filter_fn curr (m :: rest) (n - 1)
    else
      let r := filterRest filter_fn nx (m :: rest) n
      (curr :: r.1, r.2)

/-- Translation of `Game::_filter_list`. -/
def Game._filter_list (g : Game) (filter_fn : Player → Bool) : Game :=
  let r := filterHead filter_fn g._head g._num_players
  match r.1 with
  | [] => { _head := [], _num_players := r.2 }
  | curr :: rest =>
    let r2 := filterRest filter_fn curr rest r.2
    { _head := r2.1, _num_players := r2.2 }

end Lab1

/-! # Lab 0: the playlist (`src/0_lab/playlist.{h,cpp}`)

A `std::string` is a `String`; the array `_song_arr` is a list with one entry per
allocated slot; what `append` prints is returned with the new playlist. -/

namespace Lab0

/-- The class `Song`: title and artist. -/
structure Song where
  _title : String
  _artist : String
  deriving DecidableEq

/-- The class `Playlist`: capacity, size and the array of songs. -/
structure Playlist where
  _capacity : Nat
  _size : Nat
  _song_arr : List Song

/-- The constructor `Playlist(int N)`: `N` default-constructed songs, size 0. -/
def Playlist.create (N : Nat) : Playlist :=
  { _capacity := N, _size := 0, _song_arr := List.replicate N { _title := "", _artist := "" } }

/-- Translation of `Playlist::ismember`: the loop over the first `_size` slots. -/
def Playlist.ismember (p : Playlist) (song : Song) : Bool :=
  (p._song_arr.take p._size).foldl (fun ismember s => if s = song then true else ismember) false

/-- Translation of `Playlist::_is_valid_input`. -/
def Playlist._is_valid_input (p : Playlist) (song : Song) : Bool :=
  let blacklisted_song : Song := { _title := "Baby", _artist := "Justin Bieber" }
  let blacklisted_title : String := "My Heart Will Go On"
  let not_in_list := !(p.ismember song)
  let not_blacklisted := decide (song ≠ blacklisted_song) && decide (song._title ≠ blacklisted_title)
  let not_full := decide (p._size < p._capacity)
  not_in_list && not_blacklisted && not_full

/-- Translation of `Playlist::append`: the new playlist and the printed line. -/
def Playlist.append (p : Playlist) (title artist : String) : Playlist × String :=
  let song_to_add : Song := { _title := title, _artist := artist }
  if p._is_valid_input song_to_add then
    let curr_size := p._size
    ({ p with _song_arr := p._song_arr.set curr_size song_to_add, _size := p._size + 1 },
      "success")
  else
    (p, "can not insert " ++ title ++ ";" ++ artist)

/-- The songs of the playlist: the first `_size` slots of the array. -/
def Playlist.songs (p : Playlist) : List Song :=
  p._song_arr.take p._size

end Lab0

namespace Lab4

/-! ## Facts about the containers -/

theorem UMap.find_set {β : Type} (m : UMap β) (x y : Int) (v : β) :
    UMap.find (UMap.set m x v) y = if x = y then some v else UMap.find m y := by
  induction m with
  | nil => simp [UMap.set, UMap.find]
  | cons p m ih =>
    obtain ⟨k, w⟩ := p
    by_cases hk : k = x
    · subst hk
      by_cases hy : k = y <;> simp [UMap.set, UMap.find, hy]
    · by_cases hy : k = y
      · subst hy
        have hx : ¬ x = k := fun h => hk h.symm
        simp [UMap.set, UMap.find, hk, hx]
      · simp [UMap.set, UMap.find, hk, hy, ih]

theorem UMap.find_erase {β : Type} (m : UMap β) (x y : Int) :
    UMap.find (UMap.erase m x) y = if x = y then none else UMap.find m y := by
  induction m with
  | nil => simp [UMap.erase, UMap.find]
  | cons p m ih =>
    obtain ⟨k, w⟩ := p
    unfold UMap.erase at ih ⊢
    by_cases hk : k = x
    · subst hk
      by_cases hy : k = y
      · subst hy
        simpa [UMap.find] using ih
      · simpa [UMap.find, hy] using ih
    · by_cases hy : k = y
      · subst hy
        have hx : ¬ x = k := fun h => hk h.symm
        simp [UMap.find, hk, hx]
      · simpa [UMap.find, hk, hy] using ih

theorem UMap.find_isSome_iff {β : Type} (m : UMap β) (x : Int) :
    (UMap.find m x).isSome = true ↔ x ∈ UMap.keys m := by
  induction m with
  | nil => simp [UMap.find, UMap.keys]
  | cons p m ih =>
    obtain ⟨k, w⟩ := p
    by_cases hk : k = x
    · simp [UMap.find, UMap.keys, hk]
    · have hx : ¬ x = k := fun h => hk h.symm
      simp only [UMap.find, hk, if_false, ih]
      simp [UMap.keys, hx]

theorem UMap.find_eq_none_iff {β : Type} (m : UMap β) (x : Int) :
    UMap.find m x = none ↔ x ∉ UMap.keys m := by
  rw [← UMap.find_isSome_iff]
  cases UMap.find m x <;> simp

theorem UMap.mem_of_find {β : Type} (m : UMap β) (x : Int) (v : β)
    (h : UMap.find m x = some v) : (x, v) ∈ m := by
  induction m with
  | nil => simp [UMap.find] at h
  | cons p m ih =>
    obtain ⟨k, w⟩ := p
    by_cases hk : k = x
    · simp [UMap.find, hk] at h
      simp [hk, h]
    · simp only [UMap.find, hk, if_false] at h
      exact List.mem_cons_of_mem _ (ih h)

theorem UMap.find_of_mem {β : Type} (m : UMap β) (x : Int) (v : β)
    (hn : (UMap.keys m).Nodup) (h : (x, v) ∈ m) : UMap.find m x = some v := by
  induction m with
  | nil => simp at h
  | cons p m ih =>
    obtain ⟨k, w⟩ := p
    simp only [UMap.keys, List.map_cons, List.nodup_cons] at hn
    rcases List.mem_cons.1 h with h | h
    · cases h
      simp [UMap.find]
    · have hk : ¬ k = x := by
        intro hkx
        apply hn.1
        subst hkx
        exact List.mem_map.2 ⟨(k, v), h, rfl⟩
      simp only [UMap.find, hk, if_false]
      exact ih hn.2 h

theorem UMap.keys_set {β : Type} (m : UMap β) (x : Int) (v : β) :
    UMap.keys (UMap.set m x v) = if x ∈ UMap.keys m then UMap.keys m else UMap.keys m ++ [x] := by
  induction m with
  | nil => simp [UMap.set, UMap.keys]
  | cons p m ih =>
    obtain ⟨k, w⟩ := p
    by_cases hk : k = x
    · simp [UMap.set, UMap.keys, hk]
    · have hx : ¬ x = k := fun h => hk h.symm
      simp only [UMap.keys] at ih
      simp only [UMap.set, hk, if_false, UMap.keys, List.map_cons, ih, List.mem_cons, hx,
        false_or]
      split <;> simp

theorem UMap.nodup_keys_set {β : Type} (m : UMap β) (x : Int) (v : β)
    (h : (UMap.keys m).Nodup) : (UMap.keys (UMap.set m x v)).Nodup := by
  rw [UMap.keys_set]
  split
  · exact h
  · rename_i hx
    exact List.Nodup.append h (List.nodup_singleton x) (by simpa using hx)

theorem UMap.nodup_keys_erase {β : Type} (m : UMap β) (x : Int)
    (h : (UMap.keys m).Nodup) : (UMap.keys (UMap.erase m x)).Nodup := by
  unfold UMap.keys UMap.erase at *
  exact (List.Nodup.sublist (List.Sublist.map _ (List.filter_sublist _)) h)

theorem UMap.mem_set {β : Type} (m : UMap β) (x : Int) (v : β) (p : Int × β)
    (h : p ∈ UMap.set m x v) : p ∈ m ∨ p = (x, v) := by
  induction m with
  | nil => simpa [UMap.set] using h
  | cons q m ih =>
    obtain ⟨k, w⟩ := q
    by_cases hk : k = x
    · simp only [UMap.set, hk, if_true, List.mem_cons] at h
      rcases h with h | h
      · exact Or.inr h
      · exact Or.inl (List.mem_cons_of_mem _ h)
    · simp only [UMap.set, hk, if_false, List.mem_cons] at h
      rcases h with h | h
      · exact Or.inl (by simp [h])
      · rcases ih h with h1 | h1
        · exact Or.inl (List.mem_cons_of_mem _ h1)
        · exact Or.inr h1

/-! ## Facts about the adjacency storage -/

theorem entry_modifyEntry (g : Graph) (a b : Int) (f : Edge → Edge) (x y : Int) :
    entry (modifyEntry g a b f) x y =
      if x = a ∧ y = b then some (f ((entry g a b).getD Edge.init)) else entry g x y := by
  unfold entry modifyEntry
  simp only [UMap.find_set]
  by_cases hx : a = x
  · subst hx
    by_cases hy : b = y
    · subst hy
      cases h : UMap.find g a <;> simp [UMap.getD, h, UMap.find_set, UMap.find]
    · have hy2 : ¬ y = b := fun h => hy h.symm
      cases h : UMap.find g a <;> simp [UMap.getD, h, UMap.find_set, UMap.find, hy, hy2]
  · have hx2 : ¬ x = a := fun h => hx h.symm
    simp [hx, hx2]

theorem node_exists_modifyEntry (g : Graph) (a b : Int) (f : Edge → Edge) (x : Int) :
    node_exists (modifyEntry g a b f) x = (node_exists g x || decide (x = a)) := by
  unfold node_exists modifyEntry
  simp only [UMap.find_set]
  by_cases hx : a = x
  · simp [hx]
  · have hx2 : ¬ x = a := fun h => hx h.symm
    simp [hx, hx2]

theorem entry_insert (g : Graph) (a b : Int) (d s : ℚ) (silence : Bool) (x y : Int) :
    entry (insert g a b d s silence).1 x y =
      if (x = a ∧ y = b) ∨ (x = b ∧ y = a) then
        some { d := d, s := s, a := ((entry g x y).getD Edge.init).a }
      else entry g x y := by
  unfold insert
  simp only [entry_modifyEntry]
  by_cases h1 : x = a ∧ y = b
  · obtain ⟨rfl, rfl⟩ := h1
    by_cases h2 : x = y
    · subst h2
      simp
    · have h3 : ¬ y = x := fun h => h2 h.symm
      simp [h2, h3]
  · by_cases h2 : x = b ∧ y = a
    · obtain ⟨rfl, rfl⟩ := h2
      have h3 : ¬ (y = x ∧ x = y) := fun h => h1 ⟨h.2, h.1⟩
      have h4 : ¬ (x = y ∧ y = x) := fun h => h1 ⟨h.1, h.2⟩
      simp [h3, h4]
    · simp [h1, h2]

theorem node_exists_insert (g : Graph) (a b : Int) (d s : ℚ) (silence : Bool) (x : Int) :
    node_exists (insert g a b d s silence).1 x =
      (node_exists g x || decide (x = a) || decide (x = b)) := by
  unfold insert
  simp only [node_exists_modifyEntry]
  cases node_exists g x <;> cases decide (x = a) <;> cases decide (x = b) <;> rfl

theorem edge_exists_eq (g : Graph) (a b : Int) :
    edge_exists g a b = ((entry g a b).isSome && (entry g b a).isSome) := by
  unfold edge_exists entry UMap.getD
  cases UMap.find g a <;> cases UMap.find g b <;> simp

theorem entry_traffic (g : Graph) (a b : Int) (f : ℚ) (silence : Bool) (x y : Int) :
    entry (traffic g a b f silence).1 x y =
      if edge_exists g a b = true ∧ ((x = a ∧ y = b) ∨ (x = b ∧ y = a)) then
        (entry g x y).map (fun e => { e with a := f })
      else entry g x y := by
  unfold traffic
  by_cases he : edge_exists g a b = true
  · have he2 := he
    rw [edge_exists_eq, Bool.and_eq_true] at he2
    obtain ⟨hab, hba⟩ := he2
    obtain ⟨e1, h1⟩ := Option.isSome_iff_exists.1 hab
    obtain ⟨e2, h2⟩ := Option.isSome_iff_exists.1 hba
    simp only [he, Bool.not_true, Bool.false_eq_true, if_false, entry_modifyEntry, true_and]
    by_cases c1 : x = a ∧ y = b
    · obtain ⟨rfl, rfl⟩ := c1
      by_cases c2 : x = y
      · subst c2
        simp [h1]
      · have c3 : ¬ y = x := fun h => c2 h.symm
        simp [c2, c3, h1]
    · by_cases c2 : x = b ∧ y = a
      · obtain ⟨rfl, rfl⟩ := c2
        have h3 : ¬ (y = x ∧ x = y) := fun h => c1 ⟨h.2, h.1⟩
        have h4 : ¬ (x = y ∧ y = x) := fun h => c1 ⟨h.1, h.2⟩
        simp [h3, h4, h2]
      · simp [c1, c2]
  · simp [he]

theorem node_exists_traffic (g : Graph) (a b : Int) (f : ℚ) (silence : Bool) (x : Int) :
    node_exists (traffic g a b f silence).1 x = node_exists g x := by
  unfold traffic
  by_cases he : edge_exists g a b = true
  · have he2 := he
    rw [edge_exists_eq, Bool.and_eq_true] at he2
    have ha : node_exists g a = true := by
      unfold node_exists
      unfold entry at he2
      cases h : UMap.find g a
      · simp [h] at he2
      · rfl
    have hb : node_exists g b = true := by
      unfold node_exists
      unfold entry at he2
      cases h : UMap.find g b
      · simp [h] at he2
      · rfl
    simp only [he, Bool.not_true, Bool.false_eq_true, if_false, node_exists_modifyEntry]
    by_cases c1 : x = a
    · subst c1
      simp [ha]
    · by_cases c2 : x = b
      · subst c2
        simp [hb]
      · simp [c1, c2]
  · simp [he]

theorem entry_eraseFrom (a : Int) (g : Graph) (i x y : Int) :
    entry (eraseFrom a g i) x y = if x = i ∧ y = a then none else entry g x y := by
  unfold entry eraseFrom
  simp only [UMap.find_set]
  by_cases hx : i = x
  · subst hx
    by_cases hy : a = y
    · simp [hy, UMap.find_erase]
    · have hy2 : ¬ y = a := fun h => hy h.symm
      cases h : UMap.find g i <;> simp [UMap.getD, h, UMap.find_erase, hy, hy2, UMap.find]
  · have hx2 : ¬ x = i := fun h => hx h.symm
    simp [hx, hx2]

theorem node_exists_eraseFrom (a : Int) (g : Graph) (i x : Int) :
    node_exists (eraseFrom a g i) x = (node_exists g x || decide (x = i)) := by
  unfold node_exists eraseFrom
  simp only [UMap.find_set]
  by_cases hx : i = x
  · simp [hx]
  · have hx2 : ¬ x = i := fun h => hx h.symm
    simp [hx, hx2]

theorem entry_foldl_eraseFrom (a : Int) (l : List Int) (g : Graph) (x y : Int) :
    entry (l.foldl (eraseFrom a) g) x y = if x ∈ l ∧ y = a then none else entry g x y := by
  induction l generalizing g with
  | nil => simp
  | cons i l ih =>
    simp only [List.foldl_cons, ih, entry_eraseFrom, List.mem_cons]
    by_cases hy : y = a
    · by_cases h1 : x ∈ l
      · simp [h1, hy]
      · by_cases h2 : x = i <;> simp [h1, h2, hy]
    · simp [hy]

theorem node_exists_foldl_eraseFrom (a : Int) (l : List Int) (g : Graph) (x : Int) :
    node_exists (l.foldl (eraseFrom a) g) x = (node_exists g x || decide (x ∈ l)) := by
  induction l generalizing g with
  | nil => simp
  | cons i l ih =>
    simp only [List.foldl_cons, ih, node_exists_eraseFrom, List.mem_cons]
    by_cases h1 : x = i <;> by_cases h2 : x ∈ l <;> simp [h1, h2]

theorem entry_erase_node (g : Graph) (a x y : Int) :
    entry (UMap.erase g a) x y = if x = a then none else entry g x y := by
  unfold entry
  rw [UMap.find_erase]
  by_cases hx : a = x
  · simp [hx]
  · have hx2 : ¬ x = a := fun h => hx h.symm
    simp [hx, hx2]

theorem entry_delete_n (g : Graph) (a x y : Int) (h : node_exists g a = true) :
    entry (delete_n g a).1 x y =
      if x = a ∨ (x ∈ UMap.keys (UMap.getD g a []) ∧ y = a) then none else entry g x y := by
  unfold delete_n
  simp only [h, if_true, entry_erase_node, entry_foldl_eraseFrom]
  by_cases hx : x = a
  · simp [hx]
  · simp [hx]

theorem node_exists_delete_n (g : Graph) (a x : Int) (h : node_exists g a = true) :
    node_exists (delete_n g a).1 x =
      (!decide (x = a) && (node_exists g x || decide (x ∈ UMap.keys (UMap.getD g a [])))) := by
  unfold delete_n
  simp only [h, if_true]
  unfold node_exists
  rw [UMap.find_erase]
  by_cases hx : a = x
  · simp [hx]
  · have hx2 : ¬ x = a := fun h => hx h.symm
    have := node_exists_foldl_eraseFrom a (UMap.keys (UMap.getD g a [])) g x
    unfold node_exists at this
    simp [hx, hx2, this]

theorem mem_keys_row_iff (g : Graph) (a x : Int) :
    x ∈ UMap.keys (UMap.getD g a []) ↔ (entry g a x).isSome = true := by
  rw [← UMap.find_isSome_iff]
  unfold entry UMap.getD
  cases UMap.find g a <;> simp [UMap.find]

theorem node_exists_of_entry (g : Graph) (a b : Int) (e : Edge) (h : entry g a b = some e) :
    node_exists g a = true := by
  unfold entry at h
  unfold node_exists
  cases h1 : UMap.find g a
  · simp [h1] at h
  · rfl

/-! ## Reachable states and their invariants -/

theorem foldl_loadStep_inv (P : Graph → Prop)
    (hins : ∀ g a b d s silence, P g → P (insert g a b d s silence).1)
    (records : List (Int × Int × ℚ × ℚ)) (g : Graph) (h : P g) :
    P (records.foldl loadStep g) := by
  induction records generalizing g with
  | nil => exact h
  | cons r rs ih => exact ih _ (hins _ _ _ _ _ _ h)

theorem foldl_updateStep_inv (P : Graph → Prop)
    (htraf : ∀ g a b f silence, P g → P (traffic g a b f silence).1)
    (records : List (Int × Int × ℚ)) (acc : Graph × Bool) (h : P acc.1) :
    P (records.foldl updateStep acc).1 := by
  induction records generalizing acc with
  | nil => exact h
  | cons r rs ih =>
    apply ih
    unfold updateStep
    split
    · exact htraf _ _ _ _ _ h
    · exact h

/-- A property of the empty graph that `insert`, `delete_n` and `traffic` preserve
holds in every reachable state. -/
theorem Reachable.inv (P : Graph → Prop) (hempty : P [])
    (hins : ∀ g a b d s silence, P g → P (insert g a b d s silence).1)
    (hdel : ∀ g a, P g → P (delete_n g a).1)
    (htraf : ∀ g a b f silence, P g → P (traffic g a b f silence).1)
    (g : Graph) (h : Reachable g) : P g := by
  induction h with
  | empty => exact hempty
  | ins g a b d s silence _ ih => exact hins _ _ _ _ _ _ ih
  | del g a _ ih => exact hdel _ _ ih
  | traf g a b f silence _ ih => exact htraf _ _ _ _ _ ih
  | ld g records _ ih => exact foldl_loadStep_inv P hins records g ih
  | upd g records _ ih => exact foldl_updateStep_inv P htraf records (g, false) ih

theorem Mirror.entry_comm {g : Graph} (h : Mirror g) (x y : Int) :
    entry g x y = entry g y x := by
  cases h1 : entry g x y with
  | some e => exact (h x y e h1).symm
  | none =>
    cases h2 : entry g y x with
    | none => rfl
    | some e => rw [h y x e h2] at h1; cases h1

theorem Mirror.ins_mirror {g : Graph} (h : Mirror g) (a b : Int) (d s : ℚ) (silence : Bool) :
    Mirror (insert g a b d s silence).1 := by
  intro x y e hxy
  rw [entry_insert] at hxy ⊢
  by_cases c : (x = a ∧ y = b) ∨ (x = b ∧ y = a)
  · have c2 : (y = a ∧ x = b) ∨ (y = b ∧ x = a) := by
      rcases c with c | c
      · exact Or.inr ⟨c.2, c.1⟩
      · exact Or.inl ⟨c.2, c.1⟩
    rw [if_pos c] at hxy
    rw [if_pos c2, ← hxy, h.entry_comm y x]
  · have c2 : ¬ ((y = a ∧ x = b) ∨ (y = b ∧ x = a)) := by
      intro c2
      apply c
      rcases c2 with c2 | c2
      · exact Or.inr ⟨c2.2, c2.1⟩
      · exact Or.inl ⟨c2.2, c2.1⟩
    rw [if_neg c] at hxy
    rw [if_neg c2]
    exact h x y e hxy

theorem Mirror.traf_mirror {g : Graph} (h : Mirror g) (a b : Int) (f : ℚ) (silence : Bool) :
    Mirror (traffic g a b f silence).1 := by
  intro x y e hxy
  rw [entry_traffic] at hxy ⊢
  by_cases c : edge_exists g a b = true ∧ ((x = a ∧ y = b) ∨ (x = b ∧ y = a))
  · have c2 : edge_exists g a b = true ∧ ((y = a ∧ x = b) ∨ (y = b ∧ x = a)) := by
      refine ⟨c.1, ?_⟩
      rcases c.2 with c | c
      · exact Or.inr ⟨c.2, c.1⟩
      · exact Or.inl ⟨c.2, c.1⟩
    rw [if_pos c] at hxy
    rw [if_pos c2, ← hxy, h.entry_comm y x]
  · have c2 : ¬ (edge_exists g a b = true ∧ ((y = a ∧ x = b) ∨ (y = b ∧ x = a))) := by
      intro c2
      apply c
      refine ⟨c2.1, ?_⟩
      rcases c2.2 with c2 | c2
      · exact Or.inr ⟨c2.2, c2.1⟩
      · exact Or.inl ⟨c2.2, c2.1⟩
    rw [if_neg c] at hxy
    rw [if_neg c2]
    exact h x y e hxy

theorem Mirror.del_mirror {g : Graph} (h : Mirror g) (a : Int) : Mirror (delete_n g a).1 := by
  by_cases ha : node_exists g a = true
  · intro x y e hxy
    rw [entry_delete_n g a x y ha] at hxy
    rw [entry_delete_n g a y x ha]
    by_cases c : x = a ∨ (x ∈ UMap.keys (UMap.getD g a []) ∧ y = a)
    · rw [if_pos c] at hxy
      cases hxy
    · rw [if_neg c] at hxy
      have hyx := h x y e hxy
      have c2 : ¬ (y = a ∨ (y ∈ UMap.keys (UMap.getD g a []) ∧ x = a)) := by
        rintro (c2 | c2)
        · apply c
          refine Or.inr ⟨?_, c2⟩
          rw [mem_keys_row_iff, ← c2, hyx]
          rfl
        · exact c (Or.inl c2.2)
      rw [if_neg c2]
      exact hyx
  · unfold Lab4.delete_n
    simp only [ha]
    exact h

theorem Reachable.mirror {g : Graph} (h : Reachable g) : Mirror g := by
  refine Reachable.inv Mirror ?_ ?_ ?_ ?_ g h
  · intro a b e hab
    simp [entry, UMap.find] at hab
  · intro g a b d s silence hg
    exact hg.ins_mirror a b d s silence
  · intro g a hg
    exact hg.del_mirror a
  · intro g a b f silence hg
    exact hg.traf_mirror a b f silence

theorem WF.row {g : Graph} (h : WF g) (a : Int) : (UMap.keys (UMap.getD g a [])).Nodup := by
  unfold UMap.getD
  cases h1 : UMap.find g a with
  | none => simp [UMap.keys]
  | some row => exact h.2 a row (UMap.mem_of_find g a row h1)

theorem WF.set {g : Graph} (h : WF g) (a : Int) (row : UMap Edge)
    (hrow : (UMap.keys row).Nodup) : WF (UMap.set g a row) := by
  refine ⟨UMap.nodup_keys_set g a row h.1, ?_⟩
  intro k r hk
  rcases UMap.mem_set g a row (k, r) hk with h1 | h1
  · exact h.2 k r h1
  · cases h1
    exact hrow

theorem WF.modify_wf {g : Graph} (h : WF g) (a b : Int) (f : Edge → Edge) :
    WF (modifyEntry g a b f) :=
  h.set a _ (UMap.nodup_keys_set _ _ _ (h.row a))

theorem WF.ins_wf {g : Graph} (h : WF g) (a b : Int) (d s : ℚ) (silence : Bool) :
    WF (insert g a b d s silence).1 := by
  unfold Lab4.insert
  exact (((h.modify_wf a b (fun e => { e with d := d })).modify_wf a b
    (fun e => { e with s := s })).modify_wf b a (fun e => { e with d := d })).modify_wf b a
    (fun e => { e with s := s })

theorem WF.traf_wf {g : Graph} (h : WF g) (a b : Int) (f : ℚ) (silence : Bool) :
    WF (traffic g a b f silence).1 := by
  unfold Lab4.traffic
  split
  · exact h
  · exact (h.modify_wf a b (fun e => { e with a := f })).modify_wf b a
      (fun e => { e with a := f })

theorem WF.foldl_eraseFrom (a : Int) (l : List Int) {g : Graph} (h : WF g) :
    WF (l.foldl (eraseFrom a) g) := by
  induction l generalizing g with
  | nil => exact h
  | cons i l ih =>
    exact ih (h.set i _ (UMap.nodup_keys_erase _ _ (h.row i)))

theorem WF.del_wf {g : Graph} (h : WF g) (a : Int) : WF (delete_n g a).1 := by
  unfold Lab4.delete_n
  split
  · have h1 := WF.foldl_eraseFrom a (UMap.keys (UMap.getD g a [])) h
    refine ⟨UMap.nodup_keys_erase _ _ h1.1, ?_⟩
    intro k row hk
    exact h1.2 k row (List.mem_of_mem_filter hk)
  · exact h

theorem Reachable.wf {g : Graph} (h : Reachable g) : WF g := by
  refine Reachable.inv WF ?_ ?_ ?_ ?_ g h
  · exact ⟨by simp [UMap.keys], by intro k row hk; simp at hk⟩
  · intro g a b d s silence hg
    exact hg.ins_wf a b d s silence
  · intro g a hg
    exact hg.del_wf a
  · intro g a b f silence hg
    exact hg.traf_wf a b f silence

/-! ## Walks -/

theorem weight_pos (e : Edge) (h : 0 < e.d ∧ 0 < e.s ∧ 0 < e.a) : 0 < weight e := by
  unfold weight
  exact div_pos h.1 (mul_pos h.2.1 h.2.2)

theorem Reach.prepend {g : Graph} {a v b : Int} {e : Edge} {c : ℚ}
    (he : entry g a v = some e) (h : Reach g v b c) : Reach g a b (weight e + c) := by
  induction h with
  | refl => exact Reach.step a v e 0 _ Reach.refl he (by ring)
  | step u x e1 c0 c1 _ hux hc ih =>
    exact Reach.step u x e1 _ _ ih hux (by rw [hc]; ring)

theorem IsWalk.single (g : Graph) (x : Int) : IsWalk g [x] :=
  trivial

theorem Reach.of_walk {g : Graph} (w : List Int) (a b : Int) (h : WalkFromTo g a b w) :
    Reach g a b (walkCost g w) := by
  induction w generalizing a with
  | nil => simp [WalkFromTo] at h
  | cons x w ih =>
    obtain ⟨h1, h2, h3⟩ := h
    simp only [List.head?_cons, Option.some.injEq] at h1
    subst h1
    cases w with
    | nil =>
      simp only [List.getLast?_singleton, Option.some.injEq] at h2
      subst h2
      simp only [walkCost]
      exact Reach.refl
    | cons y w =>
      have h3a : (entry g x y).isSome = true ∧ IsWalk g (y :: w) := h3
      obtain ⟨e, he⟩ := Option.isSome_iff_exists.1 h3a.1
      have h4 : WalkFromTo g y b (y :: w) := by
        refine ⟨rfl, ?_, h3a.2⟩
        rw [← h2, List.getLast?_cons_cons]
      have := Reach.prepend he (ih y h4)
      simpa [walkCost, he] using this

theorem IsWalk.snoc_walk {g : Graph} {w : List Int} {u v : Int} (hw : IsWalk g w)
    (hu : w.getLast? = some u) (he : (entry g u v).isSome = true) : IsWalk g (w ++ [v]) := by
  induction w with
  | nil => simp at hu
  | cons x w ih =>
    cases w with
    | nil =>
      simp only [List.getLast?_singleton, Option.some.injEq] at hu
      subst hu
      exact ⟨he, trivial⟩
    | cons y w =>
      have hw2 : (entry g x y).isSome = true ∧ IsWalk g (y :: w) := hw
      rw [List.getLast?_cons_cons] at hu
      exact ⟨hw2.1, ih hw2.2 hu⟩

theorem walkCost_snoc (g : Graph) (w : List Int) (u v : Int) (hu : w.getLast? = some u) :
    walkCost g (w ++ [v]) = walkCost g w + ((entry g u v).map weight).getD 0 := by
  induction w with
  | nil => simp at hu
  | cons x w ih =>
    cases w with
    | nil =>
      simp only [List.getLast?_singleton, Option.some.injEq] at hu
      subst hu
      simp [walkCost]
    | cons y w =>
      rw [List.getLast?_cons_cons] at hu
      have := ih hu
      rw [List.cons_append] at this
      show ((entry g x y).map weight).getD 0 + walkCost g (y :: (w ++ [v])) = _
      rw [this]
      simp only [walkCost]
      ring

theorem WalkFromTo.snoc_cost {g : Graph} {w : List Int} {a u v : Int} {e : Edge}
    (hw : WalkFromTo g a u w) (he : entry g u v = some e) :
    WalkFromTo g a v (w ++ [v]) ∧ walkCost g (w ++ [v]) = walkCost g w + weight e := by
  obtain ⟨h1, h2, h3⟩ := hw
  refine ⟨⟨?_, ?_, h3.snoc_walk h2 (by rw [he]; rfl)⟩, ?_⟩
  · cases w with
    | nil => simp at h1
    | cons x w => simpa using h1
  · simp
  · rw [walkCost_snoc g w u v h2, he]
    rfl

theorem Reach.walk {g : Graph} {a b : Int} {c : ℚ} (h : Reach g a b c) :
    ∃ w, WalkFromTo g a b w ∧ walkCost g w = c := by
  induction h with
  | refl => exact ⟨[a], ⟨rfl, rfl, IsWalk.single g a⟩, rfl⟩
  | step u x e c0 c1 _ hux hc ih =>
    obtain ⟨w, hw, hcost⟩ := ih
    have := hw.snoc_cost hux
    exact ⟨w ++ [x], this.1, by rw [this.2, hcost, hc]⟩

theorem Reach.cost_nonneg {g : Graph} (hpos : PosAttrs g) {a b : Int} {c : ℚ}
    (h : Reach g a b c) : 0 ≤ c := by
  induction h with
  | refl => exact le_refl 0
  | step u x e c0 c1 _ hux hc ih =>
    have := weight_pos e (hpos u x e hux)
    rw [hc]
    linarith

/-! ## The priority queue and the cost arithmetic -/

theorem UMap.getD_set {β : Type} (m : UMap β) (x y : Int) (v dflt : β) :
    UMap.getD (UMap.set m x v) y dflt = if x = y then v else UMap.getD m y dflt := by
  unfold UMap.getD
  rw [UMap.find_set]
  split <;> rfl

theorem mem_pqPush (e x : WithTop ℚ × Int) (pq : List (WithTop ℚ × Int)) :
    x ∈ pqPush e pq ↔ x = e ∨ x ∈ pq := by
  unfold pqPush
  exact List.mem_orderedInsert pqLe

theorem length_pqPush (e : WithTop ℚ × Int) (pq : List (WithTop ℚ × Int)) :
    (pqPush e pq).length = pq.length + 1 := by
  unfold pqPush
  exact List.orderedInsert_length pqLe pq e

theorem nodup_pqPush (e : WithTop ℚ × Int) (pq : List (WithTop ℚ × Int))
    (he : e ∉ pq) (h : pq.Nodup) : (pqPush e pq).Nodup := by
  unfold pqPush
  rw [(List.perm_orderedInsert pqLe e pq).nodup_iff]
  exact List.nodup_cons.2 ⟨he, h⟩

theorem sorted_pqPush (e : WithTop ℚ × Int) (pq : List (WithTop ℚ × Int))
    (h : pq.Pairwise (fun x y => x.1 ≤ y.1)) :
    (pqPush e pq).Pairwise (fun x y => x.1 ≤ y.1) := by
  unfold pqPush
  induction pq with
  | nil => simp
  | cons x xs ih =>
    rw [List.pairwise_cons] at h
    rw [List.orderedInsert]
    split
    · rename_i hle
      have hex : e.1 ≤ x.1 := by
        rcases hle with h1 | h1
        · exact le_of_lt h1
        · exact le_of_eq h1.1
      refine List.pairwise_cons.2 ⟨?_, List.pairwise_cons.2 h⟩
      intro y hy
      rcases List.mem_cons.1 hy with h1 | h1
      · rw [h1]; exact hex
      · exact le_trans hex (h.1 y h1)
    · rename_i hle
      have hxe : x.1 ≤ e.1 := by
        by_contra hc
        exact hle (Or.inl (not_le.1 hc))
      refine List.pairwise_cons.2 ⟨?_, ih h.2⟩
      intro y hy
      rcases (List.mem_orderedInsert pqLe).1 hy with h1 | h1
      · rw [h1]; exact hxe
      · exact h.1 y h1

theorem wt_le_add (a : WithTop ℚ) (w : ℚ) (hw : 0 ≤ w) : a ≤ a + ((w : ℚ) : WithTop ℚ) := by
  cases a with
  | top => simp
  | coe c =>
    rw [← WithTop.coe_add, WithTop.coe_le_coe]
    linarith

theorem wt_lt_add (a : WithTop ℚ) (w : ℚ) (ha : a ≠ ⊤) (hw : 0 < w) :
    a < a + ((w : ℚ) : WithTop ℚ) := by
  cases a with
  | top => exact absurd rfl ha
  | coe c =>
    rw [← WithTop.coe_add, WithTop.coe_lt_coe]
    linarith

theorem wt_add_mono {a b : WithTop ℚ} (w : ℚ) (h : a ≤ b) :
    a + ((w : ℚ) : WithTop ℚ) ≤ b + ((w : ℚ) : WithTop ℚ) :=
  add_le_add_right h _

theorem sum_map_le {α : Type} (l : List α) (f h : α → Nat) (hle : ∀ x ∈ l, f x ≤ h x) :
    (l.map f).sum ≤ (l.map h).sum := by
  induction l with
  | nil => simp
  | cons x xs ih =>
    simp only [List.map_cons, List.sum_cons]
    have h1 := hle x (List.mem_cons_self x xs)
    have h2 := ih (fun y hy => hle y (List.mem_cons_of_mem x hy))
    omega

theorem sum_map_add_le {α : Type} (l : List α) (f h : α → Nat) (a : α) (n : Nat)
    (hle : ∀ x ∈ l, f x ≤ h x) (ha : a ∈ l) (han : f a + n ≤ h a) :
    (l.map f).sum + n ≤ (l.map h).sum := by
  induction l with
  | nil => simp at ha
  | cons x xs ih =>
    simp only [List.map_cons, List.sum_cons]
    have h1 := hle x (List.mem_cons_self x xs)
    have h2 := sum_map_le xs f h (fun y hy => hle y (List.mem_cons_of_mem x hy))
    rcases List.mem_cons.1 ha with h3 | h3
    · subst h3
      omega
    · have h4 := ih (fun y hy => hle y (List.mem_cons_of_mem x hy)) h3
      omega

theorem pendSum_le (g : Graph) (st1 st2 : DState)
    (h : ∀ k, pend st1 k = true → pend st2 k = true) : pendSum g st1 ≤ pendSum g st2 := by
  unfold pendSum
  apply sum_map_le
  intro p _
  by_cases h1 : pend st1 p.1 = true
  · simp [h1, h p.1 h1]
  · simp [h1]

theorem relax_of_lt (u : Int) (st : DState) (p : Int × Edge)
    (h : st.D u + ((weight p.2 : ℚ) : WithTop ℚ) < st.D p.1) :
    relax u st p =
      { g := st.g
        dist := UMap.set st.dist p.1 (st.D u + ((weight p.2 : ℚ) : WithTop ℚ))
        prev := UMap.set st.prev p.1 u
        pq := pqPush (st.D u + ((weight p.2 : ℚ) : WithTop ℚ), p.1) st.pq } := by
  unfold DState.D at h
  unfold relax
  simp only [h, if_true, UMap.getD_set, DState.D]

theorem relax_of_not_lt (u : Int) (st : DState) (p : Int × Edge)
    (h : ¬ st.D u + ((weight p.2 : ℚ) : WithTop ℚ) < st.D p.1) :
    relax u st p = st := by
  unfold DState.D at h
  unfold relax
  simp only [h, if_false]

/-! ## The loop invariant of `dijkstra` -/

theorem mem_keys_of_entry (g : Graph) (a b : Int) (e : Edge) (h : entry g a b = some e) :
    a ∈ UMap.keys g :=
  (UMap.find_isSome_iff g a).1 (node_exists_of_entry g a b e h)

theorem Mid.relax {g : Graph} {s u : Int} {d : WithTop ℚ} {p : Int × Edge}
    {todo : List (Int × Edge)} {B : Nat} {st : DState} (ctx : Ctx g s)
    (h : Mid g s u d (p :: todo) B st) : Mid g s u d todo B (Lab4.relax u st p) := by
  obtain ⟨v, e⟩ := p
  have hent : entry g u v = some e := h.htodo (v, e) (List.mem_cons_self _ _)
  have hw : 0 < weight e := ctx.pos u v e hent
  have hvk : v ∈ UMap.keys g := ctx.closed u v e hent
  have huk : u ∈ UMap.keys g := mem_keys_of_entry g u v e hent
  have hd0 : 0 ≤ d := by rw [← h.hd]; exact h.hnn u
  by_cases hlt : st.D u + ((weight e : ℚ) : WithTop ℚ) < st.D v
  · rw [relax_of_lt u st (v, e) hlt]
    simp only []
    rw [h.hd] at hlt ⊢
    have hvu : ¬ v = u := by
      intro hvu
      rw [hvu, h.hd] at hlt
      exact absurd (wt_le_add d (weight e) hw.le) (not_le.2 hlt)
    have hvs : ¬ v = s := by
      intro hvs
      rw [hvs, h.hs] at hlt
      exact absurd (le_trans hd0 (wt_le_add d (weight e) hw.le)) (not_le.2 hlt)
    generalize hst : ({ g := st.g
                        dist := UMap.set st.dist v (d + ((weight e : ℚ) : WithTop ℚ))
                        prev := UMap.set st.prev v u
                        pq := pqPush (d + ((weight e : ℚ) : WithTop ℚ), v) st.pq } : DState) = st1
    have hD : ∀ x, st1.D x = if v = x then d + ((weight e : ℚ) : WithTop ℚ) else st.D x := by
      intro x
      rw [← hst]
      exact UMap.getD_set _ _ _ _ _
    have hP : ∀ x, st1.P x = if v = x then u else st.P x := by
      intro x
      rw [← hst]
      exact UMap.getD_set _ _ _ _ _
    have hpq : ∀ x, x ∈ st1.pq ↔ x = (d + ((weight e : ℚ) : WithTop ℚ), v) ∨ x ∈ st.pq := by
      intro x
      rw [← hst]
      exact mem_pqPush _ _ _
    have hDle : ∀ x, st1.D x ≤ st.D x := by
      intro x
      rw [hD]
      split
      · rename_i hx
        rw [← hx]
        exact le_of_lt hlt
      · exact le_refl _
    have hDu : st1.D u = d := by rw [hD, if_neg hvu, h.hd]
    have hDv : st1.D v = d + ((weight e : ℚ) : WithTop ℚ) := by rw [hD, if_pos rfl]
    have hfinnew : d + ((weight e : ℚ) : WithTop ℚ) ≠ ⊤ :=
      WithTop.add_ne_top.2 ⟨h.hdfin, WithTop.coe_ne_top⟩
    refine
      { hg := ?_, hs := ?_, hnn := ?_, hps := ?_, hfin := ?_, hsorted := ?_, hnodup := ?_,
        hA := ?_, hPV := ?_, hd := hDu, hdfin := h.hdfin, hmin := ?_, hL := ?_, hK := ?_,
        htodo := ?_, hM := ?_ }
    · rw [← hst]; exact h.hg
    · rw [hD, if_neg hvs]; exact h.hs
    · intro x
      rw [hD]
      split
      · exact le_trans hd0 (wt_le_add d (weight e) hw.le)
      · exact h.hnn x
    · rw [hP, if_neg hvs]; exact h.hps
    · intro x hx
      rcases (hpq x).1 hx with h1 | h1
      · rw [h1]
        exact ⟨hfinnew, hvk, le_of_eq hDv⟩
      · obtain ⟨a1, a2, a3⟩ := h.hfin x h1
        exact ⟨a1, a2, le_trans (hDle _) a3⟩
    · rw [← hst]; exact sorted_pqPush _ _ h.hsorted
    · rw [← hst]
      refine nodup_pqPush _ _ ?_ h.hnodup
      intro hmem
      exact absurd (h.hfin _ hmem).2.2 (not_le.2 hlt)
    · intro x hx c hc
      rw [hD] at hc
      by_cases hvx : v = x
      · rw [if_pos hvx] at hc
        subst hvx
        obtain ⟨c0, hc0⟩ := WithTop.ne_top_iff_exists.1 h.hdfin
        have hr : Reach g s u c0 := h.hA u huk c0 (by rw [h.hd, hc0])
        refine Reach.step u v e c0 c hr hent ?_
        rw [← hc0, ← WithTop.coe_add, WithTop.coe_eq_coe] at hc
        exact hc.symm
      · rw [if_neg hvx] at hc
        exact h.hA x hx c hc
    · intro x hx hxs hxtop
      by_cases hvx : v = x
      · subst hvx
        rw [hP, if_pos rfl]
        exact ⟨e, hent, by rw [hDu, hDv]⟩
      · rw [hP, if_neg hvx]
        have hDx : st1.D x = st.D x := by rw [hD, if_neg hvx]
        rw [hDx] at hxtop ⊢
        obtain ⟨e0, he0, hle0⟩ := h.hPV x hx hxs hxtop
        exact ⟨e0, he0, le_trans (wt_add_mono _ (hDle _)) hle0⟩
    · intro x hx
      rcases (hpq x).1 hx with h1 | h1
      · rw [h1]
        exact wt_le_add d (weight e) hw.le
      · exact h.hmin x h1
    · intro x hx hxtop
      by_cases hvx : v = x
      · subst hvx
        left
        rw [hpq, hDv]
        exact Or.inl rfl
      · rw [hD, if_neg hvx] at hxtop ⊢
        rcases h.hL x hx hxtop with h1 | h1
        · exact Or.inl ((hpq _).2 (Or.inr h1))
        · exact Or.inr h1
    · intro u1 v1 e1 hent1
      by_cases hvu1 : v = u1
      · subst hvu1
        right; left
        rw [hpq, hDv]
        exact Or.inl rfl
      · have hDu1 : st1.D u1 = st.D u1 := by rw [hD, if_neg hvu1]
        rw [hDu1]
        rcases h.hK u1 v1 e1 hent1 with k1 | k2 | k3
        · exact Or.inl (le_trans (hDle v1) k1)
        · exact Or.inr (Or.inl ((hpq _).2 (Or.inr k2)))
        · obtain ⟨k3, k4⟩ := k3
          rcases List.mem_cons.1 k4 with k5 | k5
          · left
            cases k5
            rw [hDv, k3, h.hd]
          · exact Or.inr (Or.inr ⟨k3, k5⟩)
    · intro q hq
      exact h.htodo q (List.mem_cons_of_mem _ hq)
    · have hlen : st1.pq.length = st.pq.length + 1 := by
        rw [← hst]
        exact length_pqPush _ _
      have hps : pendSum g st1 ≤ pendSum g st := by
        apply pendSum_le
        intro k hk
        unfold pend at hk ⊢
        simp only [Bool.or_eq_true, decide_eq_true_eq] at hk ⊢
        by_cases hvk1 : v = k
        · subst hvk1
          by_cases htop : st.D v = ⊤
          · exact Or.inl htop
          · rcases h.hL v hvk htop with h1 | h1
            · exact Or.inr h1
            · exact absurd (le_trans h1 (wt_le_add d (weight e) hw.le)) (not_le.2 hlt)
        · rw [hD, if_neg hvk1] at hk
          rcases hk with h1 | h1
          · exact Or.inl h1
          · rcases (hpq _).1 h1 with h2 | h2
            · exact absurd (congrArg Prod.snd h2).symm hvk1
            · exact Or.inr h2
      have := h.hM
      simp only [List.length_cons] at this
      omega
  · rw [relax_of_not_lt u st (v, e) hlt]
    refine
      { hg := h.hg, hs := h.hs, hnn := h.hnn, hps := h.hps, hfin := h.hfin,
        hsorted := h.hsorted, hnodup := h.hnodup, hA := h.hA, hPV := h.hPV, hd := h.hd,
        hdfin := h.hdfin, hmin := h.hmin, hL := h.hL, hK := ?_, htodo := ?_, hM := ?_ }
    · intro u1 v1 e1 hent1
      rcases h.hK u1 v1 e1 hent1 with k1 | k2 | k3
      · exact Or.inl k1
      · exact Or.inr (Or.inl k2)
      · obtain ⟨k3, k4⟩ := k3
        rcases List.mem_cons.1 k4 with k5 | k5
        · left
          cases k5
          rw [k3]
          exact not_lt.1 hlt
        · exact Or.inr (Or.inr ⟨k3, k5⟩)
    · intro q hq
      exact h.htodo q (List.mem_cons_of_mem _ hq)
    · have := h.hM
      simp only [List.length_cons] at this
      omega

theorem Mid.foldl_relax {g : Graph} {s u : Int} {d : WithTop ℚ} (ctx : Ctx g s)
    (todo : List (Int × Edge)) {B : Nat} {st : DState} (h : Mid g s u d todo B st) :
    Mid g s u d [] B (todo.foldl (Lab4.relax u) st) := by
  induction todo generalizing st with
  | nil => exact h
  | cons p todo ih => exact ih (h.relax ctx)

theorem Mid.done {g : Graph} {s u : Int} {d : WithTop ℚ} {B : Nat} {st : DState}
    (h : Mid g s u d [] B st) : DInv g s st ∧ st.pq.length + pendSum g st ≤ B := by
  refine ⟨{ toCore := h.toCore, hL := ?_, hK := ?_ }, ?_⟩
  · intro v hv htop
    rcases h.hL v hv htop with h1 | h1
    · exact Or.inl h1
    · exact Or.inr (fun x hx => le_trans h1 (h.hmin x hx))
  · intro u1 v e hent
    rcases h.hK u1 v e hent with k1 | k2 | k3
    · exact Or.inl k1
    · exact Or.inr k2
    · exact absurd k3.2 (List.not_mem_nil _)
  · have := h.hM
    simpa using this

theorem dijkstraLoop_nil (dest : Int) (fuel : Nat) (st : DState) (h : st.pq = []) :
    dijkstraLoop dest fuel st = some st := by
  cases fuel <;> simp [dijkstraLoop, h]

theorem dijkstraLoop_succ (dest : Int) (fuel : Nat) (st : DState) (d : WithTop ℚ) (u : Int)
    (rest : List (WithTop ℚ × Int)) (h : st.pq = (d, u) :: rest) :
    dijkstraLoop dest (fuel + 1) st =
      if d > st.D u then dijkstraLoop dest fuel { st with pq := rest }
      else if u = dest then some { st with pq := rest }
      else dijkstraLoop dest fuel
        ((UMap.getD (touch st.g u) u []).foldl (relax u)
          { st with pq := rest, g := touch st.g u }) := by
  rw [dijkstraLoop]
  simp only [h]
  rfl

theorem DInv.reach_bound {g : Graph} {s : Int} {st : DState} (ctx : Ctx g s)
    (h : DInv g s st) (v : Int) (c : ℚ) (hr : Reach g s v c) :
    st.D v ≤ (c : WithTop ℚ) ∨ ∃ x ∈ st.pq, x.1 ≤ (c : WithTop ℚ) := by
  induction hr with
  | refl => exact Or.inl (le_of_eq h.hs)
  | step u v e c0 c1 _ hent hc ih =>
    have hw : 0 < weight e := ctx.pos u v e hent
    have hcc : (c0 : WithTop ℚ) ≤ (c1 : WithTop ℚ) := by
      rw [WithTop.coe_le_coe, hc]
      linarith
    have hc1 : (c1 : WithTop ℚ) = (c0 : WithTop ℚ) + ((weight e : ℚ) : WithTop ℚ) := by
      rw [hc, WithTop.coe_add]
    rcases ih with h1 | ⟨x, hx, h1⟩
    · rcases h.hK u v e hent with k1 | k2
      · left
        rw [hc1]
        exact le_trans k1 (wt_add_mono _ h1)
      · exact Or.inr ⟨_, k2, le_trans h1 hcc⟩
    · exact Or.inr ⟨x, hx, le_trans h1 hcc⟩

theorem DInv.pop_stale {g : Graph} {s : Int} {st : DState} {d : WithTop ℚ} {u : Int}
    {rest : List (WithTop ℚ × Int)} (h : DInv g s st) (hpq : st.pq = (d, u) :: rest)
    (hst : d > st.D u) :
    DInv g s { st with pq := rest } ∧
      rest.length + pendSum g { st with pq := rest } + 1 ≤ st.pq.length + pendSum g st := by
  have hsub : ∀ x, x ∈ rest → x ∈ st.pq := by
    intro x hx
    rw [hpq]
    exact List.mem_cons_of_mem _ hx
  have hne : ∀ k, (st.D k, k) ∈ st.pq → (st.D k, k) ∈ rest := by
    intro k hk
    rw [hpq] at hk
    rcases List.mem_cons.1 hk with h1 | h1
    · cases h1
      exact absurd hst (lt_irrefl _)
    · exact h1
  have hs1 := h.hsorted
  have hn1 := h.hnodup
  rw [hpq] at hs1 hn1
  refine ⟨{ hg := h.hg, hs := h.hs, hnn := h.hnn, hps := h.hps, hfin := ?_,
            hsorted := (List.pairwise_cons.1 hs1).2, hnodup := (List.nodup_cons.1 hn1).2,
            hA := h.hA, hPV := h.hPV, hL := ?_, hK := ?_ }, ?_⟩
  · intro x hx
    exact h.hfin x (hsub x hx)
  · intro v hv htop
    rcases h.hL v hv htop with h1 | h1
    · exact Or.inl (hne v h1)
    · exact Or.inr (fun x hx => h1 x (hsub x hx))
  · intro u1 v e hent
    rcases h.hK u1 v e hent with k1 | k2
    · exact Or.inl k1
    · exact Or.inr (hne u1 k2)
  · have hps : pendSum g { st with pq := rest } ≤ pendSum g st := by
      apply pendSum_le
      intro k hk
      unfold pend at hk ⊢
      simp only [Bool.or_eq_true, decide_eq_true_eq] at hk ⊢
      rcases hk with h1 | h1
      · exact Or.inl h1
      · exact Or.inr (hsub _ h1)
    rw [hpq, List.length_cons]
    omega

theorem touch_of_mem (g : Graph) (u : Int) (h : u ∈ UMap.keys g) : touch g u = g := by
  unfold touch
  rw [(UMap.find_isSome_iff g u).2 h]
  rfl

theorem mem_row_iff {g : Graph} (hwf : WF g) (u v : Int) (e : Edge) :
    (v, e) ∈ UMap.getD g u [] ↔ entry g u v = some e := by
  unfold entry
  constructor
  · intro h
    unfold UMap.getD at h
    cases h1 : UMap.find g u with
    | none => rw [h1] at h; simp at h
    | some row =>
      rw [h1] at h
      simp only [Option.getD_some] at h
      simp only [Option.some_bind]
      exact UMap.find_of_mem row v e (hwf.2 u row (UMap.mem_of_find g u row h1)) h
  · intro h
    unfold UMap.getD
    cases h1 : UMap.find g u with
    | none => rw [h1] at h; simp at h
    | some row =>
      rw [h1] at h
      simp only [Option.some_bind] at h
      exact UMap.mem_of_find row v e h

theorem DInv.pop_process {g : Graph} {s : Int} {st : DState} {d : WithTop ℚ} {u : Int}
    {rest : List (WithTop ℚ × Int)} (ctx : Ctx g s) (h : DInv g s st)
    (hpq : st.pq = (d, u) :: rest) (hns : ¬ d > st.D u) :
    Mid g s u d (UMap.getD (touch st.g u) u []) (st.pq.length + pendSum g st - 1)
      { st with pq := rest, g := touch st.g u } := by
  have hmem : (d, u) ∈ st.pq := by rw [hpq]; exact List.mem_cons_self _ _
  obtain ⟨hdfin, huk, hle⟩ := h.hfin (d, u) hmem
  have hdu : st.D u = d := le_antisymm hle (not_lt.1 hns)
  have htouch : touch st.g u = g := by rw [h.hg]; exact touch_of_mem g u huk
  rw [htouch]
  have hsub : ∀ x, x ∈ rest → x ∈ st.pq := by
    intro x hx
    rw [hpq]
    exact List.mem_cons_of_mem _ hx
  have hs1 := h.hsorted
  have hn1 := h.hnodup
  rw [hpq] at hs1 hn1
  have hmin : ∀ x ∈ rest, d ≤ x.1 := fun x hx => (List.pairwise_cons.1 hs1).1 x hx
  refine
    { hg := rfl, hs := h.hs, hnn := h.hnn, hps := h.hps, hfin := ?_,
      hsorted := (List.pairwise_cons.1 hs1).2, hnodup := (List.nodup_cons.1 hn1).2,
      hA := h.hA, hPV := h.hPV, hd := hdu, hdfin := hdfin, hmin := hmin, hL := ?_, hK := ?_,
      htodo := ?_, hM := ?_ }
  · intro x hx
    exact h.hfin x (hsub x hx)
  · intro v hv htop
    rcases h.hL v hv htop with h1 | h1
    · rw [hpq] at h1
      rcases List.mem_cons.1 h1 with h2 | h2
      · exact Or.inr (le_of_eq (congrArg Prod.fst h2))
      · exact Or.inl h2
    · exact Or.inr (h1 (d, u) hmem)
  · intro u1 v e hent
    rcases h.hK u1 v e hent with k1 | k2
    · exact Or.inl k1
    · rw [hpq] at k2
      rcases List.mem_cons.1 k2 with k3 | k3
      · have hu1 : u1 = u := congrArg Prod.snd k3
        refine Or.inr (Or.inr ⟨hu1, ?_⟩)
        rw [mem_row_iff ctx.wf, ← hu1]
        exact hent
      · exact Or.inr (Or.inl k3)
  · intro p hp
    exact (mem_row_iff ctx.wf u p.1 p.2).1 hp
  · show rest.length + pendSum g { st with pq := rest, g := g } +
      (UMap.getD g u []).length ≤ st.pq.length + pendSum g st - 1
    have hrow : ∃ row, UMap.find g u = some row := by
      have := (UMap.find_isSome_iff g u).2 huk
      exact Option.isSome_iff_exists.1 this
    obtain ⟨row, hrow⟩ := hrow
    have hgetD : UMap.getD g u [] = row := by
      unfold UMap.getD
      rw [hrow]
      rfl
    have hin : (u, row) ∈ g := UMap.mem_of_find g u row hrow
    have hsum : pendSum g { st with pq := rest, g := g } + row.length ≤ pendSum g st := by
      unfold pendSum
      apply sum_map_add_le g _ _ (u, row) row.length
      · intro p _
        by_cases h1 : pend { st with pq := rest, g := g } p.1 = true
        · have h2 : pend st p.1 = true := by
            unfold pend at h1 ⊢
            simp only [Bool.or_eq_true, decide_eq_true_eq] at h1 ⊢
            rcases h1 with h3 | h3
            · exact Or.inl h3
            · exact Or.inr (hsub _ h3)
          simp [h1, h2]
        · simp [h1]
      · exact hin
      · have h1 : pend { st with pq := rest, g := g } u = false := by
          unfold pend
          simp only [Bool.or_eq_false_iff, decide_eq_false_iff_not]
          refine ⟨?_, ?_⟩
          · show ¬ st.D u = ⊤
            rw [hdu]
            exact hdfin
          · show ¬ (st.D u, u) ∈ rest
            rw [hdu]
            exact (List.nodup_cons.1 hn1).1
        have h2 : pend st u = true := by
          unfold pend
          simp only [Bool.or_eq_true, decide_eq_true_eq]
          right
          rw [hdu]
          exact hmem
        simp [h1, h2]
    rw [hgetD, hpq, List.length_cons]
    omega

theorem DInv.post_of_nil {g : Graph} {s : Int} {st : DState} (ctx : Ctx g s) (dest : Int)
    (h : DInv g s st) (hpq : st.pq = []) : Post g s dest st := by
  refine { hg := h.hg, hs := h.hs, hps := h.hps, hA := h.hA, hPV := h.hPV, hopt := ?_ }
  intro c hr
  rcases h.reach_bound ctx dest c hr with h1 | ⟨x, hx, _⟩
  · exact h1
  · rw [hpq] at hx
    exact absurd hx (List.not_mem_nil _)

theorem DInv.post_of_pop {g : Graph} {s : Int} {st : DState} {d : WithTop ℚ} {u : Int}
    {rest : List (WithTop ℚ × Int)} (ctx : Ctx g s) (h : DInv g s st)
    (hpq : st.pq = (d, u) :: rest) :
    Post g s u { st with pq := rest } := by
  have hmem : (d, u) ∈ st.pq := by rw [hpq]; exact List.mem_cons_self _ _
  obtain ⟨_, _, hle⟩ := h.hfin (d, u) hmem
  have hs1 := h.hsorted
  rw [hpq] at hs1
  refine { hg := h.hg, hs := h.hs, hps := h.hps, hA := h.hA, hPV := h.hPV, hopt := ?_ }
  intro c hr
  rcases h.reach_bound ctx u c hr with h1 | ⟨x, hx, h1⟩
  · exact h1
  · rw [hpq] at hx
    rcases List.mem_cons.1 hx with h2 | h2
    · rw [h2] at h1
      exact le_trans hle h1
    · exact le_trans hle (le_trans ((List.pairwise_cons.1 hs1).1 x h2) h1)

theorem dijkstraLoop_post {g : Graph} {s : Int} (ctx : Ctx g s) (dest : Int) :
    ∀ (fuel : Nat) (st : DState), DInv g s st → st.pq.length + pendSum g st ≤ fuel →
      ∃ st1, dijkstraLoop dest fuel st = some st1 ∧ Post g s dest st1 := by
  intro fuel
  induction fuel with
  | zero =>
    intro st h hm
    have hpq : st.pq = [] := List.length_eq_zero.1 (by omega)
    exact ⟨st, dijkstraLoop_nil dest 0 st hpq, h.post_of_nil ctx dest hpq⟩
  | succ fuel ih =>
    intro st h hm
    cases hpq : st.pq with
    | nil => exact ⟨st, dijkstraLoop_nil dest _ st hpq, h.post_of_nil ctx dest hpq⟩
    | cons x rest =>
      obtain ⟨d, u⟩ := x
      rw [dijkstraLoop_succ dest fuel st d u rest hpq]
      by_cases hst : d > st.D u
      · rw [if_pos hst]
        obtain ⟨h1, h2⟩ := h.pop_stale hpq hst
        refine ih _ h1 ?_
        show rest.length + pendSum g { st with pq := rest } ≤ fuel
        omega
      · rw [if_neg hst]
        by_cases hud : u = dest
        · rw [if_pos hud]
          subst hud
          exact ⟨_, rfl, h.post_of_pop ctx hpq⟩
        · rw [if_neg hud]
          have hmid := Mid.foldl_relax ctx _ (h.pop_process ctx hpq hst)
          obtain ⟨h1, h2⟩ := hmid.done
          have hlen : 0 < st.pq.length := by rw [hpq]; simp
          exact ih _ h1 (by omega)

/-! ## The initial state of `dijkstra` -/

theorem foldl_initStep (l : List (Int × UMap Edge)) (st : DState) :
    (l.foldl initStep st).g = st.g ∧ (l.foldl initStep st).pq = st.pq ∧
    (∀ x, (l.foldl initStep st).D x = if x ∈ UMap.keys l then ⊤ else st.D x) ∧
    (∀ x, (l.foldl initStep st).P x = if x ∈ UMap.keys l then -1 else st.P x) := by
  induction l generalizing st with
  | nil => simp [UMap.keys]
  | cons p l ih =>
    obtain ⟨i1, i2, i3, i4⟩ := ih (initStep st p)
    simp only [List.foldl_cons]
    refine ⟨i1, i2, ?_, ?_⟩
    · intro x
      rw [i3]
      have hD : (initStep st p).D x = if p.1 = x then ⊤ else st.D x :=
        UMap.getD_set _ _ _ _ _
      rw [hD]
      have hk : x ∈ UMap.keys (p :: l) ↔ x = p.1 ∨ x ∈ UMap.keys l := by
        simp [UMap.keys]
      by_cases h1 : x ∈ UMap.keys l
      · rw [if_pos h1, if_pos (hk.2 (Or.inr h1))]
      · by_cases h2 : p.1 = x
        · rw [if_neg h1, if_pos h2, if_pos (hk.2 (Or.inl h2.symm))]
        · have h4 : x ∉ UMap.keys (p :: l) := by
            rw [hk]
            rintro (h5 | h5)
            · exact h2 h5.symm
            · exact h1 h5
          rw [if_neg h1, if_neg h2, if_neg h4]
    · intro x
      rw [i4]
      have hP : (initStep st p).P x = if p.1 = x then -1 else st.P x :=
        UMap.getD_set _ _ _ _ _
      rw [hP]
      have hk : x ∈ UMap.keys (p :: l) ↔ x = p.1 ∨ x ∈ UMap.keys l := by
        simp [UMap.keys]
      by_cases h1 : x ∈ UMap.keys l
      · rw [if_pos h1, if_pos (hk.2 (Or.inr h1))]
      · by_cases h2 : p.1 = x
        · rw [if_neg h1, if_pos h2, if_pos (hk.2 (Or.inl h2.symm))]
        · have h4 : x ∉ UMap.keys (p :: l) := by
            rw [hk]
            rintro (h5 | h5)
            · exact h2 h5.symm
            · exact h1 h5
          rw [if_neg h1, if_neg h2, if_neg h4]

/-- The state of `dijkstra` when the `while` loop is entered (callers pass empty maps). -/
theorem dijkstra_eq (fuel : Nat) (g : Graph) (s dest : Int) :
    dijkstra fuel g s dest [] [] =
      dijkstraLoop dest fuel
        { g := (g.foldl initStep { g := g, dist := [], prev := [], pq := [] }).g
          dist := UMap.set (g.foldl initStep { g := g, dist := [], prev := [], pq := [] }).dist s 0
          prev := (g.foldl initStep { g := g, dist := [], prev := [], pq := [] }).prev
          pq := pqPush (0, s) (g.foldl initStep { g := g, dist := [], prev := [], pq := [] }).pq } :=
  rfl

theorem dijkstra_init {g : Graph} {s : Int} (ctx : Ctx g s) (st : DState)
    (hst : st =
        { g := (g.foldl initStep { g := g, dist := [], prev := [], pq := [] }).g
          dist := UMap.set (g.foldl initStep { g := g, dist := [], prev := [], pq := [] }).dist s 0
          prev := (g.foldl initStep { g := g, dist := [], prev := [], pq := [] }).prev
          pq := pqPush (0, s)
            (g.foldl initStep { g := g, dist := [], prev := [], pq := [] }).pq }) :
    DInv g s st ∧ st.pq.length + pendSum g st + 1 ≤ fuelBound g := by
  obtain ⟨i1, i2, i3, i4⟩ := foldl_initStep g { g := g, dist := [], prev := [], pq := [] }
  have hg : st.g = g := by rw [hst]; exact i1
  have hpq : st.pq = [(0, s)] := by
    rw [hst]
    show pqPush (0, s) (g.foldl initStep { g := g, dist := [], prev := [], pq := [] }).pq = _
    rw [i2]
    rfl
  have hD : ∀ x, st.D x = if s = x then 0 else if x ∈ UMap.keys g then ⊤ else 0 := by
    intro x
    rw [hst]
    show UMap.getD (UMap.set _ s 0) x 0 = _
    rw [UMap.getD_set]
    split
    · rfl
    · exact i3 x
  have hP : ∀ x, st.P x = if x ∈ UMap.keys g then -1 else 0 := by
    intro x
    rw [hst]
    exact i4 x
  have hDs : st.D s = 0 := by rw [hD, if_pos rfl]
  refine ⟨{ hg := hg, hs := hDs, hnn := ?_, hps := ?_, hfin := ?_, hsorted := ?_,
            hnodup := ?_, hA := ?_, hPV := ?_, hL := ?_, hK := ?_ }, ?_⟩
  · intro v
    rw [hD]
    split
    · exact le_refl _
    · split
      · exact le_top
      · exact le_refl _
  · rw [hP, if_pos ctx.src]
  · intro x hx
    rw [hpq] at hx
    simp only [List.mem_singleton] at hx
    subst hx
    exact ⟨WithTop.zero_ne_top, ctx.src, le_of_eq hDs⟩
  · rw [hpq]
    exact List.pairwise_singleton _ _
  · rw [hpq]
    exact List.nodup_singleton _
  · intro v hv c hc
    rw [hD] at hc
    by_cases hsv : s = v
    · rw [if_pos hsv] at hc
      subst hsv
      have : c = 0 := by
        have h0 : ((0 : ℚ) : WithTop ℚ) = (c : WithTop ℚ) := hc
        exact (WithTop.coe_eq_coe.1 h0).symm
      rw [this]
      exact Reach.refl
    · rw [if_neg hsv, if_pos hv] at hc
      exact absurd hc.symm WithTop.coe_ne_top
  · intro v hv hvs htop
    rw [hD, if_neg (fun h => hvs h.symm), if_pos hv] at htop
    exact absurd rfl htop
  · intro v hv htop
    rw [hD] at htop
    by_cases hsv : s = v
    · left
      rw [hpq, ← hsv, hDs]
      exact List.mem_singleton_self _
    · rw [if_neg hsv, if_pos hv] at htop
      exact absurd rfl htop
  · intro u v e hent
    by_cases hsu : s = u
    · right
      rw [hpq, ← hsu, hDs]
      exact List.mem_singleton_self _
    · left
      have hu : u ∈ UMap.keys g := mem_keys_of_entry g u v e hent
      have : st.D u = ⊤ := by rw [hD, if_neg hsu, if_pos hu]
      rw [this, WithTop.top_add]
      exact le_top
  · have h1 : pendSum g st ≤ (g.map (fun p => p.2.length)).sum := by
      unfold pendSum
      apply sum_map_le
      intro p _
      split
      · exact le_refl _
      · exact Nat.zero_le _
    rw [hpq]
    unfold fuelBound
    simp only [List.length_singleton]
    omega

theorem Ctx.of_reachable {g : Graph} (hr : Reachable g) (hpos : PosAttrs g) (s : Int)
    (hs : node_exists g s = true) : Ctx g s where
  wf := hr.wf
  closed := fun u v e h => mem_keys_of_entry g v u e (hr.mirror u v e h)
  pos := fun u v e h => weight_pos e (hpos u v e h)
  src := (UMap.find_isSome_iff g s).1 hs

theorem dijkstra_post {g : Graph} {s : Int} (ctx : Ctx g s) (dest : Int) (fuel : Nat)
    (hfuel : fuelBound g ≤ fuel) :
    ∃ st, dijkstra fuel g s dest [] [] = some st ∧ Post g s dest st := by
  rw [dijkstra_eq]
  obtain ⟨h1, h2⟩ := dijkstra_init ctx _ rfl
  exact dijkstraLoop_post ctx dest fuel _ h1 (by omega)

/-! ## Following `prev` back from the target -/

theorem pathBack_stop (prev : UMap Int) (n : Nat) : pathBack prev n (-1) = some [] := by
  cases n <;> simp [pathBack]

theorem pathBack_succ (prev : UMap Int) (n : Nat) (v : Int) (h : v ≠ -1) :
    pathBack prev (n + 1) v =
      (pathBack prev n (UMap.getD prev v 0)).map (fun p => v :: p) := by
  rw [pathBack]
  simp [h]

theorem pathBack_head (prev : UMap Int) (n : Nat) (v : Int) (p : List Int)
    (h : pathBack prev n v = some p) : p = [] ∨ ∃ q, p = v :: q := by
  by_cases hv : v = -1
  · subst hv
    rw [pathBack_stop] at h
    exact Or.inl (Option.some.inj h).symm
  · cases n with
    | zero => simp [pathBack, hv] at h
    | succ n =>
      rw [pathBack_succ prev n v hv] at h
      cases h1 : pathBack prev n (UMap.getD prev v 0) with
      | none => rw [h1] at h; cases h
      | some q =>
        rw [h1] at h
        exact Or.inr ⟨q, (Option.some.inj h).symm⟩

theorem countP_lt_of (l : List Int) (p q : Int → Bool)
    (hpq : ∀ x ∈ l, p x = true → q x = true) (a : Int) (ha : a ∈ l) (hpa : p a = false)
    (hqa : q a = true) : l.countP p < l.countP q := by
  induction l with
  | nil => simp at ha
  | cons x xs ih =>
    rw [List.countP_cons, List.countP_cons]
    have hle : xs.countP p ≤ xs.countP q :=
      List.countP_mono_left (fun y hy => hpq y (List.mem_cons_of_mem x hy))
    have hx := hpq x (List.mem_cons_self x xs)
    rcases List.mem_cons.1 ha with h1 | h1
    · subst h1
      rw [hpa, hqa]
      simp only [Bool.false_eq_true, if_false, if_true]
      omega
    · have := ih (fun y hy => hpq y (List.mem_cons_of_mem x hy)) h1
      by_cases hp : p x = true
      · simp only [hp, hx hp, if_true]
        omega
      · have hp2 : p x = false := by simpa using hp
        by_cases hq : q x = true
        · rw [hp2, hq]
          simp only [Bool.false_eq_true, if_false, if_true]
          omega
        · have hq2 : q x = false := by simpa using hq
          rw [hp2, hq2]
          simp only [Bool.false_eq_true, if_false]
          omega

theorem rank_lt (g : Graph) (st : DState) (u v : Int) (hu : u ∈ UMap.keys g)
    (h : st.D u < st.D v) : rank g st u < rank g st v := by
  unfold rank
  apply countP_lt_of _ _ _ _ u hu
  · simp
  · simpa using h
  · intro x _ hx
    simp only [decide_eq_true_eq] at hx ⊢
    exact lt_trans hx h

theorem rank_le (g : Graph) (st : DState) (v : Int) : rank g st v ≤ g.length := by
  unfold rank
  have h1 : (UMap.keys g).countP (fun k => decide (st.D k < st.D v)) ≤ (UMap.keys g).length :=
    List.countP_le_length _
  have h2 : (UMap.keys g).length = g.length := List.length_map g Prod.fst
  omega

theorem Post.pred {g : Graph} {s dest : Int} {st : DState} (ctx : Ctx g s)
    (h : Post g s dest st) (v : Int) (hv : v ∈ UMap.keys g) (hvs : v ≠ s)
    (htop : st.D v ≠ ⊤) :
    ∃ e, entry g (st.P v) v = some e ∧ st.P v ∈ UMap.keys g ∧ st.D (st.P v) ≠ ⊤ ∧
      st.D (st.P v) < st.D v ∧
      st.D (st.P v) + ((weight e : ℚ) : WithTop ℚ) ≤ st.D v := by
  obtain ⟨e, he, hle⟩ := h.hPV v hv hvs htop
  have hfin : st.D (st.P v) ≠ ⊤ := by
    intro hc
    rw [hc, WithTop.top_add] at hle
    exact htop (top_le_iff.1 hle)
  exact ⟨e, he, mem_keys_of_entry g _ v e he, hfin,
    lt_of_lt_of_le (wt_lt_add _ _ hfin (ctx.pos _ v e he)) hle, hle⟩

theorem Post.pathBack_some {g : Graph} {s dest : Int} {st : DState} (ctx : Ctx g s)
    (h : Post g s dest st) :
    ∀ (n : Nat) (v : Int), v ∈ UMap.keys g → st.D v ≠ ⊤ → rank g st v < n →
      ∃ p, pathBack st.prev n v = some p := by
  intro n
  induction n with
  | zero => intro v _ _ hr; exact absurd hr (Nat.not_lt_zero _)
  | succ n ih =>
    intro v hv htop hr
    by_cases hneg : v = -1
    · subst hneg
      exact ⟨[], pathBack_stop _ _⟩
    · rw [pathBack_succ _ n v hneg]
      by_cases hvs : v = s
      · have hp : UMap.getD st.prev v 0 = -1 := by rw [hvs]; exact h.hps
        rw [hp, pathBack_stop]
        exact ⟨_, rfl⟩
      · obtain ⟨e, _, hk, hfin, hlt, _⟩ := h.pred ctx v hv hvs htop
        have hr2 := rank_lt g st _ v hk hlt
        obtain ⟨p, hp⟩ := ih (st.P v) hk hfin (by omega)
        have hp2 : pathBack st.prev n (UMap.getD st.prev v 0) = some p := hp
        rw [hp2]
        exact ⟨_, rfl⟩

theorem Post.pathBack_walk {g : Graph} {s dest : Int} {st : DState} (ctx : Ctx g s)
    (h : Post g s dest st) (hneg : (-1 : Int) ∉ UMap.keys g) :
    ∀ (n : Nat) (v : Int), v ∈ UMap.keys g → st.D v ≠ ⊤ → rank g st v < n →
      ∃ p, pathBack st.prev n v = some p ∧ WalkFromTo g s v p.reverse ∧
        ((walkCost g p.reverse : ℚ) : WithTop ℚ) ≤ st.D v := by
  intro n
  induction n with
  | zero => intro v _ _ hr; exact absurd hr (Nat.not_lt_zero _)
  | succ n ih =>
    intro v hv htop hr
    have hv1 : v ≠ -1 := fun hc => hneg (hc ▸ hv)
    rw [pathBack_succ _ n v hv1]
    by_cases hvs : v = s
    · have hp : UMap.getD st.prev v 0 = -1 := by rw [hvs]; exact h.hps
      rw [hp, pathBack_stop]
      refine ⟨[v], rfl, ?_, ?_⟩
      · rw [hvs]
        exact ⟨rfl, rfl, IsWalk.single g s⟩
      · rw [hvs, h.hs]
        simp [walkCost]
    · obtain ⟨e, he, hk, hfin, hlt, hle⟩ := h.pred ctx v hv hvs htop
      have hr2 := rank_lt g st _ v hk hlt
      obtain ⟨p, hp, hw, hc⟩ := ih (st.P v) hk hfin (by omega)
      have hp2 : pathBack st.prev n (UMap.getD st.prev v 0) = some p := hp
      rw [hp2]
      have hsn := hw.snoc_cost he
      refine ⟨v :: p, rfl, ?_, ?_⟩
      · rw [List.reverse_cons]
        exact hsn.1
      · rw [List.reverse_cons, hsn.2, WithTop.coe_add]
        exact le_trans (wt_add_mono _ hc) hle

/-! ## The two queries -/

theorem lowest_of_post {g : Graph} {a b : Int} (fuel : Nat) (st : DState)
    (ha : node_exists g a = true) (hb : node_exists g b = true)
    (hd : dijkstra fuel g a b [] [] = some st) (hg : st.g = g) :
    (st.D b = ⊤ ∧ lowest fuel g a b = some (g, Output.failure)) ∨
      ∃ c : ℚ, st.D b = (c : WithTop ℚ) ∧ lowest fuel g a b = some (g, Output.cost c) := by
  unfold lowest
  simp only [ha, hb, Bool.not_true, Bool.or_self, Bool.false_eq_true, if_false, hd, hg]
  cases h : st.D b with
  | top =>
    left
    refine ⟨rfl, ?_⟩
    have h2 : UMap.getD st.dist b 0 = none := h
    rw [h2]
  | coe c =>
    right
    refine ⟨c, rfl, ?_⟩
    have h2 : UMap.getD st.dist b 0 = some c := h
    rw [h2]

theorem path_of_post {g : Graph} {a b : Int} (fuel : Nat) (st : DState)
    (ha : node_exists g a = true) (hb : node_exists g b = true) (hab : a ≠ b)
    (hd : dijkstra fuel g a b [] [] = some st) (hg : st.g = g) (p : List Int)
    (hp : st.D b ≠ ⊤ → pathBack st.prev fuel b = some p) :
    (st.D b = ⊤ ∧ path fuel g a b = some (g, Output.failure)) ∨
      (st.D b ≠ ⊤ ∧ path fuel g a b = some (g, Output.nodes p.reverse)) := by
  unfold path
  simp only [ha, hb, Bool.not_true, Bool.or_self, Bool.false_eq_true, if_false, hd, hg, hab]
  by_cases h : st.D b = ⊤
  · left
    refine ⟨h, ?_⟩
    have h2 : UMap.getD st.dist b 0 = ⊤ := h
    rw [if_pos h2]
  · right
    refine ⟨h, ?_⟩
    have h2 : ¬ UMap.getD st.dist b 0 = ⊤ := h
    rw [if_neg h2, hp h]
    simp only []
    have hdeg : ¬ (p.reverse.length = 1 ∧ p.reverse.head? = some a) := by
      rintro ⟨h3, h4⟩
      rcases pathBack_head _ _ _ _ (hp h) with h5 | ⟨q, h5⟩
      · rw [h5] at h3
        simp at h3
      · rw [h5] at h3 h4
        have hq : q = [] := by
          simp only [List.reverse_cons, List.length_append, List.length_reverse,
            List.length_singleton] at h3
          exact List.length_eq_zero.1 (by omega)
        rw [hq] at h4
        simp only [List.reverse_cons, List.reverse_nil, List.nil_append, List.head?_cons,
          Option.some.injEq] at h4
        exact hab h4.symm
    rw [if_neg hdeg]

theorem PosAttrs.nil : PosAttrs [] := by
  intro a b e h
  simp [entry, UMap.find] at h

theorem PosAttrs.ins_pos {g : Graph} (h : PosAttrs g) (a b : Int) (d s : ℚ) (silence : Bool)
    (hd : 0 < d) (hs : 0 < s) : PosAttrs (insert g a b d s silence).1 := by
  intro x y e hxy
  rw [entry_insert] at hxy
  split at hxy
  · cases hxy
    refine ⟨hd, hs, ?_⟩
    cases h1 : entry g x y with
    | none => simp [Edge.init]
    | some e1 => exact (h x y e1 h1).2.2
  · exact h x y e hxy

theorem PosAttrs.traf_pos {g : Graph} (h : PosAttrs g) (a b : Int) (f : ℚ) (silence : Bool)
    (hf : 0 < f) : PosAttrs (traffic g a b f silence).1 := by
  intro x y e hxy
  rw [entry_traffic] at hxy
  split at hxy
  · cases h1 : entry g x y with
    | none => rw [h1] at hxy; cases hxy
    | some e1 =>
      rw [h1] at hxy
      cases hxy
      exact ⟨(h x y e1 h1).1, (h x y e1 h1).2.1, hf⟩
  · exact h x y e hxy

theorem lt_fuel_of_bound (g : Graph) (st : DState) (v : Int) (fuel : Nat)
    (hfuel : fuelBound g ≤ fuel) : rank g st v < fuel := by
  have := rank_le g st v
  unfold fuelBound at hfuel
  omega

theorem not_connected_of_top {g : Graph} {a b : Int} {st : DState} (h : Post g a b st)
    (htop : st.D b = ⊤) : ¬ Connected g a b := by
  rintro ⟨w, hw⟩
  have := h.hopt _ (Reach.of_walk w a b hw)
  rw [htop] at this
  exact WithTop.coe_ne_top (top_le_iff.1 this)

theorem connected_of_coe {g : Graph} {a b : Int} {st : DState} (h : Post g a b st)
    (hb : node_exists g b = true) (c : ℚ) (hc : st.D b = (c : WithTop ℚ)) :
    ∃ w, WalkFromTo g a b w ∧ walkCost g w = c :=
  (h.hA b ((UMap.find_isSome_iff g b).1 hb) c hc).walk

/-- On a graph without the identifier `-1`, a successful `path` prints a walk from `a` to
`b` whose cost is the cost that `dijkstra` recorded for `b`. -/
theorem path_walk {g : Graph} {a b : Int} (ctx : Ctx g a) (hb : node_exists g b = true)
    (hab : a ≠ b) (hneg : (-1 : Int) ∉ UMap.keys g) (fuel : Nat)
    (hfuel : fuelBound g ≤ fuel) :
    path fuel g a b = some (g, Output.failure) ∨
      ∃ p, path fuel g a b = some (g, Output.nodes p) ∧ WalkFromTo g a b p ∧
        lowest fuel g a b = some (g, Output.cost (walkCost g p)) := by
  have ha : node_exists g a = true := (UMap.find_isSome_iff g a).2 ctx.src
  obtain ⟨st, hd, hpost⟩ := dijkstra_post ctx b fuel hfuel
  by_cases htop : st.D b = ⊤
  · left
    rcases path_of_post fuel st ha hb hab hd hpost.hg [] (fun h => absurd htop h) with h1 | h1
    · exact h1.2
    · exact absurd htop h1.1
  · right
    obtain ⟨p, hp, hw, hc⟩ := hpost.pathBack_walk ctx hneg fuel b
      ((UMap.find_isSome_iff g b).1 hb) htop (lt_fuel_of_bound g st b fuel hfuel)
    rcases path_of_post fuel st ha hb hab hd hpost.hg p (fun _ => hp) with h1 | h1
    · exact absurd h1.1 htop
    · refine ⟨p.reverse, h1.2, hw, ?_⟩
      have hopt := hpost.hopt _ (Reach.of_walk _ a b hw)
      have heq : st.D b = ((walkCost g p.reverse : ℚ) : WithTop ℚ) := le_antisymm hopt hc
      rcases lowest_of_post fuel st ha hb hd hpost.hg with h2 | ⟨c, h2, h3⟩
      · exact absurd h2.1 htop
      · rw [heq, WithTop.coe_eq_coe] at h2
        rw [h3, h2]

/-! ## The claims -/

theorem exEdge_reachable : Reachable exEdge :=
  Reachable.ins [] 1 2 10 5 false Reachable.empty

theorem exChain_reachable : Reachable exChain :=
  Reachable.ins _ 2 3 5 5 false (Reachable.ins [] 1 2 5 5 false Reachable.empty)

theorem exChain_pos : PosAttrs exChain :=
  (PosAttrs.nil.ins_pos 1 2 5 5 false (by norm_num) (by norm_num)).ins_pos 2 3 5 5 false
    (by norm_num) (by norm_num)

theorem exSentinel_reachable : Reachable exSentinel :=
  Reachable.ins [] (-1) 2 1 1 false Reachable.empty

theorem exSentinel_pos : PosAttrs exSentinel :=
  PosAttrs.nil.ins_pos (-1) 2 1 1 false (by norm_num) (by norm_num)

/-- C1: in every state reachable from the empty graph by insert, delete_n, traffic, load
and update, a node `A` that lists `B` as a neighbour implies that `B` exists, lists `A`,
and the two entries have the same distance, speed limit and traffic factor. -/
theorem symmetry_invariant (g : Graph) (hr : Reachable g) (A B : Int) (e : Edge)
    (h : entry g A B = some e) :
    node_exists g B = true ∧
      ∃ e1, entry g B A = some e1 ∧ e1.d = e.d ∧ e1.s = e.s ∧ e1.a = e.a := by
  have hm := hr.mirror A B e h
  exact ⟨node_exists_of_entry g B A e hm, e, hm, rfl, rfl, rfl⟩

theorem symmetry_invariant_witness :
    entry exEdge 1 2 = some { d := 10, s := 5, a := 1 } ∧ node_exists exEdge 2 = true ∧
      ∃ e1, entry exEdge 2 1 = some e1 ∧ e1.d = 10 ∧ e1.s = 5 ∧ e1.a = 1 :=
  ⟨by decide!, symmetry_invariant exEdge exEdge_reachable 1 2 { d := 10, s := 5, a := 1 }
    (by decide!)⟩

/-- C2: in a reachable state with positive edge attributes, for existing nodes `a`, `b`
with `b` connected to `a`, `lowest a b` (given `fuelBound g` iterations or more) prints a
cost that is the cost of some walk from `a` to `b` and is at most the cost of every walk
from `a` to `b`. -/
theorem lowest_is_minimum (g : Graph) (hr : Reachable g) (hpos : PosAttrs g) (a b : Int)
    (ha : node_exists g a = true) (hb : node_exists g b = true) (hconn : Connected g a b)
    (fuel : Nat) (hfuel : fuelBound g ≤ fuel) :
    ∃ c, lowest fuel g a b = some (g, Output.cost c) ∧
      (∃ w, WalkFromTo g a b w ∧ walkCost g w = c) ∧
      ∀ w, WalkFromTo g a b w → c ≤ walkCost g w := by
  have ctx := Ctx.of_reachable hr hpos a ha
  obtain ⟨st, hd, hpost⟩ := dijkstra_post ctx b fuel hfuel
  rcases lowest_of_post fuel st ha hb hd hpost.hg with h1 | ⟨c, h1, h2⟩
  · exact absurd hconn (not_connected_of_top hpost h1.1)
  · refine ⟨c, h2, connected_of_coe hpost hb c h1, ?_⟩
    intro w hw
    have := hpost.hopt _ (Reach.of_walk w a b hw)
    rw [h1, WithTop.coe_le_coe] at this
    exact this

theorem lowest_is_minimum_witness :
    ∃ c, lowest (fuelBound exChain) exChain 1 3 = some (exChain, Output.cost c) ∧
      (∃ w, WalkFromTo exChain 1 3 w ∧ walkCost exChain w = c) ∧
      ∀ w, WalkFromTo exChain 1 3 w → c ≤ walkCost exChain w :=
  lowest_is_minimum exChain exChain_reachable exChain_pos 1 3 (by decide!) (by decide!)
    ⟨[1, 2, 3], by decide!⟩ (fuelBound exChain) (le_refl _)

/-- C3 (the code at the failing input): `insert -1 2 1 1` on the empty graph gives a
reachable state with positive attributes in which `path -1 2` does not report failure and
prints the sequence `2`, whose first element is not the source `-1`: the identifier `-1` is
also what `prev` holds for "no predecessor", so the loop of `path` stops before the source. -/
theorem path_sentinel_collision :
    Reachable exSentinel ∧ PosAttrs exSentinel ∧
      path (fuelBound exSentinel) exSentinel (-1) 2 = some (exSentinel, Output.nodes [2]) ∧
      ([2] : List Int).head? ≠ some (-1) :=
  ⟨exSentinel_reachable, exSentinel_pos, by decide!, by decide⟩

/-- C4: in a reachable state with non-negative node identifiers and positive edge
attributes, `path a b` (given `fuelBound g` iterations or more) returns, and when it prints
a sequence, that sequence is a walk from `a` to `b` and `lowest a b` prints its cost. -/
theorem path_cost_is_lowest (g : Graph) (hr : Reachable g) (hpos : PosAttrs g)
    (hnn : NoNeg g) (a b : Int) (fuel : Nat) (hfuel : fuelBound g ≤ fuel) :
    ∃ out, path fuel g a b = some (g, out) ∧
      ∀ p, out = Output.nodes p →
        WalkFromTo g a b p ∧ lowest fuel g a b = some (g, Output.cost (walkCost g p)) := by
  by_cases ha : node_exists g a = true
  · by_cases hb : node_exists g b = true
    · by_cases hab : a = b
      · refine ⟨Output.failure, ?_, fun p hp => by cases hp⟩
        unfold path
        simp [ha, hb, hab]
      · have ctx := Ctx.of_reachable hr hpos a ha
        have hneg : (-1 : Int) ∉ UMap.keys g := fun hc => absurd (hnn _ hc) (by decide)
        rcases path_walk ctx hb hab hneg fuel hfuel with h1 | ⟨p, h1, h2, h3⟩
        · exact ⟨Output.failure, h1, fun p hp => by cases hp⟩
        · refine ⟨Output.nodes p, h1, ?_⟩
          intro q hq
          cases hq
          exact ⟨h2, h3⟩
    · refine ⟨Output.failure, ?_, fun p hp => by cases hp⟩
      unfold path
      simp [hb]
  · refine ⟨Output.failure, ?_, fun p hp => by cases hp⟩
    unfold path
    simp [ha]

theorem exChain_noNeg : NoNeg exChain := by
  intro k hk
  have : k = 1 ∨ k = 2 ∨ k = 3 := by
    have h2 : UMap.keys exChain = [1, 2, 3] := by decide!
    rw [h2] at hk
    simpa using hk
  omega

theorem path_cost_is_lowest_witness :
    path (fuelBound exChain) exChain 1 3 = some (exChain, Output.nodes [1, 2, 3]) ∧
      ∃ out, path (fuelBound exChain) exChain 1 3 = some (exChain, out) ∧
        ∀ p, out = Output.nodes p →
          WalkFromTo exChain 1 3 p ∧
            lowest (fuelBound exChain) exChain 1 3 =
              some (exChain, Output.cost (walkCost exChain p)) :=
  ⟨by decide!, path_cost_is_lowest exChain exChain_reachable exChain_pos exChain_noNeg 1 3
    (fuelBound exChain) (le_refl _)⟩

theorem dijkstra_self (fuel : Nat) (g : Graph) (a : Int) :
    ∃ st, dijkstra (fuel + 1) g a a [] [] = some st ∧ st.g = g ∧ st.D a = 0 := by
  rw [dijkstra_eq]
  obtain ⟨i1, i2, _, _⟩ := foldl_initStep g { g := g, dist := [], prev := [], pq := [] }
  generalize hst : ({ g := (g.foldl initStep { g := g, dist := [], prev := [], pq := [] }).g
                      dist := UMap.set
                        (g.foldl initStep { g := g, dist := [], prev := [], pq := [] }).dist a 0
                      prev := (g.foldl initStep { g := g, dist := [], prev := [], pq := [] }).prev
                      pq := pqPush (0, a)
                        (g.foldl initStep { g := g, dist := [], prev := [], pq := [] }).pq }
                    : DState) = st
  have hg : st.g = g := by rw [← hst]; exact i1
  have hpq : st.pq = [(0, a)] := by
    rw [← hst]
    show pqPush (0, a) (g.foldl initStep { g := g, dist := [], prev := [], pq := [] }).pq = _
    rw [i2]
    rfl
  have hD : st.D a = 0 := by
    rw [← hst]
    show UMap.getD (UMap.set _ a 0) a 0 = 0
    rw [UMap.getD_set, if_pos rfl]
  rw [dijkstraLoop_succ a fuel st 0 a [] hpq, hD, if_neg (lt_irrefl _), if_pos rfl]
  exact ⟨_, rfl, hg, hD⟩

/-- C7: for every existing node `a`, `lowest a a` succeeds after one iteration and prints
cost 0; `path x x` reports failure for every `x`, in every graph. -/
theorem equal_endpoints (g : Graph) (a : Int) (fuel : Nat) (ha : node_exists g a = true) :
    lowest (fuel + 1) g a a = some (g, Output.cost 0) ∧
      ∀ (g1 : Graph) (x : Int) (n : Nat), path n g1 x x = some (g1, Output.failure) := by
  constructor
  · obtain ⟨st, hd, hg, hD⟩ := dijkstra_self fuel g a
    rcases lowest_of_post (fuel + 1) st ha ha hd hg with h1 | ⟨c, h1, h2⟩
    · rw [hD] at h1
      exact absurd h1.1 WithTop.zero_ne_top
    · rw [hD] at h1
      have hc : c = 0 := by
        have h0 : ((0 : ℚ) : WithTop ℚ) = (c : WithTop ℚ) := h1
        exact (WithTop.coe_eq_coe.1 h0).symm
      rw [h2, hc]
  · intro g1 x n
    unfold path
    by_cases h1 : node_exists g1 x = true
    · simp [h1]
    · simp [h1]

theorem equal_endpoints_witness :
    node_exists (delete_n exEdge 2).1 1 = true ∧ UMap.getD (delete_n exEdge 2).1 1 [] = [] ∧
      lowest 1 (delete_n exEdge 2).1 1 1 = some ((delete_n exEdge 2).1, Output.cost 0) :=
  ⟨by decide!, by decide!, (equal_endpoints (delete_n exEdge 2).1 1 0 (by decide!)).1⟩

/-- C8: after `insert a b d s`, on any graph, the entries `a -> b` and `b -> a` both have
distance `d` and speed limit `s`; the traffic factor of each is the one the entry had
before the call when it existed, and 1 when it did not. -/
theorem reinsert_keeps_traffic (g : Graph) (a b : Int) (d s : ℚ) (silence : Bool) :
    entry (insert g a b d s silence).1 a b =
        some { d := d, s := s,
               a := match entry g a b with
                 | some e => e.a
                 | none => 1 } ∧
      entry (insert g a b d s silence).1 b a =
        some { d := d, s := s,
               a := match entry g b a with
                 | some e => e.a
                 | none => 1 } := by
  constructor
  · rw [entry_insert, if_pos (Or.inl ⟨rfl, rfl⟩)]
    cases entry g a b <;> rfl
  · rw [entry_insert, if_pos (Or.inr ⟨rfl, rfl⟩)]
    cases entry g b a <;> rfl

/-- C9: `insert a b d s` reports success for any `d` and `s`; afterwards the nodes are the
old nodes together with `a` and `b`, the entries `a -> b` and `b -> a` are present, and
every other entry is what it was. -/
theorem insert_frame (g : Graph) (a b : Int) (d s : ℚ) (silence : Bool) :
    (insert g a b d s false).2 = Output.success ∧
      (∀ x, node_exists (insert g a b d s silence).1 x = true ↔
        (node_exists g x = true ∨ x = a ∨ x = b)) ∧
      (∀ x y, ¬ (x = a ∧ y = b) → ¬ (x = b ∧ y = a) →
        entry (insert g a b d s silence).1 x y = entry g x y) ∧
      (entry (insert g a b d s silence).1 a b).isSome = true ∧
      (entry (insert g a b d s silence).1 b a).isSome = true := by
  refine ⟨rfl, ?_, ?_, ?_, ?_⟩
  · intro x
    rw [node_exists_insert]
    simp only [Bool.or_eq_true, decide_eq_true_eq, or_assoc]
  · intro x y h1 h2
    rw [entry_insert, if_neg (fun h => h.elim h1 h2)]
  · rw [entry_insert, if_pos (Or.inl ⟨rfl, rfl⟩)]
    rfl
  · rw [entry_insert, if_pos (Or.inr ⟨rfl, rfl⟩)]
    rfl

/-! ## `delete_n` as the call executes -/

theorem delete_n_ub_iff (g : Graph) (a : Int) :
    delete_n_ub g a = true ↔ (entry g a a).isSome = true := by
  unfold delete_n_ub node_exists entry UMap.getD
  cases UMap.find g a <;> simp

theorem delete_n_exec_of_absent (g : Graph) (a : Int) (h : node_exists g a = false) :
    delete_n_exec g a = some (g, Output.failure) := by
  unfold delete_n_exec delete_n_ub delete_n
  simp [h]

theorem delete_n_exec_of_no_loop (g : Graph) (a : Int) (ha : node_exists g a = true)
    (hl : entry g a a = none) :
    delete_n_exec g a = some ((delete_n g a).1, Output.success) := by
  have hub : delete_n_ub g a = false := by
    cases h : delete_n_ub g a with
    | false => rfl
    | true =>
      rw [delete_n_ub_iff, hl] at h
      cases h
  unfold delete_n_exec
  rw [hub]
  unfold delete_n
  simp [ha]

theorem delete_n_exec_of_loop (g : Graph) (a : Int) (hl : (entry g a a).isSome = true) :
    delete_n_exec g a = none := by
  unfold delete_n_exec
  rw [(delete_n_ub_iff g a).2 hl]
  rfl

theorem delete_n_exec_success (g g1 : Graph) (a : Int)
    (h : delete_n_exec g a = some (g1, Output.success)) :
    node_exists g a = true ∧ entry g a a = none ∧ g1 = (delete_n g a).1 := by
  by_cases ha : node_exists g a = true
  · cases hl : entry g a a with
    | none =>
      rw [delete_n_exec_of_no_loop g a ha hl] at h
      cases h
      exact ⟨ha, rfl, rfl⟩
    | some e =>
      rw [delete_n_exec_of_loop g a (by rw [hl]; rfl)] at h
      cases h
  · rw [delete_n_exec_of_absent g a (by simpa using ha)] at h
    cases h

theorem exSelfLoop_reachable : Reachable exSelfLoop :=
  Reachable.ins [] 1 1 1 1 false Reachable.empty

/-- Where the call is defined, the completeness of the deletion holds: in a reachable
state, for an existing node `a` that is not its own neighbour, `delete_n a` completes and
reports success, and afterwards `a` is not a node any more and no node lists `a` as a
neighbour. -/
theorem deletion_complete (g : Graph) (hr : Reachable g) (a : Int)
    (ha : node_exists g a = true) (hl : entry g a a = none) :
    ∃ g1, delete_n_exec g a = some (g1, Output.success) ∧ node_exists g1 a = false ∧
      ∀ x, entry g1 x a = none := by
  refine ⟨(delete_n g a).1, delete_n_exec_of_no_loop g a ha hl, ?_, ?_⟩
  · rw [node_exists_delete_n g a a ha]
    simp
  · intro x
    rw [entry_delete_n g a x a ha]
    split
    · rfl
    · rename_i hc
      cases h : entry g x a with
      | none => rfl
      | some e =>
        exfalso
        apply hc
        refine Or.inr ⟨?_, rfl⟩
        rw [mem_keys_row_iff, hr.mirror x a e h]
        rfl

theorem deletion_complete_witness :
    node_exists exChain 2 = true ∧ entry exChain 2 2 = none ∧
      ∃ g1, delete_n_exec exChain 2 = some (g1, Output.success) ∧ node_exists g1 2 = false ∧
        ∀ x, entry g1 x 2 = none :=
  ⟨by decide, by decide!,
    deletion_complete exChain exChain_reachable 2 (by decide) (by decide!)⟩

/-- Claim C10 fails on a node that is its own neighbour: `insert 1 1 1 1` on the empty
graph gives a reachable state in which node 1 exists and has the entry `1 -> 1`; the loop
of `delete_n 1` erases that entry from under its own iterator, the behaviour of the call is
undefined, and it leaves no graph from which node 1 is absent. -/
theorem delete_self_loop_incomplete :
    Reachable exSelfLoop ∧ node_exists exSelfLoop 1 = true ∧
    UMap.keys (UMap.getD exSelfLoop 1 []) = [1] ∧
    delete_n_ub exSelfLoop 1 = true ∧
    delete_n_exec exSelfLoop 1 = none ∧
    ¬ ∃ g1 out, delete_n_exec exSelfLoop 1 = some (g1, out) ∧ node_exists g1 1 = false := by
  refine ⟨exSelfLoop_reachable, by decide, by decide, by decide, by decide!, ?_⟩
  rintro ⟨g1, out, h, _⟩
  rw [delete_n_exec_of_loop exSelfLoop 1 (by decide!)] at h
  cases h

/-! ## Facts about `traffic`, `update`, `load` and `print` -/

theorem edge_exists_traffic (g : Graph) (a b : Int) (f : ℚ) (silence : Bool) (x y : Int) :
    edge_exists (traffic g a b f silence).1 x y = edge_exists g x y := by
  have h : ∀ u v, (entry (traffic g a b f silence).1 u v).isSome = (entry g u v).isSome := by
    intro u v
    rw [entry_traffic]
    split
    · cases entry g u v <;> rfl
    · rfl
  rw [edge_exists_eq, edge_exists_eq, h, h]

theorem traffic_of_not_exists (g : Graph) (a b : Int) (f : ℚ) (silence : Bool)
    (h : edge_exists g a b = false) : (traffic g a b f silence).1 = g := by
  unfold traffic
  simp [h]

theorem traffic_silence (g : Graph) (a b : Int) (f : ℚ) (s1 s2 : Bool) :
    (traffic g a b f s1).1 = (traffic g a b f s2).1 := by
  unfold traffic
  split <;> rfl

theorem insert_silence (g : Graph) (a b : Int) (d s : ℚ) (s1 s2 : Bool) :
    (insert g a b d s s1).1 = (insert g a b d s s2).1 :=
  rfl

theorem foldl_updateStep_eq (g : Graph) (records : List (Int × Int × ℚ))
    (acc : Graph × Bool) (hacc : ∀ x y, edge_exists acc.1 x y = edge_exists g x y) :
    (records.foldl updateStep acc).1 =
        (records.filter (fun r => edge_exists g r.1 r.2.1)).foldl applyTraffic acc.1 ∧
      (records.foldl updateStep acc).2 =
        (acc.2 || records.any (fun r => edge_exists g r.1 r.2.1)) := by
  induction records generalizing acc with
  | nil => simp
  | cons r rs ih =>
    simp only [List.foldl_cons, List.filter_cons, List.any_cons]
    by_cases he : edge_exists g r.1 r.2.1 = true
    · have he2 : edge_exists acc.1 r.1 r.2.1 = true := by rw [hacc]; exact he
      have hstep : updateStep acc r = ((traffic acc.1 r.1 r.2.1 r.2.2 true).1, true) := by
        unfold updateStep
        rw [if_pos he2]
      rw [hstep, if_pos he, he]
      have := ih ((traffic acc.1 r.1 r.2.1 r.2.2 true).1, true)
        (fun x y => by rw [edge_exists_traffic]; exact hacc x y)
      simp only [List.foldl_cons, Bool.true_or, Bool.or_true] at this ⊢
      refine ⟨?_, this.2⟩
      rw [this.1]
      unfold applyTraffic
      rw [traffic_silence acc.1 r.1 r.2.1 r.2.2 true false]
    · have he3 : edge_exists g r.1 r.2.1 = false := by simpa using he
      have he2 : ¬ edge_exists acc.1 r.1 r.2.1 = true := by rw [hacc]; exact he
      have hstep : updateStep acc r = acc := by
        unfold updateStep
        rw [if_neg he2]
      rw [hstep, if_neg he, he3]
      simpa using ih acc hacc

theorem foldl_loadStep_eq (records : List (Int × Int × ℚ × ℚ)) (g : Graph) :
    records.foldl loadStep g = bulkLoadSpec g records := by
  induction records generalizing g with
  | nil => rfl
  | cons r rs ih =>
    simp only [List.foldl_cons, bulkLoadSpec]
    rw [ih]
    rfl

theorem foldl_loadStep_append (records : List (Int × Int × ℚ × ℚ)) (g : Graph)
    (r : Int × Int × ℚ × ℚ) :
    (records ++ [r]).foldl loadStep g =
      (insert (records.foldl loadStep g) r.1 r.2.1 r.2.2.1 r.2.2.2 true).1 := by
  rw [List.foldl_append]
  rfl

/-! ## Walk costs in small graphs -/

theorem entry_nil (x y : Int) : entry [] x y = none :=
  rfl

theorem walkCost_cons_cons (g : Graph) (x y : Int) (r : List Int) :
    walkCost g (x :: y :: r) = ((entry g x y).map weight).getD 0 + walkCost g (y :: r) :=
  rfl

/-- What `delete_n a` reports, for every graph: failure, with the graph as it was, when `a`
is not a node; success when `a` is a node and not its own neighbour; and whenever the call
completes, success exactly when `a` was a node. -/
theorem delete_reports (g : Graph) (a : Int) :
    (node_exists g a = false → delete_n_exec g a = some (g, Output.failure)) ∧
    (node_exists g a = true → entry g a a = none →
      ∃ g1, delete_n_exec g a = some (g1, Output.success)) ∧
    (∀ g1 out, delete_n_exec g a = some (g1, out) →
      (out = Output.success ↔ node_exists g a = true) ∧
      (out = Output.failure ↔ node_exists g a = false)) := by
  refine ⟨delete_n_exec_of_absent g a,
    fun ha hl => ⟨_, delete_n_exec_of_no_loop g a ha hl⟩, ?_⟩
  intro g1 out h
  by_cases ha : node_exists g a = true
  · cases hl : entry g a a with
    | none =>
      rw [delete_n_exec_of_no_loop g a ha hl] at h
      cases h
      simp [ha]
    | some e =>
      rw [delete_n_exec_of_loop g a (by rw [hl]; rfl)] at h
      cases h
  · rw [delete_n_exec_of_absent g a (by simpa using ha)] at h
    cases h
    simp [ha]

/-- Claim C11 fails on a node that is its own neighbour: after `insert 1 1 1 1` on the
empty graph node 1 exists, and `delete_n 1` has undefined behaviour in its loop, before
the statement that prints `success`: the call reports neither success nor failure. -/
theorem delete_self_loop_unreported :
    Reachable exSelfLoop ∧ node_exists exSelfLoop 1 = true ∧
    entry exSelfLoop 1 1 = some { d := 1, s := 1, a := 1 } ∧
    delete_n_exec exSelfLoop 1 = none ∧
    ¬ ∃ g1, delete_n_exec exSelfLoop 1 = some (g1, Output.success) := by
  refine ⟨exSelfLoop_reachable, by decide, by decide!, by decide!, ?_⟩
  rintro ⟨g1, h⟩
  rw [delete_n_exec_of_loop exSelfLoop 1 (by decide!)] at h
  cases h

/-- C12: `traffic a b f` reports success exactly when the entries `a -> b` and `b -> a`
both exist, and failure otherwise; on success both entries keep their distance and speed
limit and get traffic factor `f`, for any `f`; on failure the graph is left as it was. -/
theorem traffic_reports (g : Graph) (a b : Int) (f : ℚ) (silence : Bool) :
    ((traffic g a b f false).2 = Output.success ↔
        ((entry g a b).isSome = true ∧ (entry g b a).isSome = true)) ∧
      ((traffic g a b f false).2 = Output.failure ↔
        ¬ ((entry g a b).isSome = true ∧ (entry g b a).isSome = true)) ∧
      (((entry g a b).isSome = true ∧ (entry g b a).isSome = true) →
        entry (traffic g a b f silence).1 a b =
            (entry g a b).map (fun e => { e with a := f }) ∧
          entry (traffic g a b f silence).1 b a =
            (entry g b a).map (fun e => { e with a := f })) ∧
      (¬ ((entry g a b).isSome = true ∧ (entry g b a).isSome = true) →
        (traffic g a b f silence).1 = g) := by
  have hee : edge_exists g a b = true ↔
      ((entry g a b).isSome = true ∧ (entry g b a).isSome = true) := by
    rw [edge_exists_eq, Bool.and_eq_true]
  refine ⟨?_, ?_, ?_, ?_⟩
  · rw [← hee]
    unfold traffic
    by_cases h : edge_exists g a b = true
    · simp [h]
    · simp [h]
  · rw [← hee]
    unfold traffic
    by_cases h : edge_exists g a b = true
    · simp [h]
    · simp [h]
  · intro h
    have h1 := hee.2 h
    constructor
    · rw [entry_traffic, if_pos ⟨h1, Or.inl ⟨rfl, rfl⟩⟩]
    · rw [entry_traffic, if_pos ⟨h1, Or.inr ⟨rfl, rfl⟩⟩]
  · intro h
    apply traffic_of_not_exists
    rw [← hee] at h
    simpa using h

theorem traffic_reports_witness :
    (traffic exEdge 1 2 2 false).2 = Output.success ∧
      entry (traffic exEdge 1 2 2 false).1 1 2 = some { d := 10, s := 5, a := 2 } ∧
      entry (traffic exEdge 1 2 2 false).1 2 1 =
        (entry exEdge 2 1).map (fun e => { e with a := 2 }) :=
  ⟨by decide!, by decide!,
    ((traffic_reports exEdge 1 2 2 false).2.2.1 (by decide!)).2⟩

/-- C13: a successful `traffic a b f` leaves the node set and the neighbour set of every
node unchanged, keeps distance and speed limit of every entry, and keeps the traffic
factor of every entry other than `a -> b` and `b -> a`, which get `f`. -/
theorem traffic_frame (g : Graph) (a b : Int) (f : ℚ) (silence : Bool)
    (h : edge_exists g a b = true) :
    (∀ x, node_exists (traffic g a b f silence).1 x = node_exists g x) ∧
      (∀ x y, (entry (traffic g a b f silence).1 x y).isSome = (entry g x y).isSome) ∧
      (∀ x y, (entry (traffic g a b f silence).1 x y).map (fun e => (e.d, e.s)) =
        (entry g x y).map (fun e => (e.d, e.s))) ∧
      (∀ x y, ¬ (x = a ∧ y = b) → ¬ (x = b ∧ y = a) →
        entry (traffic g a b f silence).1 x y = entry g x y) ∧
      (∀ e, entry (traffic g a b f silence).1 a b = some e → e.a = f) ∧
      (∀ e, entry (traffic g a b f silence).1 b a = some e → e.a = f) := by
  refine ⟨fun x => node_exists_traffic g a b f silence x, ?_, ?_, ?_, ?_, ?_⟩
  · intro x y
    rw [entry_traffic]
    split
    · cases entry g x y <;> rfl
    · rfl
  · intro x y
    rw [entry_traffic]
    split
    · cases entry g x y <;> rfl
    · rfl
  · intro x y h1 h2
    rw [entry_traffic, if_neg (fun hc => hc.2.elim h1 h2)]
  · intro e he
    rw [entry_traffic, if_pos ⟨h, Or.inl ⟨rfl, rfl⟩⟩] at he
    cases h1 : entry g a b with
    | none => rw [h1] at he; cases he
    | some e1 => rw [h1] at he; cases he; rfl
  · intro e he
    rw [entry_traffic, if_pos ⟨h, Or.inr ⟨rfl, rfl⟩⟩] at he
    cases h1 : entry g b a with
    | none => rw [h1] at he; cases he
    | some e1 => rw [h1] at he; cases he; rfl

theorem traffic_frame_witness :
    edge_exists exChain 1 2 = true ∧
      entry (traffic exChain 1 2 3 false).1 2 3 = some { d := 5, s := 5, a := 1 } ∧
      ∀ e, entry (traffic exChain 1 2 3 false).1 1 2 = some e → e.a = 3 :=
  ⟨by decide!, by decide!, (traffic_frame exChain 1 2 3 false (by decide!)).2.2.2.2.1⟩

/-- C14: `update records` reports success exactly when some record names an edge of the
graph, and failure otherwise, so also for no records; the resulting graph is the one that
`traffic` calls give, in order, on exactly the records whose edge exists. -/
theorem update_reports (g : Graph) (records : List (Int × Int × ℚ)) :
    ((update g records).2 = Output.success ↔
        ∃ r ∈ records, edge_exists g r.1 r.2.1 = true) ∧
      ((update g records).2 = Output.failure ↔
        ¬ ∃ r ∈ records, edge_exists g r.1 r.2.1 = true) ∧
      (update g records).1 =
        (records.filter (fun r => edge_exists g r.1 r.2.1)).foldl applyTraffic g ∧
      (update g records).1 = records.foldl applyTraffic g ∧
      update g [] = (g, Output.failure) := by
  obtain ⟨h1, h2⟩ := foldl_updateStep_eq g records (g, false) (fun _ _ => rfl)
  have hany : (records.foldl updateStep (g, false)).2 = true ↔
      ∃ r ∈ records, edge_exists g r.1 r.2.1 = true := by
    rw [h2]
    simp
  refine ⟨?_, ?_, h1, ?_, rfl⟩
  · rw [← hany]
    unfold update
    by_cases hc : (records.foldl updateStep (g, false)).2 = true
    · simp [hc]
    · simp [hc]
  · rw [← hany]
    unfold update
    by_cases hc : (records.foldl updateStep (g, false)).2 = true
    · simp [hc]
    · simp [hc]
  · show (records.foldl updateStep (g, false)).1 = _
    rw [h1]
    have hgen : ∀ (l : List (Int × Int × ℚ)) (g0 : Graph),
        (∀ x y, edge_exists g0 x y = edge_exists g x y) →
        (l.filter (fun r => edge_exists g r.1 r.2.1)).foldl applyTraffic g0 =
          l.foldl applyTraffic g0 := by
      intro l
      induction l with
      | nil => intro g0 _; rfl
      | cons r rs ih =>
        intro g0 hg0
        simp only [List.filter_cons, List.foldl_cons]
        have hnext : ∀ x y, edge_exists (applyTraffic g0 r) x y = edge_exists g x y := by
          intro x y
          unfold applyTraffic
          rw [edge_exists_traffic]
          exact hg0 x y
        by_cases he : edge_exists g r.1 r.2.1 = true
        · rw [if_pos he, List.foldl_cons]
          exact ih _ hnext
        · rw [if_neg he]
          have he2 : edge_exists g0 r.1 r.2.1 = false := by
            rw [hg0]
            simpa using he
          have hsame : applyTraffic g0 r = g0 := by
            unfold applyTraffic
            exact traffic_of_not_exists g0 _ _ _ _ he2
          rw [hsame]
          exact ih g0 hg0
    exact hgen records g (fun _ _ => rfl)

/-- C15: `load records` leaves the graph that calling `insert` on each record in sequence
order gives, and reports success for every sequence; for no records the graph is unchanged,
and the last record for a pair decides the distance and speed limit of its entries. -/
theorem load_is_insert_each (g : Graph) (records : List (Int × Int × ℚ × ℚ)) :
    (load g records).1 = bulkLoadSpec g records ∧
      (load g records).2 = Output.success ∧
      load g [] = (g, Output.success) ∧
      ∀ (a b : Int) (d s : ℚ),
        (entry (load g (records ++ [(a, b, d, s)])).1 a b).map (fun e => (e.d, e.s)) =
            some (d, s) ∧
          (entry (load g (records ++ [(a, b, d, s)])).1 b a).map (fun e => (e.d, e.s)) =
            some (d, s) := by
  refine ⟨foldl_loadStep_eq records g, rfl, rfl, ?_⟩
  intro a b d s
  have hl : (load g (records ++ [(a, b, d, s)])).1 =
      (insert (records.foldl loadStep g) a b d s true).1 :=
    foldl_loadStep_append records g (a, b, d, s)
  rw [hl]
  constructor
  · rw [entry_insert, if_pos (Or.inl ⟨rfl, rfl⟩)]
    rfl
  · rw [entry_insert, if_pos (Or.inr ⟨rfl, rfl⟩)]
    rfl

/-- C16: `print a` reports failure exactly when `a` is not a node and never changes the
graph; for a node of a reachable state it prints each `b` with an entry `a -> b` once, and
nothing else. -/
theorem print_lists_neighbours (g : Graph) (hr : Reachable g) (a : Int) :
    ((print g a).2 = Output.failure ↔ node_exists g a = false) ∧ (print g a).1 = g ∧
      (node_exists g a = true →
        ∃ l, (print g a).2 = Output.nodes l ∧ l.Nodup ∧
          ∀ b, b ∈ l ↔ (entry g a b).isSome = true) := by
  refine ⟨?_, ?_, ?_⟩
  · unfold print
    by_cases h : node_exists g a = true
    · simp [h]
    · simp [h]
  · unfold print
    split <;> rfl
  · intro h
    refine ⟨UMap.keys (UMap.getD g a []), ?_, hr.wf.row a, fun b => mem_keys_row_iff g a b⟩
    unfold print
    simp [h]

theorem print_lists_neighbours_witness :
    print exIsolated 1 = (exIsolated, Output.nodes []) ∧
      print exChain 2 = (exChain, Output.nodes [1, 3]) ∧
      (node_exists exChain 2 = true →
        ∃ l, (print exChain 2).2 = Output.nodes l ∧ l.Nodup ∧
          ∀ b, b ∈ l ↔ (entry exChain 2 b).isSome = true) :=
  ⟨by decide!, by decide!, (print_lists_neighbours exChain exChain_reachable 2).2.2⟩

/-! ## The claims on the node set and on costs under traffic -/

theorem NoIsolated.ins_iso {g : Graph} (h : NoIsolated g) (a b : Int) (d s : ℚ)
    (silence : Bool) : NoIsolated (insert g a b d s silence).1 := by
  intro x hx
  rw [node_exists_insert] at hx
  by_cases hxa : x = a
  · refine ⟨b, ?_⟩
    rw [entry_insert, if_pos (Or.inl ⟨hxa, rfl⟩)]
    rfl
  · by_cases hxb : x = b
    · refine ⟨a, ?_⟩
      rw [entry_insert, if_pos (Or.inr ⟨hxb, rfl⟩)]
      rfl
    · have hx2 : node_exists g x = true := by simpa [hxa, hxb] using hx
      obtain ⟨y, hy⟩ := h x hx2
      refine ⟨y, ?_⟩
      rw [entry_insert]
      split
      · rfl
      · exact hy

theorem NoIsolated.traf_iso {g : Graph} (h : NoIsolated g) (a b : Int) (f : ℚ)
    (silence : Bool) : NoIsolated (traffic g a b f silence).1 := by
  intro x hx
  rw [node_exists_traffic] at hx
  obtain ⟨y, hy⟩ := h x hx
  refine ⟨y, ?_⟩
  rw [entry_traffic]
  split
  · cases h1 : entry g x y with
    | none => rw [h1] at hy; cases hy
    | some e => rfl
  · exact hy

theorem exIsolated_eq : exIsolated = [(1, [])] := by
  decide!

/-- C17 (counterexample): after `insert 1 2 10 5` and `delete 2`, a reachable state, node 1
is in the node set and has no neighbour. -/
theorem isolated_node_counterexample :
    Reachable exIsolated ∧ node_exists exIsolated 1 = true ∧
      UMap.getD exIsolated 1 [] = [] ∧ ¬ NoIsolated exIsolated := by
  refine ⟨Reachable.del _ 2 exEdge_reachable, by decide!, by decide!, ?_⟩
  intro h
  obtain ⟨y, hy⟩ := h 1 (by decide!)
  rw [exIsolated_eq] at hy
  simp [entry, UMap.find] at hy

/-- C17 (amended): in every state reachable from the empty graph by insert, traffic, load
and update, without delete_n, every node of the node set has at least one neighbour. -/
theorem no_isolated_without_delete (g : Graph) (h : ReachableNoDelete g) (x : Int)
    (hx : node_exists g x = true) : ∃ y, (entry g x y).isSome = true := by
  have hall : NoIsolated g := by
    clear hx
    induction h with
    | empty =>
      intro x hx
      simp [node_exists, UMap.find] at hx
    | ins g a b d s silence _ ih => exact ih.ins_iso a b d s silence
    | traf g a b f silence _ ih => exact ih.traf_iso a b f silence
    | ld g records _ ih =>
      exact foldl_loadStep_inv NoIsolated
        (fun g a b d s silence hg => hg.ins_iso a b d s silence) records g ih
    | upd g records _ ih =>
      exact foldl_updateStep_inv NoIsolated
        (fun g a b f silence hg => hg.traf_iso a b f silence) records (g, false) ih
  exact hall x hx

theorem no_isolated_without_delete_witness :
    node_exists exChain 2 = true ∧ ∃ y, (entry exChain 2 y).isSome = true :=
  ⟨by decide!, no_isolated_without_delete exChain
    (ReachableNoDelete.ins _ 2 3 5 5 false
      (ReachableNoDelete.ins [] 1 2 5 5 false ReachableNoDelete.empty)) 2 (by decide!)⟩

theorem weight_traffic_le (e : Edge) (hd : 0 < e.d) (hs : 0 < e.s) (a1 a2 : ℚ)
    (h1 : 0 < a1) (h12 : a1 ≤ a2) :
    weight { e with a := a2 } ≤ weight { e with a := a1 } := by
  unfold weight
  have h2 : 0 < a2 := lt_of_lt_of_le h1 h12
  rw [div_le_div_iff_of_pos_left hd (mul_pos hs h2) (mul_pos hs h1)]
  exact mul_le_mul_of_nonneg_left h12 (le_of_lt hs)

theorem walkCost_le_of_terms (g1 g2 : Graph)
    (h : ∀ x y, ((entry g1 x y).map weight).getD 0 ≤ ((entry g2 x y).map weight).getD 0)
    (w : List Int) : walkCost g1 w ≤ walkCost g2 w := by
  induction w with
  | nil => simp [walkCost]
  | cons x w ih =>
    cases w with
    | nil => simp [walkCost]
    | cons y r =>
      rw [walkCost_cons_cons, walkCost_cons_cons]
      exact add_le_add (h x y) ih

/-- C18 (counterexample): on the graph `insert 1 2 10 5`, raising the traffic factor of
the edge from 1 to 2 lowers the cost of the path `1 2` from 2 to 1. -/
theorem traffic_monotone_counterexample :
    Reachable exEdge ∧ WalkFromTo exEdge 1 2 [1, 2] ∧
      entry exEdge 1 2 = some { d := 10, s := 5, a := 1 } ∧
      walkCost exEdge [1, 2] = 2 ∧ walkCost (traffic exEdge 1 2 2 false).1 [1, 2] = 1 ∧
      walkCost (traffic exEdge 1 2 2 false).1 [1, 2] < walkCost exEdge [1, 2] :=
  ⟨exEdge_reachable, by decide!, by decide!, by decide!, by decide!, by decide!⟩

/-- C18 (amended): in a reachable state, for an edge `a - b` with positive distance and
speed limit and any node sequence, raising the traffic factor of the edge (between positive
values) never raises the cost of the sequence, and lowering it never lowers that cost. -/
theorem traffic_cost_antitone (g : Graph) (hr : Reachable g) (a b : Int) (e : Edge)
    (he : entry g a b = some e) (hd : 0 < e.d) (hs : 0 < e.s) (f : ℚ) (silence : Bool)
    (w : List Int) :
    (0 < e.a → e.a ≤ f → walkCost (traffic g a b f silence).1 w ≤ walkCost g w) ∧
      (0 < f → f ≤ e.a → walkCost g w ≤ walkCost (traffic g a b f silence).1 w) := by
  have hba : entry g b a = some e := hr.mirror a b e he
  have hee : edge_exists g a b = true := by
    rw [edge_exists_eq, he, hba]
    rfl
  have hterm : ∀ x y, ((x = a ∧ y = b) ∨ (x = b ∧ y = a)) →
      ((entry (traffic g a b f silence).1 x y).map weight).getD 0 =
          weight { e with a := f } ∧
        ((entry g x y).map weight).getD 0 = weight e := by
    intro x y hc
    have hxy : entry g x y = some e := by
      rcases hc with ⟨rfl, rfl⟩ | ⟨rfl, rfl⟩
      · exact he
      · exact hba
    rw [entry_traffic, if_pos ⟨hee, hc⟩, hxy]
    exact ⟨rfl, rfl⟩
  have hsame : ∀ x y, ¬ ((x = a ∧ y = b) ∨ (x = b ∧ y = a)) →
      entry (traffic g a b f silence).1 x y = entry g x y := by
    intro x y hc
    rw [entry_traffic, if_neg (fun h => hc h.2)]
  constructor
  · intro h1 h2
    apply walkCost_le_of_terms
    intro x y
    by_cases hc : (x = a ∧ y = b) ∨ (x = b ∧ y = a)
    · rw [(hterm x y hc).1, (hterm x y hc).2]
      exact weight_traffic_le e hd hs e.a f h1 h2
    · rw [hsame x y hc]
  · intro h1 h2
    apply walkCost_le_of_terms
    intro x y
    by_cases hc : (x = a ∧ y = b) ∨ (x = b ∧ y = a)
    · rw [(hterm x y hc).1, (hterm x y hc).2]
      exact weight_traffic_le e hd hs f e.a h1 h2
    · rw [hsame x y hc]

theorem traffic_cost_antitone_witness :
    entry exEdge 1 2 = some { d := 10, s := 5, a := 1 } ∧
      walkCost (traffic exEdge 1 2 2 false).1 [1, 2] ≤ walkCost exEdge [1, 2] :=
  ⟨by decide!, (traffic_cost_antitone exEdge exEdge_reachable 1 2 { d := 10, s := 5, a := 1 }
    (by decide!) (by norm_num) (by norm_num) 2 false [1, 2]).1 (by norm_num) (by norm_num)⟩

/-! ## The claims on the one-edge graph and on the chain -/

theorem dijkstraLoopExhaust_nil (fuel : Nat) (st : DState) (h : st.pq = []) :
    dijkstraLoopExhaust fuel st = some st := by
  cases fuel <;> simp [dijkstraLoopExhaust, h]

theorem dijkstraLoopExhaust_succ (fuel : Nat) (st : DState) (d : WithTop ℚ) (u : Int)
    (rest : List (WithTop ℚ × Int)) (h : st.pq = (d, u) :: rest) :
    dijkstraLoopExhaust (fuel + 1) st =
      if d > st.D u then dijkstraLoopExhaust fuel { st with pq := rest }
      else dijkstraLoopExhaust fuel
        ((UMap.getD (touch st.g u) u []).foldl (relax u)
          { st with pq := rest, g := touch st.g u }) := by
  rw [dijkstraLoopExhaust]
  simp only [h]
  rfl

theorem dijkstraLoopExhaust_post {g : Graph} {s : Int} (ctx : Ctx g s) (dest : Int) :
    ∀ (fuel : Nat) (st : DState), DInv g s st → st.pq.length + pendSum g st ≤ fuel →
      ∃ st1, dijkstraLoopExhaust fuel st = some st1 ∧ Post g s dest st1 := by
  intro fuel
  induction fuel with
  | zero =>
    intro st h hm
    have hpq : st.pq = [] := List.length_eq_zero.1 (by omega)
    exact ⟨st, dijkstraLoopExhaust_nil 0 st hpq, h.post_of_nil ctx dest hpq⟩
  | succ fuel ih =>
    intro st h hm
    cases hpq : st.pq with
    | nil => exact ⟨st, dijkstraLoopExhaust_nil _ st hpq, h.post_of_nil ctx dest hpq⟩
    | cons x rest =>
      obtain ⟨d, u⟩ := x
      rw [dijkstraLoopExhaust_succ fuel st d u rest hpq]
      by_cases hst : d > st.D u
      · rw [if_pos hst]
        obtain ⟨h1, h2⟩ := h.pop_stale hpq hst
        refine ih _ h1 ?_
        show rest.length + pendSum g { st with pq := rest } ≤ fuel
        omega
      · rw [if_neg hst]
        have hmid := Mid.foldl_relax ctx _ (h.pop_process ctx hpq hst)
        obtain ⟨h1, h2⟩ := hmid.done
        have hlen : 0 < st.pq.length := by rw [hpq]; simp
        exact ih _ h1 (by omega)

theorem dijkstraExhaust_post {g : Graph} {s : Int} (ctx : Ctx g s) (dest : Int) (fuel : Nat)
    (hfuel : fuelBound g ≤ fuel) :
    ∃ st, dijkstraExhaust fuel g s [] [] = some st ∧ Post g s dest st := by
  obtain ⟨h1, h2⟩ := dijkstra_init ctx _ rfl
  exact dijkstraLoopExhaust_post ctx dest fuel _ h1 (by omega)

theorem Post.cost_le {g : Graph} {s t : Int} {st1 st2 : DState} (h1 : Post g s t st1)
    (h2 : Post g s t st2) (ht : t ∈ UMap.keys g) : st1.D t ≤ st2.D t := by
  cases hc : st2.D t with
  | top => exact le_top
  | coe c => exact h1.hopt c (h2.hA t ht c hc)

/-- Claim C30: in every reachable graph with positive edge attributes, for existing nodes
`source` and `target` and enough fuel, both the search of `dijkstra` with its early exit
and the same search run until the priority queue is exhausted return, and they record
the same cost for `target`. -/
theorem early_exit_sound (g : Graph) (source target : Int) (fuel : Nat)
    (hr : Reachable g) (hpos : PosAttrs g)
    (hs : node_exists g source = true) (ht : node_exists g target = true)
    (hfuel : fuelBound g ≤ fuel) :
    ∃ st1 st2, dijkstra fuel g source target [] [] = some st1 ∧
      dijkstraExhaust fuel g source [] [] = some st2 ∧
      UMap.getD st1.dist target 0 = UMap.getD st2.dist target 0 := by
  have ctx := Ctx.of_reachable hr hpos source hs
  obtain ⟨st1, e1, p1⟩ := dijkstra_post ctx target fuel hfuel
  obtain ⟨st2, e2, p2⟩ := dijkstraExhaust_post ctx target fuel hfuel
  have hk : target ∈ UMap.keys g := (UMap.find_isSome_iff g target).1 ht
  exact ⟨st1, st2, e1, e2, le_antisymm (p1.cost_le p2 hk) (p2.cost_le p1 hk)⟩

theorem early_exit_sound_witness :
    ∃ st1 st2, dijkstra 10 exChain 1 2 [] [] = some st1 ∧
      dijkstraExhaust 10 exChain 1 [] [] = some st2 ∧
      UMap.getD st1.dist 2 0 = UMap.getD st2.dist 2 0 :=
  early_exit_sound exChain 1 2 10 exChain_reachable exChain_pos (by decide) (by decide)
    (by decide)

/-! ## The frame of `delete_n` -/

/-- Claim C36: a successful `delete_n a` (the call completes and reports success) leaves
every entry `x -> y` with `x ≠ a` and `y ≠ a` as it was, attributes included, and every
node other than `a` that existed before still exists afterwards; this holds in particular
for the former neighbours of `a`, also when they are left without any edge. -/
theorem delete_frame (g g1 : Graph) (a : Int)
    (h : delete_n_exec g a = some (g1, Output.success)) :
    (∀ x y, x ≠ a → y ≠ a → entry g1 x y = entry g x y) ∧
    (∀ x, x ≠ a → node_exists g x = true → node_exists g1 x = true) ∧
    (∀ x e, x ≠ a → entry g a x = some e → node_exists g1 x = true) := by
  obtain ⟨ha, _, rfl⟩ := delete_n_exec_success g g1 a h
  refine ⟨?_, ?_, ?_⟩
  · intro x y hx hy
    rw [entry_delete_n g a x y ha, if_neg]
    rintro (h | ⟨_, h⟩)
    · exact hx h
    · exact hy h
  · intro x hx hn
    rw [node_exists_delete_n g a x ha, hn]
    simp [hx]
  · intro x e hx he
    rw [node_exists_delete_n g a x ha]
    have : x ∈ UMap.keys (UMap.getD g a []) := (mem_keys_row_iff g a x).2 (by rw [he]; rfl)
    simp [hx, this]

theorem delete_frame_witness :
    delete_n_exec exTriangle 1 = some ((delete_n exTriangle 1).1, Output.success) ∧
    entry exTriangle 2 3 = some { d := 1, s := 1, a := 1 } ∧
    entry (delete_n exTriangle 1).1 2 3 = entry exTriangle 2 3 ∧
    node_exists (delete_n exTriangle 1).1 2 = true ∧
    delete_n_exec exChain 2 = some ((delete_n exChain 2).1, Output.success) ∧
    entry exChain 2 1 = some { d := 5, s := 5, a := 1 } ∧
    node_exists (delete_n exChain 2).1 1 = true ∧
    UMap.keys (UMap.getD (delete_n exChain 2).1 1 []) = [] :=
  ⟨by decide!, by decide!,
    (delete_frame exTriangle _ 1 (by decide!)).1 2 3 (by decide) (by decide),
    (delete_frame exTriangle _ 1 (by decide!)).2.1 2 (by decide) (by decide),
    by decide!, by decide!,
    (delete_frame exChain _ 2 (by decide!)).2.2 1 { d := 5, s := 5, a := 1 } (by decide)
      (by decide!),
    by decide!⟩

/-! ## `lowest` in both directions -/

theorem Reach.reverse {g : Graph} (hm : Mirror g) {a b : Int} {c : ℚ} (h : Reach g a b c) :
    Reach g b a c := by
  induction h with
  | refl => exact Reach.refl
  | step u v e c c1 _ he hc ih =>
    have := Reach.prepend (hm u v e he) ih
    rw [hc, add_comm]
    exact this

theorem Post.cost_symm {g : Graph} (hm : Mirror g) {a b : Int} {st1 st2 : DState}
    (h1 : Post g a b st1) (h2 : Post g b a st2) (ha : a ∈ UMap.keys g) :
    st1.D b ≤ st2.D a := by
  cases hc : st2.D a with
  | top => exact le_top
  | coe c => exact h1.hopt c (Reach.reverse hm (h2.hA a ha c hc))

theorem lowest_absent (fuel : Nat) (g : Graph) (a b : Int)
    (h : node_exists g a = false ∨ node_exists g b = false) :
    lowest fuel g a b = some (g, Output.failure) := by
  unfold lowest
  rcases h with h | h <;> simp [h]

/-- Claim C37: in a reachable state with positive edge attributes and for all `a`, `b`,
`lowest a b` and `lowest b a` (given `fuelBound g` iterations or more) both return, the one
reports failure exactly when the other does, and otherwise they print the same cost:
the two outputs are equal. -/
theorem lowest_symmetric (g : Graph) (hr : Reachable g) (hpos : PosAttrs g) (a b : Int)
    (fuel : Nat) (hfuel : fuelBound g ≤ fuel) :
    ∃ out, lowest fuel g a b = some (g, out) ∧ lowest fuel g b a = some (g, out) ∧
      (out = Output.failure ∨ ∃ c, out = Output.cost c) := by
  by_cases ha : node_exists g a = true
  · by_cases hb : node_exists g b = true
    · have ctx1 := Ctx.of_reachable hr hpos a ha
      have ctx2 := Ctx.of_reachable hr hpos b hb
      obtain ⟨st1, hd1, p1⟩ := dijkstra_post ctx1 b fuel hfuel
      obtain ⟨st2, hd2, p2⟩ := dijkstra_post ctx2 a fuel hfuel
      have hka : a ∈ UMap.keys g := (UMap.find_isSome_iff g a).1 ha
      have hkb : b ∈ UMap.keys g := (UMap.find_isSome_iff g b).1 hb
      have heq : st1.D b = st2.D a :=
        le_antisymm (p1.cost_symm hr.mirror p2 hka) (p2.cost_symm hr.mirror p1 hkb)
      rcases lowest_of_post fuel st1 ha hb hd1 p1.hg with ⟨h1, h2⟩ | ⟨c1, h1, h2⟩
      · rcases lowest_of_post fuel st2 hb ha hd2 p2.hg with ⟨h3, h4⟩ | ⟨c2, h3, h4⟩
        · exact ⟨Output.failure, h2, h4, Or.inl rfl⟩
        · rw [heq, h3] at h1
          exact absurd h1 WithTop.coe_ne_top
      · rcases lowest_of_post fuel st2 hb ha hd2 p2.hg with ⟨h3, h4⟩ | ⟨c2, h3, h4⟩
        · rw [heq, h3] at h1
          exact absurd h1.symm WithTop.coe_ne_top
        · rw [heq, h3, WithTop.coe_eq_coe] at h1
          subst h1
          exact ⟨Output.cost c2, h2, h4, Or.inr ⟨c2, rfl⟩⟩
    · have hb2 : node_exists g b = false := by simpa using hb
      exact ⟨Output.failure, lowest_absent fuel g a b (Or.inr hb2),
        lowest_absent fuel g b a (Or.inl hb2), Or.inl rfl⟩
  · have ha2 : node_exists g a = false := by simpa using ha
    exact ⟨Output.failure, lowest_absent fuel g a b (Or.inl ha2),
      lowest_absent fuel g b a (Or.inr ha2), Or.inl rfl⟩

theorem lowest_symmetric_witness :
    lowest (fuelBound exChain) exChain 1 3 = some (exChain, Output.cost 2) ∧
    ∃ out, lowest (fuelBound exChain) exChain 1 3 = some (exChain, out) ∧
      lowest (fuelBound exChain) exChain 3 1 = some (exChain, out) ∧
      (out = Output.failure ∨ ∃ c, out = Output.cost c) :=
  ⟨by decide!, lowest_symmetric exChain exChain_reachable exChain_pos 1 3 (fuelBound exChain)
    (le_refl _)⟩

/-! ## `lowest` and the traffic factor -/

theorem UMap.map_set_of_find {β : Type} (m : UMap β) (x : Int) (v old : β) (F : β → Nat)
    (h : UMap.find m x = some old) (hF : F old = F v) :
    (UMap.set m x v).map (fun p => F p.2) = m.map (fun p => F p.2) := by
  induction m with
  | nil => simp [UMap.find] at h
  | cons p m ih =>
    obtain ⟨k, w⟩ := p
    by_cases hk : k = x
    · simp only [UMap.find, hk, if_true, Option.some.injEq] at h
      subst h
      simp [UMap.set, hk, hF]
    · simp only [UMap.find, hk, if_false] at h
      simp [UMap.set, hk, ih h]

theorem UMap.length_set_of_find {β : Type} (m : UMap β) (x : Int) (v old : β)
    (h : UMap.find m x = some old) : (UMap.set m x v).length = m.length := by
  have := congrArg List.length (UMap.map_set_of_find m x v old (fun _ => 0) h rfl)
  simpa using this

theorem fuelBound_modifyEntry (g : Graph) (a b : Int) (f : Edge → Edge)
    (h : (entry g a b).isSome = true) : fuelBound (modifyEntry g a b f) = fuelBound g := by
  unfold entry at h
  cases hrow : UMap.find g a with
  | none => rw [hrow] at h; simp at h
  | some row =>
    rw [hrow] at h
    change (UMap.find row b).isSome = true at h
    cases he : UMap.find row b with
    | none => rw [he] at h; simp at h
    | some e0 =>
      have hg : UMap.getD g a [] = row := by unfold UMap.getD; rw [hrow]; rfl
      unfold fuelBound modifyEntry
      simp only [hg]
      have hlen : (UMap.set row b (f (UMap.getD row b Edge.init))).length = row.length :=
        UMap.length_set_of_find row b _ e0 he
      rw [UMap.length_set_of_find g a _ row hrow,
        UMap.map_set_of_find g a _ row (fun r => r.length) hrow hlen.symm]

theorem fuelBound_traffic (g : Graph) (a b : Int) (f : ℚ) (silence : Bool) :
    fuelBound (traffic g a b f silence).1 = fuelBound g := by
  unfold traffic
  by_cases h : edge_exists g a b = true
  · rw [edge_exists_eq, Bool.and_eq_true] at h
    simp only [edge_exists_eq, h.1, h.2, Bool.and_self, Bool.not_true, Bool.false_eq_true,
      if_false]
    rw [fuelBound_modifyEntry, fuelBound_modifyEntry _ _ _ _ h.1]
    rw [entry_modifyEntry]
    split
    · rfl
    · exact h.2
  · simp [h]

theorem entry_traffic_pair (g : Graph) (hpos : PosAttrs g) (a b : Int) (f1 f2 : ℚ)
    (s1 s2 : Bool) (h1 : 0 < f1) (h12 : f1 ≤ f2) (x y : Int) :
    (entry (traffic g a b f1 s1).1 x y = none ∧ entry (traffic g a b f2 s2).1 x y = none) ∨
    ∃ e1 e2, entry (traffic g a b f1 s1).1 x y = some e1 ∧
      entry (traffic g a b f2 s2).1 x y = some e2 ∧ weight e2 ≤ weight e1 := by
  rw [entry_traffic, entry_traffic]
  cases he : entry g x y with
  | none =>
    left
    constructor <;> split <;> rfl
  | some e =>
    right
    obtain ⟨hd, hs, _⟩ := hpos x y e he
    by_cases hc : edge_exists g a b = true ∧ ((x = a ∧ y = b) ∨ (x = b ∧ y = a))
    · rw [if_pos hc, if_pos hc]
      exact ⟨_, _, rfl, rfl, weight_traffic_le e hd hs f1 f2 h1 h12⟩
    · rw [if_neg hc, if_neg hc]
      exact ⟨e, e, rfl, rfl, le_refl _⟩

theorem Reach.traffic_le {g : Graph} (hpos : PosAttrs g) (a b : Int) (f1 f2 : ℚ)
    (s1 s2 : Bool) (h1 : 0 < f1) (h12 : f1 ≤ f2) {x y : Int} {c : ℚ}
    (h : Reach (traffic g a b f1 s1).1 x y c) :
    ∃ c2, c2 ≤ c ∧ Reach (traffic g a b f2 s2).1 x y c2 := by
  induction h with
  | refl => exact ⟨0, le_refl _, Reach.refl⟩
  | step u v e c c1 _ he hc ih =>
    obtain ⟨c2, hle, hr⟩ := ih
    rcases entry_traffic_pair g hpos a b f1 f2 s1 s2 h1 h12 u v with ⟨hn, _⟩ | ⟨e1, e2, k1, k2, k3⟩
    · rw [hn] at he; cases he
    · rw [k1] at he
      cases he
      exact ⟨c2 + weight e2, by rw [hc]; linarith, Reach.step u v e2 c2 _ hr k2 rfl⟩

theorem Reach.traffic_back {g : Graph} (hpos : PosAttrs g) (a b : Int) (f1 f2 : ℚ)
    (s1 s2 : Bool) (h1 : 0 < f1) (h12 : f1 ≤ f2) {x y : Int} {c : ℚ}
    (h : Reach (traffic g a b f2 s2).1 x y c) :
    ∃ c1, Reach (traffic g a b f1 s1).1 x y c1 := by
  induction h with
  | refl => exact ⟨0, Reach.refl⟩
  | step u v e c c1 _ he hc ih =>
    obtain ⟨c0, hr⟩ := ih
    rcases entry_traffic_pair g hpos a b f1 f2 s1 s2 h1 h12 u v with ⟨_, hn⟩ | ⟨e1, e2, k1, k2, k3⟩
    · rw [hn] at he; cases he
    · exact ⟨c0 + weight e1, Reach.step u v e1 c0 _ hr k1 rfl⟩

/-- Claim C38: in a reachable state with positive edge attributes, for all `a`, `b` (an
existing edge `a - b` in particular), factors `0 < f1 ≤ f2` and all `x`, `y`: `lowest x y` on the state after
`traffic a b f1` and on the state after `traffic a b f2` (given `fuelBound g` iterations
or more) both return; either both report failure, or both print a cost and the cost after
`traffic a b f2` is at most the cost after `traffic a b f1`. -/
theorem lowest_antitone_traffic (g : Graph) (hr : Reachable g) (hpos : PosAttrs g)
    (a b : Int) (f1 f2 : ℚ) (s1 s2 : Bool) (h1 : 0 < f1)
    (h12 : f1 ≤ f2) (x y : Int) (fuel : Nat) (hfuel : fuelBound g ≤ fuel) :
    (lowest fuel (traffic g a b f1 s1).1 x y = some ((traffic g a b f1 s1).1, Output.failure) ∧
      lowest fuel (traffic g a b f2 s2).1 x y =
        some ((traffic g a b f2 s2).1, Output.failure)) ∨
    ∃ c1 c2,
      lowest fuel (traffic g a b f1 s1).1 x y = some ((traffic g a b f1 s1).1, Output.cost c1) ∧
      lowest fuel (traffic g a b f2 s2).1 x y = some ((traffic g a b f2 s2).1, Output.cost c2) ∧
      c2 ≤ c1 := by
  have hf2 : 0 < f2 := lt_of_lt_of_le h1 h12
  have hr1 : Reachable (traffic g a b f1 s1).1 := Reachable.traf g a b f1 s1 hr
  have hr2 : Reachable (traffic g a b f2 s2).1 := Reachable.traf g a b f2 s2 hr
  have hp1 : PosAttrs (traffic g a b f1 s1).1 := hpos.traf_pos a b f1 s1 h1
  have hp2 : PosAttrs (traffic g a b f2 s2).1 := hpos.traf_pos a b f2 s2 hf2
  have hfu1 : fuelBound (traffic g a b f1 s1).1 ≤ fuel := by rw [fuelBound_traffic]; exact hfuel
  have hfu2 : fuelBound (traffic g a b f2 s2).1 ≤ fuel := by rw [fuelBound_traffic]; exact hfuel
  have hnx : ∀ z, node_exists (traffic g a b f1 s1).1 z = node_exists (traffic g a b f2 s2).1 z := by
    intro z
    rw [node_exists_traffic, node_exists_traffic]
  by_cases hx : node_exists (traffic g a b f1 s1).1 x = true
  · by_cases hy : node_exists (traffic g a b f1 s1).1 y = true
    · have hx2 := hx
      have hy2 := hy
      rw [hnx] at hx2 hy2
      have ctx1 := Ctx.of_reachable hr1 hp1 x hx
      have ctx2 := Ctx.of_reachable hr2 hp2 x hx2
      obtain ⟨st1, hd1, p1⟩ := dijkstra_post ctx1 y fuel hfu1
      obtain ⟨st2, hd2, p2⟩ := dijkstra_post ctx2 y fuel hfu2
      have hk1 : y ∈ UMap.keys (traffic g a b f1 s1).1 := (UMap.find_isSome_iff _ y).1 hy
      have hk2 : y ∈ UMap.keys (traffic g a b f2 s2).1 := (UMap.find_isSome_iff _ y).1 hy2
      rcases lowest_of_post fuel st1 hx hy hd1 p1.hg with ⟨k1, k2⟩ | ⟨c1, k1, k2⟩
      · rcases lowest_of_post fuel st2 hx2 hy2 hd2 p2.hg with ⟨k3, k4⟩ | ⟨c2, k3, k4⟩
        · exact Or.inl ⟨k2, k4⟩
        · exfalso
          obtain ⟨c0, hc0⟩ := Reach.traffic_back hpos a b f1 f2 s1 s2 h1 h12 (p2.hA y hk2 c2 k3)
          have := p1.hopt c0 hc0
          rw [k1] at this
          exact WithTop.coe_ne_top (top_le_iff.1 this)
      · obtain ⟨c0, hle, hc0⟩ := Reach.traffic_le hpos a b f1 f2 s1 s2 h1 h12 (p1.hA y hk1 c1 k1)
        have hb2 := p2.hopt c0 hc0
        rcases lowest_of_post fuel st2 hx2 hy2 hd2 p2.hg with ⟨k3, k4⟩ | ⟨c2, k3, k4⟩
        · rw [k3] at hb2
          exact absurd (top_le_iff.1 hb2) WithTop.coe_ne_top
        · rw [k3, WithTop.coe_le_coe] at hb2
          exact Or.inr ⟨c1, c2, k2, k4, le_trans hb2 hle⟩
    · have hy1 : node_exists (traffic g a b f1 s1).1 y = false := by simpa using hy
      have hy2 := hy1
      rw [hnx] at hy2
      exact Or.inl ⟨lowest_absent fuel _ x y (Or.inr hy1), lowest_absent fuel _ x y (Or.inr hy2)⟩
  · have hx1 : node_exists (traffic g a b f1 s1).1 x = false := by simpa using hx
    have hx2 := hx1
    rw [hnx] at hx2
    exact Or.inl ⟨lowest_absent fuel _ x y (Or.inl hx1), lowest_absent fuel _ x y (Or.inl hx2)⟩

theorem lowest_antitone_traffic_witness :
    edge_exists exChain 1 2 = true ∧
    lowest 9 (traffic exChain 1 2 1 false).1 1 3 =
      some ((traffic exChain 1 2 1 false).1, Output.cost 2) ∧
    lowest 9 (traffic exChain 1 2 2 false).1 1 3 =
      some ((traffic exChain 1 2 2 false).1, Output.cost (3 / 2)) ∧
    ((lowest 9 (traffic exChain 1 2 1 false).1 1 3 =
        some ((traffic exChain 1 2 1 false).1, Output.failure) ∧
      lowest 9 (traffic exChain 1 2 2 false).1 1 3 =
        some ((traffic exChain 1 2 2 false).1, Output.failure)) ∨
    ∃ c1 c2,
      lowest 9 (traffic exChain 1 2 1 false).1 1 3 =
        some ((traffic exChain 1 2 1 false).1, Output.cost c1) ∧
      lowest 9 (traffic exChain 1 2 2 false).1 1 3 =
        some ((traffic exChain 1 2 2 false).1, Output.cost c2) ∧
      c2 ≤ c1) :=
  ⟨by decide!, by decide!, by decide!,
    lowest_antitone_traffic exChain exChain_reachable exChain_pos 1 2 1 2 false
      false (by norm_num) (by norm_num) 1 3 9 (by decide)⟩

/-! ## The length-1 check of `path` -/

theorem length_of_ends {w : List Int} {a b : Int} (h1 : w.head? = some a)
    (h2 : w.getLast? = some b) (hab : a ≠ b) : 2 ≤ w.length := by
  match w, h1, h2 with
  | [], h1, _ => simp at h1
  | [x], h1, h2 =>
    simp only [List.head?_cons, Option.some.injEq] at h1
    simp only [List.getLast?_singleton, Option.some.injEq] at h2
    exact absurd (h1.symm.trans h2) hab
  | _ :: _ :: _, _, _ => simp

/-- Claim C35: in a reachable state with non-negative node identifiers and positive edge
attributes, for existing nodes `a ≠ b` and `fuelBound g` iterations or more, `dijkstra`
returns, and whenever the reachability check passes (`dist[b]` is finite) the loop over
`prev` returns a sequence whose reversal has at least two elements, starts at `a` and
ends at `b`; the length-1 test is false and `path` prints that sequence. -/
theorem degenerate_check_unreachable (g : Graph) (hr : Reachable g) (hpos : PosAttrs g)
    (hnn : NoNeg g) (a b : Int) (ha : node_exists g a = true) (hb : node_exists g b = true)
    (hab : a ≠ b) (fuel : Nat) (hfuel : fuelBound g ≤ fuel) :
    ∃ st, dijkstra fuel g a b [] [] = some st ∧
      (UMap.getD st.dist b 0 ≠ ⊤ →
        ∃ p, pathBack st.prev fuel b = some p ∧ 2 ≤ p.reverse.length ∧
          p.reverse.head? = some a ∧ p.reverse.getLast? = some b ∧
          ¬ (p.reverse.length = 1 ∧ p.reverse.head? = some a) ∧
          path fuel g a b = some (g, Output.nodes p.reverse)) := by
  have ctx := Ctx.of_reachable hr hpos a ha
  obtain ⟨st, hd, hpost⟩ := dijkstra_post ctx b fuel hfuel
  refine ⟨st, hd, ?_⟩
  intro htop
  have hneg : (-1 : Int) ∉ UMap.keys g := fun h => absurd (hnn (-1) h) (by decide)
  obtain ⟨p, hp, hw, _⟩ := hpost.pathBack_walk ctx hneg fuel b
    ((UMap.find_isSome_iff g b).1 hb) htop (lt_fuel_of_bound g st b fuel hfuel)
  have hlen := length_of_ends hw.1 hw.2.1 hab
  refine ⟨p, hp, hlen, hw.1, hw.2.1, fun h => by omega, ?_⟩
  rcases path_of_post fuel st ha hb hab hd hpost.hg p (fun _ => hp) with h1 | h1
  · exact absurd h1.1 htop
  · exact h1.2

theorem degenerate_check_unreachable_witness :
    ∃ st, dijkstra 9 exChain 1 3 [] [] = some st ∧
      (UMap.getD st.dist 3 0 ≠ ⊤ →
        ∃ p, pathBack st.prev 9 3 = some p ∧ 2 ≤ p.reverse.length ∧
          p.reverse.head? = some 1 ∧ p.reverse.getLast? = some 3 ∧
          ¬ (p.reverse.length = 1 ∧ p.reverse.head? = some 1) ∧
          path 9 exChain 1 3 = some (exChain, Output.nodes p.reverse)) :=
  degenerate_check_unreachable exChain exChain_reachable exChain_pos exChain_noNeg 1 3
    (by decide) (by decide) (by decide) 9 (by decide)

/-! ## Queries leave the graph as it is -/

theorem touch_of_find (g : Graph) (a : Int) (h : (UMap.find g a).isSome = true) :
    touch g a = g := by
  unfold touch
  rw [if_pos h]

theorem edge_exists_st_eq (g : Graph) (a b : Int) :
    edge_exists_st g a b = (g, edge_exists g a b) := by
  unfold edge_exists_st edge_exists
  by_cases ha : (UMap.find g a).isSome = true
  · by_cases hb : (UMap.find g b).isSome = true
    · simp [ha, hb, touch_of_find]
    · simp [ha, hb, touch_of_find]
  · by_cases hb : (UMap.find g b).isSome = true
    · simp [ha, hb, touch_of_find]
    · simp [ha, hb]

theorem print_st_eq (g : Graph) (a : Int) : print_st g a = print g a := by
  unfold print_st print
  by_cases ha : node_exists g a = true
  · have : touch g a = g := touch_of_find g a ha
    simp [ha, this]
  · simp [ha]

theorem relax_g (u : Int) (st : DState) (p : Int × Edge) :
    (relax u st p).g = st.g ∧ ∀ x ∈ (relax u st p).pq, x ∈ st.pq ∨ x.2 = p.1 := by
  unfold relax
  simp only
  split
  · refine ⟨rfl, ?_⟩
    intro x hx
    rcases (mem_pqPush _ _ _).1 hx with h | h
    · right; rw [h]
    · exact Or.inl h
  · exact ⟨rfl, fun x hx => Or.inl hx⟩

theorem foldl_relax_g (u : Int) (l : List (Int × Edge)) :
    ∀ st : DState, (l.foldl (relax u) st).g = st.g ∧
      ∀ x ∈ (l.foldl (relax u) st).pq, x ∈ st.pq ∨ ∃ p ∈ l, x.2 = p.1 := by
  induction l with
  | nil => intro st; exact ⟨rfl, fun x hx => Or.inl hx⟩
  | cons p l ih =>
    intro st
    obtain ⟨h1, h2⟩ := ih (relax u st p)
    obtain ⟨h3, h4⟩ := relax_g u st p
    rw [List.foldl_cons]
    refine ⟨h1.trans h3, ?_⟩
    intro x hx
    rcases h2 x hx with h | ⟨q, hq, h⟩
    · rcases h4 x h with h5 | h5
      · exact Or.inl h5
      · exact Or.inr ⟨p, List.mem_cons_self _ _, h5⟩
    · exact Or.inr ⟨q, List.mem_cons_of_mem _ hq, h⟩

/-- Whatever the edge attributes: when the loop of `dijkstra` returns, the graph is the
one it started with, provided every queued node is a node of the graph. -/
theorem dijkstraLoop_g {g : Graph} (hwf : WF g) (hm : Mirror g) (dest : Int) :
    ∀ (fuel : Nat) (st st1 : DState), st.g = g → (∀ x ∈ st.pq, x.2 ∈ UMap.keys g) →
      dijkstraLoop dest fuel st = some st1 → st1.g = g := by
  intro fuel
  induction fuel with
  | zero =>
    intro st st1 hg _ h
    cases hpq : st.pq with
    | nil =>
      rw [dijkstraLoop_nil dest 0 st hpq] at h
      cases h
      exact hg
    | cons x rest =>
      simp [dijkstraLoop, hpq] at h
  | succ fuel ih =>
    intro st st1 hg hq h
    cases hpq : st.pq with
    | nil =>
      rw [dijkstraLoop_nil dest _ st hpq] at h
      cases h
      exact hg
    | cons x rest =>
      obtain ⟨d, u⟩ := x
      rw [dijkstraLoop_succ dest fuel st d u rest hpq] at h
      have hrest : ∀ x ∈ rest, x.2 ∈ UMap.keys g := fun x hx =>
        hq x (by rw [hpq]; exact List.mem_cons_of_mem _ hx)
      have hu : u ∈ UMap.keys g := hq (d, u) (by rw [hpq]; exact List.mem_cons_self _ _)
      split at h
      · exact ih { st with pq := rest } st1 hg hrest h
      · split at h
        · cases h
          exact hg
        · have ht : touch st.g u = g := by rw [hg]; exact touch_of_mem g u hu
          rw [ht] at h
          obtain ⟨f1, f2⟩ := foldl_relax_g u (UMap.getD g u [])
            { st with pq := rest, g := g }
          refine ih _ st1 f1 ?_ h
          intro x hx
          rcases f2 x hx with h1 | ⟨p, hp, h1⟩
          · exact hrest x h1
          · rw [h1]
            have he : entry g u p.1 = some p.2 := (mem_row_iff hwf u p.1 p.2).1 hp
            exact mem_keys_of_entry g p.1 u p.2 (hm u p.1 p.2 he)

theorem dijkstra_g {g : Graph} (hr : Reachable g) (s dest : Int)
    (hs : node_exists g s = true) (fuel : Nat) (st : DState)
    (h : dijkstra fuel g s dest [] [] = some st) : st.g = g := by
  rw [dijkstra_eq] at h
  obtain ⟨i1, i2, _, _⟩ := foldl_initStep g { g := g, dist := [], prev := [], pq := [] }
  refine dijkstraLoop_g hr.wf hr.mirror dest fuel _ st ?_ ?_ h
  · exact i1
  intro x hx
  have hx2 : x ∈ pqPush (0, s) (g.foldl initStep { g := g, dist := [], prev := [], pq := [] }).pq :=
    hx
  rw [i2] at hx2
  rcases (mem_pqPush _ _ _).1 hx2 with h1 | h1
  · rw [h1]
    exact (UMap.find_isSome_iff g s).1 hs
  · cases h1

theorem path_g {g : Graph} (hr : Reachable g) (a b : Int) (fuel : Nat) (r : Graph × Output)
    (h : path fuel g a b = some r) : r.1 = g := by
  unfold path at h
  by_cases ha : node_exists g a = true
  · by_cases hb : node_exists g b = true
    · by_cases hab : a = b
      · simp [ha, hb, hab] at h
        rw [← h]
      · simp only [ha, hb, hab, Bool.not_true, Bool.or_self, Bool.false_eq_true, if_false] at h
        cases hd : dijkstra fuel g a b [] [] with
        | none => rw [hd] at h; cases h
        | some st =>
          have hg := dijkstra_g hr a b ha fuel st hd
          rw [hd] at h
          simp only at h
          split at h
          · cases h; exact hg
          · cases hp : pathBack st.prev fuel b with
            | none => rw [hp] at h; cases h
            | some p =>
              rw [hp] at h
              simp only at h
              split at h <;> (cases h; exact hg)
    · simp [hb] at h
      rw [← h]
  · simp [ha] at h
    rw [← h]

theorem lowest_g {g : Graph} (hr : Reachable g) (a b : Int) (fuel : Nat) (r : Graph × Output)
    (h : lowest fuel g a b = some r) : r.1 = g := by
  unfold lowest at h
  by_cases ha : node_exists g a = true
  · by_cases hb : node_exists g b = true
    · simp only [ha, hb, Bool.not_true, Bool.or_self, Bool.false_eq_true, if_false] at h
      cases hd : dijkstra fuel g a b [] [] with
      | none => rw [hd] at h; cases h
      | some st =>
        have hg := dijkstra_g hr a b ha fuel st hd
        rw [hd] at h
        simp only at h
        split at h <;> (cases h; exact hg)
    · simp [hb] at h
      rw [← h]
  · simp [ha] at h
    rw [← h]

theorem path_returns (g : Graph) (hr : Reachable g) (hpos : PosAttrs g) (a b : Int)
    (fuel : Nat) (hfuel : fuelBound g ≤ fuel) : ∃ out, path fuel g a b = some (g, out) := by
  by_cases ha : node_exists g a = true
  · by_cases hb : node_exists g b = true
    · by_cases hab : a = b
      · exact ⟨Output.failure, by unfold path; simp [ha, hb, hab]⟩
      · have ctx := Ctx.of_reachable hr hpos a ha
        obtain ⟨st, hd, hpost⟩ := dijkstra_post ctx b fuel hfuel
        by_cases htop : st.D b = ⊤
        · rcases path_of_post fuel st ha hb hab hd hpost.hg [] (fun h => absurd htop h)
            with h1 | h1
          · exact ⟨_, h1.2⟩
          · exact ⟨_, h1.2⟩
        · obtain ⟨p, hp⟩ := hpost.pathBack_some ctx fuel b
            ((UMap.find_isSome_iff g b).1 hb) htop (lt_fuel_of_bound g st b fuel hfuel)
          rcases path_of_post fuel st ha hb hab hd hpost.hg p (fun _ => hp) with h1 | h1
          · exact ⟨_, h1.2⟩
          · exact ⟨_, h1.2⟩
    · exact ⟨Output.failure, by unfold path; simp [hb]⟩
  · exact ⟨Output.failure, by unfold path; simp [ha]⟩

theorem lowest_returns (g : Graph) (hr : Reachable g) (hpos : PosAttrs g) (a b : Int)
    (fuel : Nat) (hfuel : fuelBound g ≤ fuel) : ∃ out, lowest fuel g a b = some (g, out) := by
  by_cases ha : node_exists g a = true
  · by_cases hb : node_exists g b = true
    · have ctx := Ctx.of_reachable hr hpos a ha
      obtain ⟨st, hd, hpost⟩ := dijkstra_post ctx b fuel hfuel
      rcases lowest_of_post fuel st ha hb hd hpost.hg with h1 | ⟨c, _, h1⟩
      · exact ⟨_, h1.2⟩
      · exact ⟨_, h1⟩
    · exact ⟨Output.failure, by unfold lowest; simp [hb]⟩
  · exact ⟨Output.failure, by unfold lowest; simp [ha]⟩

/-- Claim C34: in every reachable state and for all arguments, absent nodes included,
the queries leave the adjacency storage as it is.  `print` and `edge_exists`, with their
accesses `g[a]` spelled out, return the graph they were given (and `node_exists` only
calls `find`); whenever `path` or `lowest` returns, whatever the edge attributes, the
graph it leaves is the graph it was given; and with positive edge attributes and
`fuelBound g` iterations or more both do return. -/
theorem queries_read_only (g : Graph) (hr : Reachable g) (a b : Int) (fuel : Nat) :
    (print_st g a).1 = g ∧ print_st g a = print g a ∧
    edge_exists_st g a b = (g, edge_exists g a b) ∧
    (∀ r, path fuel g a b = some r → r.1 = g) ∧
    (∀ r, lowest fuel g a b = some r → r.1 = g) ∧
    (PosAttrs g → fuelBound g ≤ fuel →
      (∃ out, path fuel g a b = some (g, out)) ∧ ∃ out, lowest fuel g a b = some (g, out)) := by
  refine ⟨?_, print_st_eq g a, edge_exists_st_eq g a b, path_g hr a b fuel,
    lowest_g hr a b fuel, fun hpos hfuel =>
      ⟨path_returns g hr hpos a b fuel hfuel, lowest_returns g hr hpos a b fuel hfuel⟩⟩
  rw [print_st_eq]
  unfold print
  split <;> rfl

theorem queries_read_only_witness :
    path 9 exChain 1 3 = some (exChain, Output.nodes [1, 2, 3]) ∧
    path 9 exChain 1 7 = some (exChain, Output.failure) ∧
    (print_st exChain 2).1 = exChain ∧ print_st exChain 2 = print exChain 2 ∧
    edge_exists_st exChain 2 7 = (exChain, edge_exists exChain 2 7) ∧
    (∀ r, path 9 exChain 2 7 = some r → r.1 = exChain) ∧
    (∀ r, lowest 9 exChain 2 7 = some r → r.1 = exChain) ∧
    (PosAttrs exChain → fuelBound exChain ≤ 9 →
      (∃ out, path 9 exChain 2 7 = some (exChain, out)) ∧
        ∃ out, lowest 9 exChain 2 7 = some (exChain, out)) :=
  ⟨by decide!, by decide!, queries_read_only exChain exChain_reachable 2 7 9⟩

/-! ## The predecessor map and the record of relaxed nodes -/

theorem AuxMid.relax_aux {g : Graph} {s u : Int} {d : WithTop ℚ} {p : Int × Edge}
    {todo : List (Int × Edge)} {B : Nat} {st : DState} {tr : List Int} (ctx : Ctx g s)
    (h : Mid g s u d (p :: todo) B st) (ha : AuxMid g s d st tr) :
    AuxMid g s d (Lab4.relax u st p) tr := by
  obtain ⟨v, e⟩ := p
  have hent : entry g u v = some e := h.htodo (v, e) (List.mem_cons_self _ _)
  have hw : 0 < weight e := ctx.pos u v e hent
  by_cases hlt : st.D u + ((weight e : ℚ) : WithTop ℚ) < st.D v
  · rw [relax_of_lt u st (v, e) hlt]
    simp only []
    rw [h.hd] at hlt ⊢
    have hdlt : d < d + ((weight e : ℚ) : WithTop ℚ) := wt_lt_add d (weight e) h.hdfin hw
    have hnot : ∀ x, st.D x ≤ d → ¬ v = x := by
      intro x hx hvx
      rw [← hvx] at hx
      exact absurd (lt_of_lt_of_le (lt_trans hdlt hlt) hx) (lt_irrefl _)
    have hvu : ¬ v = u := hnot u (le_of_eq h.hd)
    generalize hst : ({ g := st.g
                        dist := UMap.set st.dist v (d + ((weight e : ℚ) : WithTop ℚ))
                        prev := UMap.set st.prev v u
                        pq := pqPush (d + ((weight e : ℚ) : WithTop ℚ), v) st.pq } : DState) = st1
    have hD : ∀ x, st1.D x = if v = x then d + ((weight e : ℚ) : WithTop ℚ) else st.D x := by
      intro x
      rw [← hst]
      exact UMap.getD_set _ _ _ _ _
    have hP : ∀ x, st1.P x = if v = x then u else st.P x := by
      intro x
      rw [← hst]
      exact UMap.getD_set _ _ _ _ _
    have hpq : ∀ x, x ∈ st1.pq ↔ x = (d + ((weight e : ℚ) : WithTop ℚ), v) ∨ x ∈ st.pq := by
      intro x
      rw [← hst]
      exact mem_pqPush _ _ _
    have hDu : st1.D u = d := by rw [hD, if_neg hvu, h.hd]
    have hDv : st1.D v = d + ((weight e : ℚ) : WithTop ℚ) := by rw [hD, if_pos rfl]
    have hfinnew : d + ((weight e : ℚ) : WithTop ℚ) ≠ ⊤ :=
      WithTop.add_ne_top.2 ⟨h.hdfin, WithTop.coe_ne_top⟩
    refine { hE := ?_, hT := ?_, hN := ha.hN, hR := ?_ }
    · intro x hx hxs hxtop
      by_cases hvx : v = x
      · subst hvx
        rw [hP, if_pos rfl, hDu, hDv]
        exact ⟨e, hent, rfl, le_refl _⟩
      · rw [hD, if_neg hvx] at hxtop
        obtain ⟨e0, k1, k2, k3⟩ := ha.hE x hx hxs hxtop
        have hvp : ¬ v = st.P x := hnot _ k3
        rw [hP, if_neg hvx, hD, if_neg hvx, hD, if_neg hvp]
        exact ⟨e0, k1, k2, k3⟩
    · intro x hx hxtop
      by_cases hvx : v = x
      · subst hvx
        rw [hDv] at hxtop
        exact absurd hxtop hfinnew
      · rw [hD, if_neg hvx] at hxtop
        rw [hP, if_neg hvx]
        exact ha.hT x hx hxtop
    · intro x hx
      obtain ⟨k1, k2⟩ := ha.hR x hx
      have hvx : ¬ v = x := hnot x k1
      rw [hD, if_neg hvx]
      refine ⟨k1, ?_⟩
      rw [hpq]
      rintro (k3 | k3)
      · exact hvx (congrArg Prod.snd k3).symm
      · exact k2 k3
  · rw [relax_of_not_lt u st (v, e) hlt]
    exact ha

theorem AuxMid.foldl_relax_aux {g : Graph} {s u : Int} {d : WithTop ℚ} (ctx : Ctx g s)
    (todo : List (Int × Edge)) {B : Nat} {st : DState} {tr : List Int}
    (h : Mid g s u d todo B st) (ha : AuxMid g s d st tr) :
    AuxMid g s d (todo.foldl (Lab4.relax u) st) tr := by
  induction todo generalizing st with
  | nil => exact ha
  | cons p todo ih => exact ih (h.relax ctx) (ha.relax_aux ctx h)

theorem AuxMid.done_aux {g : Graph} {s u : Int} {d : WithTop ℚ} {B : Nat} {st : DState}
    {tr : List Int} (h : Mid g s u d [] B st) (ha : AuxMid g s d st tr) :
    AuxHead g s st tr := by
  refine { hE := ?_, hT := ha.hT, hN := ha.hN, hR := ?_ }
  · intro v hv hvs htop
    obtain ⟨e, k1, k2, k3⟩ := ha.hE v hv hvs htop
    exact ⟨e, k1, k2, fun x hx => le_trans k3 (h.hmin x hx)⟩
  · intro x hx
    obtain ⟨k1, k2⟩ := ha.hR x hx
    exact ⟨fun y hy => le_trans k1 (h.hmin y hy), k2⟩

theorem AuxHead.pop_aux {g : Graph} {s : Int} {st : DState} {tr : List Int}
    {x : WithTop ℚ × Int} {rest : List (WithTop ℚ × Int)} (ha : AuxHead g s st tr)
    (hpq : st.pq = x :: rest) : AuxHead g s { st with pq := rest } tr := by
  have hsub : ∀ y, y ∈ rest → y ∈ st.pq := by
    intro y hy
    rw [hpq]
    exact List.mem_cons_of_mem _ hy
  refine { hE := ?_, hT := ha.hT, hN := ha.hN, hR := ?_ }
  · intro v hv hvs htop
    obtain ⟨e, k1, k2, k3⟩ := ha.hE v hv hvs htop
    exact ⟨e, k1, k2, fun y hy => k3 y (hsub y hy)⟩
  · intro y hy
    obtain ⟨k1, k2⟩ := ha.hR y hy
    exact ⟨fun z hz => k1 z (hsub z hz), fun hz => k2 (hsub _ hz)⟩

theorem AuxHead.process_aux {g : Graph} {s : Int} {st : DState} {tr : List Int}
    {d : WithTop ℚ} {u : Int} {rest : List (WithTop ℚ × Int)} (h : DInv g s st)
    (ha : AuxHead g s st tr) (hpq : st.pq = (d, u) :: rest) (hns : ¬ d > st.D u) :
    AuxMid g s d { st with pq := rest, g := touch st.g u } (tr ++ [u]) := by
  have hmem : (d, u) ∈ st.pq := by rw [hpq]; exact List.mem_cons_self _ _
  have hdu : st.D u = d := le_antisymm (h.hfin (d, u) hmem).2.2 (not_lt.1 hns)
  have hnd := h.hnodup
  rw [hpq, List.nodup_cons] at hnd
  have hsub : ∀ y, y ∈ rest → y ∈ st.pq := by
    intro y hy
    rw [hpq]
    exact List.mem_cons_of_mem _ hy
  refine { hE := ?_, hT := ha.hT, hN := ?_, hR := ?_ }
  · intro v hv hvs htop
    obtain ⟨e, k1, k2, k3⟩ := ha.hE v hv hvs htop
    exact ⟨e, k1, k2, k3 (d, u) hmem⟩
  · rw [List.nodup_append]
    refine ⟨ha.hN, List.nodup_singleton _, ?_⟩
    intro y hy hy2
    rw [List.mem_singleton] at hy2
    subst hy2
    apply (ha.hR y hy).2
    rw [hdu]
    exact hmem
  · intro y hy
    rcases List.mem_append.1 hy with k | k
    · obtain ⟨k1, k2⟩ := ha.hR y k
      exact ⟨k1 (d, u) hmem, fun hz => k2 (hsub _ hz)⟩
    · rw [List.mem_singleton] at k
      subst k
      refine ⟨le_of_eq hdu, ?_⟩
      show (st.D y, y) ∉ rest
      rw [hdu]
      exact hnd.1

theorem dijkstraLoopTrace_nil (dest : Int) (fuel : Nat) (st : DState) (tr : List Int)
    (h : st.pq = []) : dijkstraLoopTrace dest fuel st tr = some (st, tr) := by
  cases fuel <;> simp [dijkstraLoopTrace, h]

theorem dijkstraLoopTrace_succ (dest : Int) (fuel : Nat) (st : DState) (tr : List Int)
    (d : WithTop ℚ) (u : Int) (rest : List (WithTop ℚ × Int)) (h : st.pq = (d, u) :: rest) :
    dijkstraLoopTrace dest (fuel + 1) st tr =
      if d > st.D u then dijkstraLoopTrace dest fuel { st with pq := rest } tr
      else if u = dest then some ({ st with pq := rest }, tr)
      else dijkstraLoopTrace dest fuel
        ((UMap.getD (touch st.g u) u []).foldl (relax u)
          { st with pq := rest, g := touch st.g u }) (tr ++ [u]) := by
  rw [dijkstraLoopTrace]
  simp only [h]
  rfl

/-- The record is a ghost: without it the loop is `dijkstraLoop`. -/
theorem dijkstraLoopTrace_fst (dest : Int) :
    ∀ (fuel : Nat) (st : DState) (tr : List Int),
      (dijkstraLoopTrace dest fuel st tr).map Prod.fst = dijkstraLoop dest fuel st := by
  intro fuel
  induction fuel with
  | zero =>
    intro st tr
    cases hpq : st.pq with
    | nil => rw [dijkstraLoopTrace_nil dest 0 st tr hpq, dijkstraLoop_nil dest 0 st hpq]; rfl
    | cons x rest => simp [dijkstraLoopTrace, dijkstraLoop, hpq]
  | succ fuel ih =>
    intro st tr
    cases hpq : st.pq with
    | nil => rw [dijkstraLoopTrace_nil dest _ st tr hpq, dijkstraLoop_nil dest _ st hpq]; rfl
    | cons x rest =>
      obtain ⟨d, u⟩ := x
      rw [dijkstraLoopTrace_succ dest fuel st tr d u rest hpq,
        dijkstraLoop_succ dest fuel st d u rest hpq]
      split
      · exact ih _ _
      · split
        · rfl
        · exact ih _ _

theorem dijkstraTrace_fst (fuel : Nat) (g : Graph) (s dest : Int) :
    (dijkstraTrace fuel g s dest [] []).map Prod.fst = dijkstra fuel g s dest [] [] :=
  dijkstraLoopTrace_fst dest fuel _ []

theorem dijkstraLoopTrace_spec {g : Graph} {s : Int} (ctx : Ctx g s) (dest : Int) :
    ∀ (fuel : Nat) (st : DState) (tr : List Int), DInv g s st → AuxHead g s st tr →
      st.pq.length + pendSum g st ≤ fuel →
      ∃ st1 tr1, dijkstraLoopTrace dest fuel st tr = some (st1, tr1) ∧
        Post g s dest st1 ∧ AuxHead g s st1 tr1 := by
  intro fuel
  induction fuel with
  | zero =>
    intro st tr h ha hm
    have hpq : st.pq = [] := List.length_eq_zero.1 (by omega)
    exact ⟨st, tr, dijkstraLoopTrace_nil dest 0 st tr hpq, h.post_of_nil ctx dest hpq, ha⟩
  | succ fuel ih =>
    intro st tr h ha hm
    cases hpq : st.pq with
    | nil =>
      exact ⟨st, tr, dijkstraLoopTrace_nil dest _ st tr hpq, h.post_of_nil ctx dest hpq, ha⟩
    | cons x rest =>
      obtain ⟨d, u⟩ := x
      rw [dijkstraLoopTrace_succ dest fuel st tr d u rest hpq]
      by_cases hst : d > st.D u
      · rw [if_pos hst]
        obtain ⟨h1, h2⟩ := h.pop_stale hpq hst
        refine ih _ tr h1 (ha.pop_aux hpq) ?_
        show rest.length + pendSum g { st with pq := rest } ≤ fuel
        omega
      · rw [if_neg hst]
        by_cases hud : u = dest
        · rw [if_pos hud]
          subst hud
          exact ⟨_, tr, rfl, h.post_of_pop ctx hpq, ha.pop_aux hpq⟩
        · rw [if_neg hud]
          have hmid0 := h.pop_process ctx hpq hst
          have hmid := Mid.foldl_relax ctx _ hmid0
          have haux := AuxMid.foldl_relax_aux ctx _ hmid0 (ha.process_aux h hpq hst)
          obtain ⟨h1, h2⟩ := hmid.done
          have hlen : 0 < st.pq.length := by rw [hpq]; simp
          exact ih _ _ h1 (haux.done_aux hmid) (by omega)

theorem dijkstraTrace_spec {g : Graph} {s : Int} (ctx : Ctx g s) (dest : Int) (fuel : Nat)
    (hfuel : fuelBound g ≤ fuel) :
    ∃ st tr, dijkstraTrace fuel g s dest [] [] = some (st, tr) ∧
      dijkstra fuel g s dest [] [] = some st ∧ Post g s dest st ∧ AuxHead g s st tr := by
  obtain ⟨h1, h2⟩ := dijkstra_init ctx _ rfl
  obtain ⟨i1, i2, i3, i4⟩ := foldl_initStep g { g := g, dist := [], prev := [], pq := [] }
  have haux : AuxHead g s
      { g := (g.foldl initStep { g := g, dist := [], prev := [], pq := [] }).g
        dist := UMap.set (g.foldl initStep { g := g, dist := [], prev := [], pq := [] }).dist s 0
        prev := (g.foldl initStep { g := g, dist := [], prev := [], pq := [] }).prev
        pq := pqPush (0, s) (g.foldl initStep { g := g, dist := [], prev := [], pq := [] }).pq }
      [] := by
    refine { hE := ?_, hT := ?_, hN := List.nodup_nil, hR := ?_ }
    · intro v hv hvs htop
      exfalso
      apply htop
      show UMap.getD (UMap.set _ s 0) v 0 = ⊤
      rw [UMap.getD_set, if_neg (fun e => hvs e.symm)]
      have := i3 v
      rw [if_pos hv] at this
      exact this
    · intro v hv _
      have := i4 v
      rw [if_pos hv] at this
      exact this
    · intro u hu
      cases hu
  obtain ⟨st, tr, e, hp, ha⟩ := dijkstraLoopTrace_spec ctx dest fuel _ [] h1 haux (by omega)
  have e2 : dijkstraTrace fuel g s dest [] [] = some (st, tr) := e
  refine ⟨st, tr, e2, ?_, hp, ha⟩
  rw [← dijkstraTrace_fst, e2]
  rfl

/-! ## What `dijkstra` records for the nodes other than the target -/

theorem exTriangle_reachable : Reachable exTriangle :=
  Reachable.ins _ 2 3 1 1 false
    (Reachable.ins _ 1 3 10 1 false (Reachable.ins [] 1 2 1 1 false Reachable.empty))

theorem exTriangle_pos : PosAttrs exTriangle :=
  ((PosAttrs.nil.ins_pos 1 2 1 1 false (by norm_num) (by norm_num)).ins_pos 1 3 10 1 false
    (by norm_num) (by norm_num)).ins_pos 2 3 1 1 false (by norm_num) (by norm_num)

/-- Claim C31 fails for the nodes other than the target: on the triangle with edges 1-2
and 2-3 of cost 1 and 1-3 of cost 10, a reachable state with positive attributes in which
nodes 1, 2 and 3 exist, `dijkstra(1, 2)` stops when it pops node 2, and the cost it has
recorded for node 3 is 10, although the walk 1, 2, 3 costs 2.  All these costs are whole
numbers, which `double` arithmetic computes exactly. -/
theorem early_exit_counterexample :
    Reachable exTriangle ∧ PosAttrs exTriangle ∧
    node_exists exTriangle 1 = true ∧ node_exists exTriangle 2 = true ∧
    node_exists exTriangle 3 = true ∧
    WalkFromTo exTriangle 1 3 [1, 2, 3] ∧ walkCost exTriangle [1, 2, 3] = 2 ∧
    (dijkstra (fuelBound exTriangle) exTriangle 1 2 [] []).map
      (fun st => UMap.getD st.dist 3 0) = some ((10 : ℚ) : WithTop ℚ) :=
  ⟨exTriangle_reachable, exTriangle_pos, by decide, by decide, by decide, by decide!,
    by decide!, by decide!⟩

theorem Post.walk_of_cost {g : Graph} {s dest : Int} {st : DState} (h : Post g s dest st)
    (v : Int) (hv : node_exists g v = true) (c : ℚ) (hc : st.D v = (c : WithTop ℚ)) :
    ∃ w, WalkFromTo g s v w ∧ walkCost g w = c :=
  (h.hA v ((UMap.find_isSome_iff g v).1 hv) c hc).walk

theorem Post.le_walk {g : Graph} {s dest : Int} {st : DState} (h : Post g s dest st)
    (w : List Int) (hw : WalkFromTo g s dest w) :
    st.D dest ≤ ((walkCost g w : ℚ) : WithTop ℚ) :=
  h.hopt _ (Reach.of_walk w s dest hw)

/-- What the costs recorded by `dijkstra` do satisfy, in exact arithmetic: in a reachable
state with positive edge attributes, for an existing `source`, every `target` and
`fuelBound g` iterations or more, `dijkstra` returns; the cost it records for `target` is
at most the cost of every walk from `source` to `target`; for every node, a finite
recorded cost is the cost of some walk from `source` to that node (so it is at least the
minimal cost, and need not be minimal because of the early exit).  The same search run
until the queue is empty records for every node a cost that is both the cost of a walk,
when finite, and at most the cost of every walk. -/
theorem dijkstra_costs (g : Graph) (hr : Reachable g) (hpos : PosAttrs g)
    (source target : Int) (hs : node_exists g source = true) (fuel : Nat)
    (hfuel : fuelBound g ≤ fuel) :
    (∃ st, dijkstra fuel g source target [] [] = some st ∧
      (∀ w, WalkFromTo g source target w →
        UMap.getD st.dist target 0 ≤ ((walkCost g w : ℚ) : WithTop ℚ)) ∧
      (∀ v, node_exists g v = true → ∀ c : ℚ, UMap.getD st.dist v 0 = (c : WithTop ℚ) →
        ∃ w, WalkFromTo g source v w ∧ walkCost g w = c)) ∧
    (∃ st, dijkstraExhaust fuel g source [] [] = some st ∧
      ∀ v, node_exists g v = true →
        (∀ w, WalkFromTo g source v w →
          UMap.getD st.dist v 0 ≤ ((walkCost g w : ℚ) : WithTop ℚ)) ∧
        (∀ c : ℚ, UMap.getD st.dist v 0 = (c : WithTop ℚ) →
          ∃ w, WalkFromTo g source v w ∧ walkCost g w = c)) := by
  have ctx := Ctx.of_reachable hr hpos source hs
  obtain ⟨st1, e1, p1⟩ := dijkstra_post ctx target fuel hfuel
  obtain ⟨st2, e2, _⟩ := dijkstraExhaust_post ctx target fuel hfuel
  refine ⟨⟨st1, e1, p1.le_walk, p1.walk_of_cost⟩, st2, e2, ?_⟩
  intro v hv
  obtain ⟨st3, e3, p3⟩ := dijkstraExhaust_post ctx v fuel hfuel
  rw [e2] at e3
  cases e3
  exact ⟨p3.le_walk, p3.walk_of_cost v hv⟩

theorem dijkstra_costs_witness :
    (dijkstraExhaust (fuelBound exTriangle) exTriangle 1 [] []).map
      (fun st => UMap.getD st.dist 3 0) = some ((2 : ℚ) : WithTop ℚ) ∧
    ((∃ st, dijkstra (fuelBound exTriangle) exTriangle 1 2 [] [] = some st ∧
      (∀ w, WalkFromTo exTriangle 1 2 w →
        UMap.getD st.dist 2 0 ≤ ((walkCost exTriangle w : ℚ) : WithTop ℚ)) ∧
      (∀ v, node_exists exTriangle v = true → ∀ c : ℚ,
        UMap.getD st.dist v 0 = (c : WithTop ℚ) →
        ∃ w, WalkFromTo exTriangle 1 v w ∧ walkCost exTriangle w = c)) ∧
    (∃ st, dijkstraExhaust (fuelBound exTriangle) exTriangle 1 [] [] = some st ∧
      ∀ v, node_exists exTriangle v = true →
        (∀ w, WalkFromTo exTriangle 1 v w →
          UMap.getD st.dist v 0 ≤ ((walkCost exTriangle w : ℚ) : WithTop ℚ)) ∧
        (∀ c : ℚ, UMap.getD st.dist v 0 = (c : WithTop ℚ) →
          ∃ w, WalkFromTo exTriangle 1 v w ∧ walkCost exTriangle w = c))) :=
  ⟨by decide!, dijkstra_costs exTriangle exTriangle_reachable exTriangle_pos 1 2 (by decide)
    (fuelBound exTriangle) (le_refl _)⟩

/-! ## The predecessor map -/

/-- Claim C32: in a reachable state with positive edge attributes, for an existing
`source` and `fuelBound g` iterations or more, `dijkstra(source, target)` returns with
`prev[source] = -1`; every node whose recorded cost is `+infinity` has `prev = -1`; and
every other node `v` has an edge between `prev[v]` and `v`, in both directions, with
`dist[v] = dist[prev[v]] + d / (s * a)` for that edge. -/
theorem predecessor_consistent (g : Graph) (hr : Reachable g) (hpos : PosAttrs g)
    (source target : Int) (hs : node_exists g source = true) (fuel : Nat)
    (hfuel : fuelBound g ≤ fuel) :
    ∃ st, dijkstra fuel g source target [] [] = some st ∧
      UMap.getD st.prev source 0 = -1 ∧
      (∀ v, node_exists g v = true → UMap.getD st.dist v 0 = ⊤ →
        UMap.getD st.prev v 0 = -1) ∧
      (∀ v, node_exists g v = true → v ≠ source → UMap.getD st.dist v 0 ≠ ⊤ →
        ∃ e, entry g (UMap.getD st.prev v 0) v = some e ∧
          entry g v (UMap.getD st.prev v 0) = some e ∧
          UMap.getD st.dist v 0 =
            UMap.getD st.dist (UMap.getD st.prev v 0) 0 +
              ((e.d / (e.s * e.a) : ℚ) : WithTop ℚ)) := by
  have ctx := Ctx.of_reachable hr hpos source hs
  obtain ⟨st, tr, _, e, hp, ha⟩ := dijkstraTrace_spec ctx target fuel hfuel
  refine ⟨st, e, hp.hps, ?_, ?_⟩
  · intro v hv htop
    exact ha.hT v ((UMap.find_isSome_iff g v).1 hv) htop
  · intro v hv hvs htop
    obtain ⟨e0, k1, k2, _⟩ := ha.hE v ((UMap.find_isSome_iff g v).1 hv) hvs htop
    exact ⟨e0, k1, hr.mirror _ _ _ k1, k2⟩

theorem predecessor_consistent_witness :
    (dijkstra 9 exChain 1 3 [] []).map (fun st => (UMap.getD st.prev 1 0,
      UMap.getD st.prev 2 0, UMap.getD st.prev 3 0)) = some (-1, 1, 2) ∧
    ∃ st, dijkstra 9 exChain 1 3 [] [] = some st ∧
      UMap.getD st.prev 1 0 = -1 ∧
      (∀ v, node_exists exChain v = true → UMap.getD st.dist v 0 = ⊤ →
        UMap.getD st.prev v 0 = -1) ∧
      (∀ v, node_exists exChain v = true → v ≠ 1 → UMap.getD st.dist v 0 ≠ ⊤ →
        ∃ e, entry exChain (UMap.getD st.prev v 0) v = some e ∧
          entry exChain v (UMap.getD st.prev v 0) = some e ∧
          UMap.getD st.dist v 0 =
            UMap.getD st.dist (UMap.getD st.prev v 0) 0 +
              ((e.d / (e.s * e.a) : ℚ) : WithTop ℚ)) :=
  ⟨by decide!, predecessor_consistent exChain exChain_reachable exChain_pos 1 3 (by decide) 9
    (by decide)⟩

/-! ## Termination -/

theorem dijkstraTrace_absent (g : Graph) (a b : Int) (ha : node_exists g a = false)
    (fuel : Nat) (hfuel : 1 ≤ fuel) :
    ∃ st tr, dijkstraTrace fuel g a b [] [] = some (st, tr) ∧ tr.Nodup := by
  obtain ⟨f, rfl⟩ : ∃ f, fuel = f + 1 := ⟨fuel - 1, by omega⟩
  obtain ⟨i1, i2, i3, i4⟩ := foldl_initStep g { g := g, dist := [], prev := [], pq := [] }
  have hk : a ∉ UMap.keys g := by
    intro hk
    have := (UMap.find_isSome_iff g a).2 hk
    unfold node_exists at ha
    rw [ha] at this
    cases this
  have hfind : ¬ (UMap.find g a).isSome = true := by
    unfold node_exists at ha
    rw [ha]
    exact Bool.false_ne_true
  unfold dijkstraTrace
  simp only
  rw [dijkstraLoopTrace_succ b f _ [] 0 a [] (by rw [i2]; rfl)]
  have hD : DState.D
      { g := (g.foldl initStep { g := g, dist := [], prev := [], pq := [] }).g
        dist := UMap.set (g.foldl initStep { g := g, dist := [], prev := [], pq := [] }).dist a 0
        prev := (g.foldl initStep { g := g, dist := [], prev := [], pq := [] }).prev
        pq := pqPush (0, a) (g.foldl initStep { g := g, dist := [], prev := [], pq := [] }).pq }
      a = 0 := by
    show UMap.getD (UMap.set _ a 0) a 0 = 0
    rw [UMap.getD_set, if_pos rfl]
  rw [hD, if_neg (lt_irrefl _)]
  by_cases hab : a = b
  · rw [if_pos hab]
    exact ⟨_, _, rfl, List.nodup_nil⟩
  · rw [if_neg hab]
    simp only [i1]
    have ht : UMap.getD (touch g a) a [] = [] := by
      unfold touch
      rw [if_neg hfind, UMap.getD_set, if_pos rfl]
    rw [ht, List.foldl_nil, dijkstraLoopTrace_nil b f _ _ rfl]
    exact ⟨_, _, rfl, by simp⟩

theorem Post.pathBack_nodup {g : Graph} {s dest : Int} {st : DState} (ctx : Ctx g s)
    (h : Post g s dest st) :
    ∀ (n : Nat) (v : Int) (p : List Int), v ∈ UMap.keys g → st.D v ≠ ⊤ →
      pathBack st.prev n v = some p → p.Nodup ∧ ∀ x ∈ p, st.D x ≤ st.D v := by
  intro n
  induction n with
  | zero =>
    intro v p _ _ hp
    unfold pathBack at hp
    split at hp
    · cases hp
      exact ⟨List.nodup_nil, fun x hx => by cases hx⟩
    · cases hp
  | succ n ih =>
    intro v p hv htop hp
    by_cases hv1 : v = -1
    · rw [hv1, pathBack_stop] at hp
      cases hp
      exact ⟨List.nodup_nil, fun x hx => by cases hx⟩
    · rw [pathBack_succ _ n v hv1] at hp
      cases hq : pathBack st.prev n (UMap.getD st.prev v 0) with
      | none => rw [hq] at hp; cases hp
      | some q =>
        rw [hq] at hp
        simp only [Option.map_some', Option.some.injEq] at hp
        subst hp
        by_cases hvs : v = s
        · have hP : UMap.getD st.prev v 0 = -1 := by rw [hvs]; exact h.hps
          rw [hP, pathBack_stop] at hq
          cases hq
          exact ⟨List.nodup_singleton _, fun x hx => by
            rw [List.mem_singleton] at hx
            rw [hx]⟩
        · obtain ⟨e, _, k2, k3, k4, _⟩ := h.pred ctx v hv hvs htop
          obtain ⟨q1, q2⟩ := ih (st.P v) q k2 k3 hq
          refine ⟨List.nodup_cons.2 ⟨?_, q1⟩, ?_⟩
          · intro hmem
            exact absurd (lt_of_le_of_lt (q2 v hmem) k4) (lt_irrefl _)
          · intro x hx
            rcases List.mem_cons.1 hx with k | k
            · rw [k]
            · exact le_trans (q2 x k) (le_of_lt k4)

/-- Claim C33: in a reachable state with positive edge attributes, for all `a`, `b` and
`fuelBound g = 2 + nodes + adjacency entries` iterations or more: the loop of `dijkstra`
ends, and the nodes whose edges it relaxed are pairwise distinct (stale queue entries are
skipped); `path` returns; and when `path` gets to its loop over `prev`, that loop ends
with a sequence in which no node occurs twice. -/
theorem dijkstra_terminates (g : Graph) (hr : Reachable g) (hpos : PosAttrs g) (a b : Int)
    (fuel : Nat) (hfuel : fuelBound g ≤ fuel) :
    (∃ st tr, dijkstraTrace fuel g a b [] [] = some (st, tr) ∧
      dijkstra fuel g a b [] [] = some st ∧ tr.Nodup) ∧
    (∃ r, path fuel g a b = some r) ∧
    (node_exists g a = true → node_exists g b = true →
      ∃ st, dijkstra fuel g a b [] [] = some st ∧
        (UMap.getD st.dist b 0 ≠ ⊤ → ∃ p, pathBack st.prev fuel b = some p ∧ p.Nodup)) := by
  refine ⟨?_, ?_, ?_⟩
  · by_cases ha : node_exists g a = true
    · obtain ⟨st, tr, e1, e2, _, hx⟩ :=
        dijkstraTrace_spec (Ctx.of_reachable hr hpos a ha) b fuel hfuel
      exact ⟨st, tr, e1, e2, hx.hN⟩
    · have ha2 : node_exists g a = false := by simpa using ha
      obtain ⟨st, tr, e1, hn⟩ := dijkstraTrace_absent g a b ha2 fuel
        (by unfold fuelBound at hfuel; omega)
      refine ⟨st, tr, e1, ?_, hn⟩
      rw [← dijkstraTrace_fst, e1]
      rfl
  · obtain ⟨out, h⟩ := path_returns g hr hpos a b fuel hfuel
    exact ⟨_, h⟩
  · intro ha hb
    have ctx := Ctx.of_reachable hr hpos a ha
    obtain ⟨st, hd, hpost⟩ := dijkstra_post ctx b fuel hfuel
    refine ⟨st, hd, ?_⟩
    intro htop
    have hkb := (UMap.find_isSome_iff g b).1 hb
    obtain ⟨p, hp⟩ := hpost.pathBack_some ctx fuel b hkb htop
      (lt_fuel_of_bound g st b fuel hfuel)
    exact ⟨p, hp, (hpost.pathBack_nodup ctx fuel b p hkb htop hp).1⟩

theorem dijkstra_terminates_witness :
    (dijkstraTrace (fuelBound exTriangle) exTriangle 1 3 [] []).map Prod.snd = some [1, 2] ∧
    path (fuelBound exTriangle) exTriangle 1 3 =
      some (exTriangle, Output.nodes [1, 2, 3]) ∧
    ((∃ st tr, dijkstraTrace (fuelBound exTriangle) exTriangle 1 3 [] [] = some (st, tr) ∧
      dijkstra (fuelBound exTriangle) exTriangle 1 3 [] [] = some st ∧ tr.Nodup) ∧
    (∃ r, path (fuelBound exTriangle) exTriangle 1 3 = some r) ∧
    (node_exists exTriangle 1 = true → node_exists exTriangle 3 = true →
      ∃ st, dijkstra (fuelBound exTriangle) exTriangle 1 3 [] [] = some st ∧
        (UMap.getD st.dist 3 0 ≠ ⊤ →
          ∃ p, pathBack st.prev (fuelBound exTriangle) 3 = some p ∧ p.Nodup))) :=
  ⟨by decide!, by decide!, dijkstra_terminates exTriangle exTriangle_reachable exTriangle_pos 1 3
    (fuelBound exTriangle) (le_refl _)⟩

/-! ## The search in `double`

Checks of the binary64 arithmetic on known values, the search in `double` on the examples
of the specification, and the inputs on which the cumulative cost overflows. -/

theorem dbl_ofRat_tenth :
    Dbl.ofRat (1 / 10) = Dbl.fin false (3602879701896397 / 2 ^ 55) := by decide!

theorem dbl_ofRat_numeral :
    Dbl.ofRat (898846567431158 * 10 ^ 293) = Dbl.fin false (2 ^ 1023) ∧
    Dbl.ofRat (2 ^ 1023) = Dbl.fin false (2 ^ 1023) := by
  refine ⟨by decide!, by decide!⟩

theorem dbl_add_tenth_fifth :
    Dbl.add (Dbl.ofRat (1 / 10)) (Dbl.ofRat (2 / 10)) =
      Dbl.fin false (5404319552844596 / 2 ^ 54) := by decide!

theorem dbl_div_third :
    Dbl.div (Dbl.ofRat 1) (Dbl.ofRat 3) = Dbl.fin false (6004799503160661 / 2 ^ 54) := by
  decide!

theorem dbl_largest_finite :
    Dbl.ofRat ((2 ^ 53 - 1) * 2 ^ 971) = Dbl.fin false ((2 ^ 53 - 1) * 2 ^ 971) ∧
    Dbl.ofRat ((2 ^ 53 - 1) * 2 ^ 971 + 2 ^ 970 - 1) = Dbl.fin false ((2 ^ 53 - 1) * 2 ^ 971) ∧
    Dbl.ofRat ((2 ^ 53 - 1) * 2 ^ 971 + 2 ^ 970) = Dbl.inf false := by
  refine ⟨by decide!, by decide!, by decide!⟩

theorem dbl_least_positive :
    Dbl.ofRat (1 / 2 ^ 1074) = Dbl.fin false (1 / 2 ^ 1074) ∧
    Dbl.ofRat (1 / 2 ^ 1075) = Dbl.fin false 0 ∧
    Dbl.ofRat (3 / 2 ^ 1076) = Dbl.fin false (1 / 2 ^ 1074) := by
  refine ⟨by decide!, by decide!, by decide!⟩

theorem dbl_add_overflow :
    Dbl.add (Dbl.ofRat (2 ^ 1023)) (Dbl.ofRat (2 ^ 1023)) = Dbl.inf false ∧
    Dbl.lt (Dbl.inf false) (Dbl.inf false) = false := by
  refine ⟨by decide!, by decide!⟩

theorem lowestD_example :
    lowestD 6 exEdge 1 2 = some (exEdge, OutputD.cost (Dbl.fin false 2)) ∧
    lowestD 6 (traffic exEdge 1 2 2 false).1 1 2 =
      some ((traffic exEdge 1 2 2 false).1, OutputD.cost (Dbl.fin false 1)) := by
  refine ⟨by decide!, by decide!⟩

theorem pathD_example :
    pathD 9 exChain 1 3 = some (exChain, OutputD.nodes [1, 2, 3]) ∧
    pathD 9 exEdge 1 3 = some (exEdge, OutputD.failure) ∧
    pathD 9 exEdge 1 1 = some (exEdge, OutputD.failure) := by
  refine ⟨by decide!, by decide!, by decide!⟩

end Lab4

namespace Lab3

/-! ## Lists of buckets -/

theorem mem_flatten_getD {α : Type} (arr : List (List α)) (x : α) :
    x ∈ arr.flatten ↔ ∃ i, x ∈ arr.getD i [] := by
  constructor
  · intro h
    obtain ⟨l, hl, hx⟩ := List.mem_flatten.1 h
    obtain ⟨i, hi, e⟩ := List.getElem_of_mem hl
    refine ⟨i, ?_⟩
    rw [List.getD_eq_getElem _ _ hi, e]
    exact hx
  · rintro ⟨i, hx⟩
    by_cases hi : i < arr.length
    · rw [List.getD_eq_getElem _ _ hi] at hx
      exact List.mem_flatten.2 ⟨_, List.getElem_mem hi, hx⟩
    · rw [List.getD_eq_default _ _ (by omega)] at hx
      exact absurd hx (List.not_mem_nil _)

theorem perm_set_cons {α : Type} (arr : List (List α)) (i : Nat) (x : α)
    (hi : i < arr.length) :
    List.Perm (arr.set i (x :: arr.getD i [])).flatten (x :: arr.flatten) := by
  induction arr generalizing i with
  | nil => simp at hi
  | cons b arr ih =>
    cases i with
    | zero => simp
    | succ i =>
      simp only [List.length_cons, Nat.succ_lt_succ_iff] at hi
      simp only [List.set_cons_succ, List.flatten_cons, List.getD_cons_succ]
      refine List.Perm.trans (List.Perm.append_left b (ih i hi)) ?_
      exact List.perm_middle

theorem getD_set_bucket {α : Type} (arr : List (List α)) (i j : Nat) (b : List α)
    (hi : i < arr.length) :
    (arr.set i b).getD j [] = if j = i then b else arr.getD j [] := by
  by_cases h : j = i
  · subst h
    rw [if_pos rfl, List.getD_eq_getElem _ _ (by simpa using hi)]
    simp
  · rw [if_neg h]
    simp only [List.getD_eq_getElem?_getD]
    rw [List.getElem?_set_ne (fun e => h e.symm)]

theorem val_unique {l : List (String × Int)} (hn : (l.map Prod.fst).Nodup) {k : String}
    {v w : Int} (hv : (k, v) ∈ l) (hw : (k, w) ∈ l) : v = w := by
  induction l with
  | nil => cases hv
  | cons a l ih =>
    rw [List.map_cons, List.nodup_cons] at hn
    rcases List.mem_cons.1 hv with h1 | h1 <;> rcases List.mem_cons.1 hw with h2 | h2
    · rw [← h1] at h2; cases h2; rfl
    · exact absurd (List.mem_map.2 ⟨(k, w), h2, by rw [← h1]⟩) hn.1
    · exact absurd (List.mem_map.2 ⟨(k, v), h1, by rw [← h2]⟩) hn.1
    · exact ih hn.2 h1 h2

/-! ## `hash` and `get` -/

theorem HashTable.hash_lt (ht : HashTable) (str : String) (h : 1 ≤ ht.capacity) :
    ht.hash str < ht.capacity :=
  Nat.mod_lt _ h

theorem HashTable.find_key (l : List (String × Int)) (k : String) :
    (∀ item, l.find? (fun item => decide (item.1 = k)) = some item → item ∈ l ∧ item.1 = k) ∧
    (l.find? (fun item => decide (item.1 = k)) = none ↔ ∀ v, (k, v) ∉ l) := by
  constructor
  · intro item h
    refine ⟨List.mem_of_find?_eq_some h, ?_⟩
    simpa using List.find?_some h
  · rw [List.find?_eq_none]
    constructor
    · intro h v hv
      simpa using h (k, v) hv
    · intro h item hi
      simp only [decide_eq_true_eq]
      intro e
      exact h item.2 (by rw [← e]; exact hi)

theorem HashTable.get_eq_some_iff {ht : HashTable} (h : ht.Inv) (k : String) (v : Int) :
    ht.get k = some v ↔ (k, v) ∈ ht.items := by
  have hfk := HashTable.find_key (ht.array.getD (ht.hash k) []) k
  constructor
  · intro hg
    unfold HashTable.get at hg
    simp only at hg
    split at hg
    · cases hf : (ht.array.getD (ht.hash k) []).find? (fun item => decide (item.1 = k)) with
      | none => rw [hf] at hg; cases hg
      | some item =>
        rw [hf] at hg
        obtain ⟨hm, hk⟩ := hfk.1 item hf
        simp only [Option.map_some', Option.some.injEq] at hg
        have : item = (k, v) := by rw [← hk, ← hg]
        rw [this] at hm
        exact (mem_flatten_getD _ _).2 ⟨_, hm⟩
    · cases hg
  · intro hm
    obtain ⟨i, hi⟩ := (mem_flatten_getD _ _).1 hm
    have hik : ht.hash k = i := h.home i _ hi
    rw [← hik] at hi
    unfold HashTable.get
    simp only
    have hne : (ht.array.getD (ht.hash k) []).isEmpty = false := by
      cases hb : ht.array.getD (ht.hash k) [] with
      | nil => rw [hb] at hi; cases hi
      | cons a l => rfl
    rw [hne]
    simp only [Bool.not_false, if_true]
    cases hf : (ht.array.getD (ht.hash k) []).find? (fun item => decide (item.1 = k)) with
    | none => exact absurd hi ((hfk.2.1 hf) v)
    | some item =>
      obtain ⟨hm2, hk⟩ := hfk.1 item hf
      have hm3 : (k, item.2) ∈ ht.items :=
        (mem_flatten_getD _ _).2 ⟨_, by rw [← hk]; exact hm2⟩
      have := val_unique h.nodup hm3 hm
      simp [this]

theorem HashTable.get_eq_none_iff {ht : HashTable} (h : ht.Inv) (k : String) :
    ht.get k = none ↔ ∀ v, (k, v) ∉ ht.items := by
  constructor
  · intro hg v hv
    rw [(HashTable.get_eq_some_iff h k v).2 hv] at hg
    cases hg
  · intro hn
    cases hg : ht.get k with
    | none => rfl
    | some v => exact absurd ((HashTable.get_eq_some_iff h k v).1 hg) (hn v)

/-! ## `double_size` -/

theorem range_getD_eq {α : Type} (arr : List (List α)) :
    (List.range arr.length).map (fun i => arr.getD i []) = arr := by
  apply List.ext_getElem
  · simp
  · intro n h1 h2
    simp [List.getElem?_eq_getElem h2]

theorem foldl_range_getD {α β : Type} (f : β → List α → β) (arr : List (List α)) (b : β) :
    (List.range arr.length).foldl (fun acc i => f acc (arr.getD i [])) b = arr.foldl f b := by
  conv_rhs => rw [← range_getD_eq arr]
  rw [List.foldl_map]

theorem foldl_buckets {α β : Type} (f : β → α → β) (arr : List (List α)) (b : β) :
    arr.foldl (fun acc l => l.foldl f acc) b = arr.flatten.foldl f b := by
  induction arr generalizing b with
  | nil => rfl
  | cons l arr ih => simp [ih]

theorem Homed.rehashItem {ht : HashTable} {arr : List (List (String × Int))}
    (hp : 1 ≤ ht.capacity) (h : Homed ht arr) (item : String × Int) :
    Homed ht (ht.rehashItem arr item) ∧
      List.Perm (ht.rehashItem arr item).flatten (item :: arr.flatten) := by
  have hlt : ht.hash item.1 < arr.length := by rw [h.len]; exact ht.hash_lt _ hp
  unfold HashTable.rehashItem
  refine ⟨⟨by simp [h.len], ?_⟩, perm_set_cons arr _ item hlt⟩
  intro i x hx
  simp only at hx
  rw [getD_set_bucket _ _ _ _ hlt] at hx
  split at hx
  · rename_i e
    rcases List.mem_cons.1 hx with h1 | h1
    · rw [h1, e]
    · subst e
      exact h.home _ x h1
  · exact h.home i x hx

theorem Homed.foldl_rehash {ht : HashTable} (hp : 1 ≤ ht.capacity)
    (l : List (String × Int)) :
    ∀ arr, Homed ht arr →
      Homed ht (l.foldl ht.rehashItem arr) ∧
        List.Perm (l.foldl ht.rehashItem arr).flatten (l ++ arr.flatten) := by
  induction l with
  | nil => intro arr h; exact ⟨h, List.Perm.refl _⟩
  | cons a l ih =>
    intro arr h
    obtain ⟨h1, p1⟩ := h.rehashItem hp a
    obtain ⟨h2, p2⟩ := ih _ h1
    refine ⟨h2, p2.trans ?_⟩
    refine (List.Perm.append_left l p1).trans ?_
    exact List.perm_middle

theorem flatten_replicate_nil {α : Type} (n : Nat) :
    (List.replicate n ([] : List α)).flatten = [] := by
  induction n with
  | zero => rfl
  | succ n ih => simp [List.replicate_succ, ih]

theorem HashTable.double_size_spec (ht : HashTable) (hlen : ht.array.length = ht.capacity)
    (hp : 1 ≤ ht.capacity) (hb : 2 * ht.capacity < 2 ^ 32) :
    ht.double_size.capacity = 2 * ht.capacity ∧
    ht.double_size.curr_size = ht.curr_size ∧
    Homed ht.double_size ht.double_size.array ∧
    List.Perm ht.double_size.items ht.items := by
  have hcap : (ht.capacity * 2) % 2 ^ 32 = 2 * ht.capacity := by
    rw [Nat.mod_eq_of_lt (by omega)]; ring
  have hhalf : (2 * ht.capacity) / 2 = ht.array.length := by rw [hlen]; omega
  have harr : ht.double_size.array =
      ht.array.flatten.foldl
        (HashTable.rehashItem { ht with capacity := 2 * ht.capacity })
        (List.replicate (2 * ht.capacity) []) := by
    unfold HashTable.double_size
    simp only [hcap, hhalf]
    rw [← foldl_buckets]
    exact foldl_range_getD
      (fun acc l => l.foldl (HashTable.rehashItem { ht with capacity := 2 * ht.capacity }) acc)
      ht.array _
  have hh : ∀ s, ht.double_size.hash s =
      HashTable.hash { ht with capacity := 2 * ht.capacity } s := by
    intro s
    unfold HashTable.double_size HashTable.hash
    simp only [hcap]
  have h0 : Homed { ht with capacity := 2 * ht.capacity }
      (List.replicate (2 * ht.capacity) []) := by
    refine ⟨by simp, ?_⟩
    intro i x hx
    exfalso
    by_cases hi : i < 2 * ht.capacity
    · rw [List.getD_eq_getElem _ _ (by simpa using hi)] at hx
      simp at hx
    · rw [List.getD_eq_default _ _ (by simp; omega)] at hx
      cases hx
  obtain ⟨h1, p1⟩ := Homed.foldl_rehash
    (show 1 ≤ HashTable.capacity { ht with capacity := 2 * ht.capacity } from by
      show 1 ≤ 2 * ht.capacity; omega) ht.array.flatten _ h0
  have hc : ht.double_size.capacity = 2 * ht.capacity := by
    unfold HashTable.double_size
    simp only [hcap]
  refine ⟨hc, rfl, ⟨?_, ?_⟩, ?_⟩
  · rw [harr, hc]; exact h1.len
  · intro i x hx
    rw [hh]
    rw [harr] at hx
    exact h1.home i x hx
  · unfold HashTable.items
    rw [harr]
    refine p1.trans ?_
    rw [flatten_replicate_nil]
    simp

/-! ## `insert` -/

theorem load_test (s c : Nat) (hc : 1 ≤ c) :
    ((s : ℚ) / (c : ℚ) ≥ threshold) ↔ 4 * c ≤ 5 * s := by
  have hc0 : (0 : ℚ) < (c : ℚ) := by exact_mod_cast hc
  unfold threshold
  rw [ge_iff_le, le_div_iff₀ hc0]
  constructor
  · intro h
    have h2 : (4 : ℚ) * (c : ℚ) ≤ 5 * (s : ℚ) := by linarith
    exact_mod_cast h2
  · intro h
    have h2 : (4 : ℚ) * (c : ℚ) ≤ 5 * (s : ℚ) := by exact_mod_cast h
    linarith

theorem HashTable.key_in_bucket {ht : HashTable} (h : ht.Inv) (k : String) :
    (∃ v, (k, v) ∈ ht.array.getD (ht.hash k) []) ↔ ∃ v, (k, v) ∈ ht.items := by
  constructor
  · rintro ⟨v, hv⟩
    exact ⟨v, (mem_flatten_getD _ _).2 ⟨_, hv⟩⟩
  · rintro ⟨v, hv⟩
    obtain ⟨i, hi⟩ := (mem_flatten_getD _ _).1 hv
    have := h.home i _ hi
    simp only at this
    rw [← this] at hi
    exact ⟨v, hi⟩

theorem HashTable.pushAndGrow_flag (ht : HashTable) (i : Nat) (pair : String × Int) :
    (ht.pushAndGrow i pair).2 = true := by
  unfold HashTable.pushAndGrow
  simp only
  split <;> rfl

theorem HashTable.insert_cases {ht : HashTable} (h : ht.Inv) (pair : String × Int) :
    (((∃ c ∈ pair.1.data, c.isAlpha = false) ∨ ∃ v, (pair.1, v) ∈ ht.items) ∧
        ht.insert pair = (ht, false)) ∨
    (((∀ c ∈ pair.1.data, c.isAlpha = true) ∧ ∀ v, (pair.1, v) ∉ ht.items) ∧
        ht.insert pair = ht.pushAndGrow (ht.hash pair.1) pair) := by
  by_cases ha : pair.1.data.any (fun c => !c.isAlpha) = true
  · left
    refine ⟨Or.inl ?_, ?_⟩
    · obtain ⟨c, hc, hc2⟩ := List.any_eq_true.1 ha
      exact ⟨c, hc, by simpa using hc2⟩
    · unfold HashTable.insert
      rw [if_pos ha]
  · have hall : ∀ c ∈ pair.1.data, c.isAlpha = true := by
      intro c hc
      cases hcc : c.isAlpha
      · exact absurd (List.any_eq_true.2 ⟨c, hc, by simp [hcc]⟩) ha
      · rfl
    have hkb := HashTable.key_in_bucket h pair.1
    by_cases he : (ht.array.getD (ht.hash pair.1) []).isEmpty = true
    · right
      refine ⟨⟨hall, ?_⟩, ?_⟩
      · intro v hv
        obtain ⟨w, hw⟩ := hkb.2 ⟨v, hv⟩
        rw [List.isEmpty_iff.1 he] at hw
        cases hw
      · unfold HashTable.insert
        rw [if_neg ha]
        simp only
        rw [if_pos he]
    · by_cases hany : (ht.array.getD (ht.hash pair.1) []).any
          (fun item => decide (item.1 = pair.1)) = true
      · left
        refine ⟨Or.inr ?_, ?_⟩
        · obtain ⟨item, hi, hi2⟩ := List.any_eq_true.1 hany
          have e : item.1 = pair.1 := by simpa using hi2
          refine hkb.1 ⟨item.2, ?_⟩
          have e2 : (pair.1, item.2) = item := by rw [← e]
          rw [e2]
          exact hi
        · unfold HashTable.insert
          rw [if_neg ha]
          simp only
          rw [if_neg he, if_pos hany]
      · right
        refine ⟨⟨hall, ?_⟩, ?_⟩
        · intro v hv
          obtain ⟨w, hw⟩ := hkb.2 ⟨v, hv⟩
          exact hany (List.any_eq_true.2 ⟨_, hw, by simp⟩)
        · unfold HashTable.insert
          rw [if_neg ha]
          simp only
          rw [if_neg he, if_neg hany]

theorem HashTable.insert_false_iff {ht : HashTable} (h : ht.Inv) (pair : String × Int) :
    (ht.insert pair).2 = false ↔
      ((∃ c ∈ pair.1.data, c.isAlpha = false) ∨ ∃ v, (pair.1, v) ∈ ht.items) := by
  rcases HashTable.insert_cases h pair with ⟨h1, e⟩ | ⟨h1, e⟩
  · rw [e]; simp [h1]
  · rw [e, HashTable.pushAndGrow_flag]
    simp only [Bool.true_eq_false, false_iff, not_or, not_exists, not_and]
    exact ⟨fun c hc => by simp [h1.1 c hc], h1.2⟩

theorem HashTable.ht_insert_false_eq (ht : HashTable) (pair : String × Int)
    (hf : (ht.insert pair).2 = false) : (ht.insert pair).1 = ht := by
  unfold HashTable.insert at hf ⊢
  split
  · rfl
  · rename_i ha
    rw [if_neg ha] at hf
    simp only at hf ⊢
    split
    · rename_i he
      rw [if_pos he, HashTable.pushAndGrow_flag] at hf
      cases hf
    · rename_i he
      rw [if_neg he] at hf
      split
      · rfl
      · rename_i hany
        rw [if_neg hany, HashTable.pushAndGrow_flag] at hf
        cases hf

theorem HashTable.pushAndGrow_spec {ht : HashTable} (h : ht.Inv) (pair : String × Int)
    (hnew : ∀ v, (pair.1, v) ∉ ht.items) (hb : 5 * (ht.curr_size + 1) < 2 ^ 33) :
    (ht.pushAndGrow (ht.hash pair.1) pair).1.Inv ∧
    List.Perm (ht.pushAndGrow (ht.hash pair.1) pair).1.items (pair :: ht.items) ∧
    (ht.pushAndGrow (ht.hash pair.1) pair).1.curr_size = ht.curr_size + 1 ∧
    ((ht.pushAndGrow (ht.hash pair.1) pair).1.capacity = ht.capacity ∨
      (ht.pushAndGrow (ht.hash pair.1) pair).1.capacity = 2 * ht.capacity) := by
  have hlt : ht.hash pair.1 < ht.array.length := by rw [h.len]; exact ht.hash_lt _ h.pos
  have hsz : (ht.curr_size + 1) % 2 ^ 32 = ht.curr_size + 1 := Nat.mod_eq_of_lt (by omega)
  have hperm : List.Perm
      (ht.array.set (ht.hash pair.1) (pair :: ht.array.getD (ht.hash pair.1) [])).flatten
      (pair :: ht.items) := perm_set_cons ht.array _ pair hlt
  have hnd : ((pair :: ht.items).map Prod.fst).Nodup := by
    rw [List.map_cons, List.nodup_cons]
    refine ⟨?_, h.nodup⟩
    intro hm
    obtain ⟨x, hx, e⟩ := List.mem_map.1 hm
    exact hnew x.2 (by rw [← e]; exact hx)
  have hhome : ∀ i, ∀ item ∈
      (ht.array.set (ht.hash pair.1) (pair :: ht.array.getD (ht.hash pair.1) [])).getD i [],
      ht.hash item.1 = i := by
    intro i x hx
    rw [getD_set_bucket _ _ _ _ hlt] at hx
    split at hx
    · rename_i e
      subst e
      rcases List.mem_cons.1 hx with h1 | h1
      · rw [h1]
      · exact h.home _ x h1
    · exact h.home i x hx
  unfold HashTable.pushAndGrow
  simp only [hsz]
  unfold HashTable.load_factor
  simp only
  by_cases hge : 4 * ht.capacity ≤ 5 * (ht.curr_size + 1)
  · rw [if_pos ((load_test _ _ h.pos).2 hge)]
    obtain ⟨d1, d2, d3, d4⟩ := HashTable.double_size_spec
      { array := ht.array.set (ht.hash pair.1) (pair :: ht.array.getD (ht.hash pair.1) [])
        curr_size := ht.curr_size + 1
        capacity := ht.capacity }
      (by simp [h.len]) h.pos (by show 2 * ht.capacity < 2 ^ 32; omega)
    have hp2 := d4.trans hperm
    refine ⟨⟨d3.len, ?_, d3.home, ?_, ?_, ?_⟩, hp2, d2, Or.inr d1⟩
    · rw [d1]; show 1 ≤ 2 * ht.capacity; have := h.pos; omega
    · exact (List.Perm.nodup_iff (hp2.map Prod.fst)).2 hnd
    · rw [d2, hp2.length_eq]
      show ht.curr_size + 1 = (pair :: ht.items).length
      rw [List.length_cons, h.size]
    · rw [d1, d2]
      show 5 * (ht.curr_size + 1) < 4 * (2 * ht.capacity)
      have := h.load
      have := h.pos
      omega
  · rw [if_neg (fun hh => hge ((load_test _ _ h.pos).1 hh))]
    refine ⟨⟨by simp [h.len], h.pos, hhome, ?_, ?_, ?_⟩, hperm, rfl, Or.inl rfl⟩
    · exact (List.Perm.nodup_iff (hperm.map Prod.fst)).2 hnd
    · show ht.curr_size + 1 =
        (ht.array.set (ht.hash pair.1) (pair :: ht.array.getD (ht.hash pair.1) [])).flatten.length
      rw [hperm.length_eq, List.length_cons, h.size]
    · show 5 * (ht.curr_size + 1) < 4 * ht.capacity
      omega

theorem HashTable.ht_insert_true_spec {ht : HashTable} (h : ht.Inv) (pair : String × Int)
    (hb : 5 * (ht.curr_size + 1) < 2 ^ 33) (ht1 : (ht.insert pair).2 = true) :
    (ht.insert pair).1.Inv ∧
    List.Perm (ht.insert pair).1.items (pair :: ht.items) ∧
    (ht.insert pair).1.curr_size = ht.curr_size + 1 ∧
    ((ht.insert pair).1.capacity = ht.capacity ∨
      (ht.insert pair).1.capacity = 2 * ht.capacity) := by
  rcases HashTable.insert_cases h pair with ⟨_, e⟩ | ⟨h1, e⟩
  · rw [e] at ht1; cases ht1
  · rw [e]
    exact HashTable.pushAndGrow_spec h pair h1.2 hb

theorem HashTable.ht_create_inv (c : Nat) (hc : 1 ≤ c) : (HashTable.create c).Inv := by
  have hi : (HashTable.create c).items = [] := flatten_replicate_nil c
  refine ⟨by simp [HashTable.create], hc, ?_, by rw [hi]; exact List.nodup_nil, by rw [hi]; rfl,
    by show 5 * 0 < 4 * c; omega⟩
  intro i x hx
  exfalso
  have : x ∈ (HashTable.create c).items := (mem_flatten_getD _ _).2 ⟨i, hx⟩
  rw [hi] at this
  cases this

/-! ## Sequences of `insert` calls -/

theorem HashTable.ht_insertAll_cons (ht : HashTable) (p : String × Int)
    (rest : List (String × Int)) :
    ht.insertAll (p :: rest) =
      (((ht.insert p).1.insertAll rest).1, (ht.insert p).2 :: ((ht.insert p).1.insertAll rest).2) :=
  rfl

theorem HashTable.ht_insertAll_spec (ops : List (String × Int)) :
    ∀ ht : HashTable, ht.Inv → 5 * (ht.curr_size + ops.length) < 2 ^ 33 →
      (ht.insertAll ops).1.Inv ∧
      (ht.insertAll ops).2.length = ops.length ∧
      (ht.insertAll ops).1.curr_size = ht.curr_size + (ht.insertAll ops).2.count true ∧
      (∃ j, (ht.insertAll ops).1.capacity = ht.capacity * 2 ^ j) ∧
      (∀ x, x ∈ (ht.insertAll ops).1.items ↔
        (x ∈ ht.items ∨ ∃ i : Nat, ops[i]? = some x ∧ (ht.insertAll ops).2[i]? = some true)) := by
  induction ops with
  | nil =>
    intro ht h _
    refine ⟨h, rfl, rfl, ⟨0, by simp [HashTable.insertAll]⟩, ?_⟩
    intro x
    simp [HashTable.insertAll]
  | cons p rest ih =>
    intro ht h hb
    simp only [List.length_cons] at hb
    rw [HashTable.ht_insertAll_cons]
    cases hf : (ht.insert p).2
    · have e := HashTable.ht_insert_false_eq ht p hf
      rw [e]
      obtain ⟨i1, i2, i3, ⟨j, i4⟩, i5⟩ := ih ht h (by omega)
      refine ⟨i1, by simp [i2], ?_, ⟨j, i4⟩, ?_⟩
      · show _ = ht.curr_size + (false :: (ht.insertAll rest).2).count true
        rw [List.count_cons_of_ne (by decide)]
        exact i3
      · intro x
        rw [i5 x]
        constructor
        · rintro (hx | ⟨i, hi1, hi2⟩)
          · exact Or.inl hx
          · exact Or.inr ⟨i + 1, by simpa using hi1, by simpa using hi2⟩
        · rintro (hx | ⟨i, hi1, hi2⟩)
          · exact Or.inl hx
          · cases i with
            | zero => simp at hi2
            | succ i => exact Or.inr ⟨i, by simpa using hi1, by simpa using hi2⟩
    · obtain ⟨s1, s2, s3, s4⟩ := HashTable.ht_insert_true_spec h p (by omega) hf
      obtain ⟨i1, i2, i3, ⟨j, i4⟩, i5⟩ := ih (ht.insert p).1 s1 (by rw [s3]; omega)
      refine ⟨i1, by simp [i2], ?_, ?_, ?_⟩
      · show _ = ht.curr_size + (true :: ((ht.insert p).1.insertAll rest).2).count true
        rw [List.count_cons_self, i3, s3]
        omega
      · rcases s4 with s4 | s4
        · exact ⟨j, by rw [i4, s4]⟩
        · exact ⟨j + 1, by rw [i4, s4, pow_succ]; ring⟩
      · intro x
        rw [i5 x, s2.mem_iff]
        constructor
        · rintro (hx | ⟨i, hi1, hi2⟩)
          · rcases List.mem_cons.1 hx with hx | hx
            · exact Or.inr ⟨0, by simp [hx], by simp⟩
            · exact Or.inl hx
          · exact Or.inr ⟨i + 1, by simpa using hi1, by simpa using hi2⟩
        · rintro (hx | ⟨i, hi1, hi2⟩)
          · exact Or.inl (List.mem_cons_of_mem _ hx)
          · cases i with
            | zero =>
              have : p = x := by simpa using hi1
              exact Or.inl (by rw [this]; exact List.mem_cons_self _ _)
            | succ i => exact Or.inr ⟨i, by simpa using hi1, by simpa using hi2⟩

theorem HashTable.create_items (c : Nat) : (HashTable.create c).items = [] :=
  flatten_replicate_nil c

/-- Claim C21: for a table created with capacity `c >= 1` and a sequence of fewer than
`2 ^ 33 / 5` `insert` calls (so that the 32-bit counters do not wrap), every key whose
`insert` returned true with value `v` has `get` return `v` at the end, whatever doublings
and rehashes happened in between, and `get` of a key of which no `insert` returned true
raises `KeyError`. -/
theorem ht_get_after_insert (c : Nat) (ops : List (String × Int)) (hc : 1 ≤ c)
    (hops : 5 * ops.length < 2 ^ 33) :
    (∀ (i : Nat) k v, ops[i]? = some (k, v) →
        ((HashTable.create c).insertAll ops).2[i]? = some true →
        ((HashTable.create c).insertAll ops).1.get k = some v) ∧
    (∀ k, (∀ (i : Nat) v, ops[i]? = some (k, v) →
          ((HashTable.create c).insertAll ops).2[i]? = some false) →
        ((HashTable.create c).insertAll ops).1.get k = none) := by
  obtain ⟨i1, i2, i3, i4, i5⟩ := HashTable.ht_insertAll_spec ops (HashTable.create c)
    (HashTable.ht_create_inv c hc) (by show 5 * (0 + ops.length) < 2 ^ 33; omega)
  constructor
  · intro i k v h1 h2
    rw [HashTable.get_eq_some_iff i1]
    exact (i5 (k, v)).2 (Or.inr ⟨i, h1, h2⟩)
  · intro k hk
    rw [HashTable.get_eq_none_iff i1]
    intro v hv
    rcases (i5 (k, v)).1 hv with h1 | ⟨i, h1, h2⟩
    · rw [HashTable.create_items] at h1
      cases h1
    · have := hk i v h1
      rw [h2] at this
      cases this

theorem ht_get_after_insert_witness :
    ((HashTable.create 10).insertAll exKeys).1.get "keyA" = some 1 ∧
    ((HashTable.create 10).insertAll exKeys).1.get "keyB" = some 2 ∧
    ((HashTable.create 10).insertAll exKeys).1.get "keyZ" = none :=
  ⟨(ht_get_after_insert 10 exKeys (by decide) (by decide)).1 0 "keyA" 1 (by decide)
      (by decide!),
    (ht_get_after_insert 10 exKeys (by decide) (by decide)).1 1 "keyB" 2 (by decide)
      (by decide!),
    by decide!⟩

/-- Claim C22: in a table reached from `HashTable(c)`, `c >= 1`, by fewer than
`2 ^ 33 / 5` `insert` calls, `insert` returns false exactly when the key contains a
character that is not a letter or the key is already stored in the table, and whenever
it returns false the table (contents, size and capacity) is unchanged. -/
theorem ht_insert_false_iff (c : Nat) (ops : List (String × Int)) (pair : String × Int)
    (hc : 1 ≤ c) (hops : 5 * ops.length < 2 ^ 33) :
    ((((HashTable.create c).insertAll ops).1.insert pair).2 = false ↔
      ((∃ ch ∈ pair.1.data, ch.isAlpha = false) ∨
        ∃ v, (pair.1, v) ∈ ((HashTable.create c).insertAll ops).1.items)) ∧
    ((((HashTable.create c).insertAll ops).1.insert pair).2 = false →
      (((HashTable.create c).insertAll ops).1.insert pair).1 =
        ((HashTable.create c).insertAll ops).1) := by
  obtain ⟨i1, _⟩ := HashTable.ht_insertAll_spec ops (HashTable.create c)
    (HashTable.ht_create_inv c hc) (by show 5 * (0 + ops.length) < 2 ^ 33; omega)
  exact ⟨HashTable.insert_false_iff i1 pair, HashTable.ht_insert_false_eq _ pair⟩

theorem ht_insert_false_iff_witness :
    (((HashTable.create 10).insertAll exKeys).1.insert ("keyA", 7)).2 = false ∧
    (((HashTable.create 10).insertAll exKeys).1.insert ("key1", 7)).2 = false ∧
    (((HashTable.create 10).insertAll exKeys).1.insert ("keyA", 7)).1 =
      ((HashTable.create 10).insertAll exKeys).1 :=
  ⟨(ht_insert_false_iff 10 exKeys ("keyA", 7) (by decide) (by decide)).1.2
      (Or.inr ⟨1, by decide!⟩),
    (ht_insert_false_iff 10 exKeys ("key1", 7) (by decide) (by decide)).1.2
      (Or.inl ⟨ '1', by decide, by decide⟩),
    (ht_insert_false_iff 10 exKeys ("keyA", 7) (by decide) (by decide)).2 (by decide!)⟩

/-- Claim C23: for a table created with capacity `c >= 1`, after a sequence of fewer than
`2 ^ 33 / 5` `insert` calls `get_size()` is the number of calls that returned true, which
is the number of stored pairs, no two of them with the same key; `get_max_size()` is `c`
times a power of two; and the load factor is strictly below the threshold 0.8. -/
theorem ht_bookkeeping (c : Nat) (ops : List (String × Int)) (hc : 1 ≤ c)
    (hops : 5 * ops.length < 2 ^ 33) :
    ((HashTable.create c).insertAll ops).1.get_size =
      ((HashTable.create c).insertAll ops).2.count true ∧
    ((HashTable.create c).insertAll ops).1.get_size =
      ((HashTable.create c).insertAll ops).1.items.length ∧
    (((HashTable.create c).insertAll ops).1.items.map Prod.fst).Nodup ∧
    (∃ j, ((HashTable.create c).insertAll ops).1.get_max_size = c * 2 ^ j) ∧
    ((HashTable.create c).insertAll ops).1.load_factor < threshold ∧
    ((((HashTable.create c).insertAll ops).1.get_size : ℚ) /
      (((HashTable.create c).insertAll ops).1.get_max_size : ℚ) < 8 / 10) := by
  obtain ⟨i1, i2, i3, i4, i5⟩ := HashTable.ht_insertAll_spec ops (HashTable.create c)
    (HashTable.ht_create_inv c hc) (by show 5 * (0 + ops.length) < 2 ^ 33; omega)
  have hl : ((HashTable.create c).insertAll ops).1.load_factor < threshold := by
    rw [← not_le]
    intro hge
    have := (load_test _ _ i1.pos).1 hge
    have := i1.load
    omega
  refine ⟨?_, i1.size, i1.nodup, i4, hl, hl⟩
  show ((HashTable.create c).insertAll ops).1.curr_size = _
  rw [i3]
  show 0 + _ = _
  omega

theorem ht_bookkeeping_witness :
    ((HashTable.create 10).insertAll exKeys).1.get_size = 10 ∧
    ((HashTable.create 10).insertAll exKeys).1.get_max_size = 20 ∧
    ((HashTable.create 10).insertAll exKeys).2.count true = 10 :=
  ⟨by decide!, by decide!,
    (ht_bookkeeping 10 exKeys (by decide) (by decide)).1.symm.trans (by decide!)⟩

/-! ## The dictionary -/

theorem toInt_of_lt (n : Nat) (h : n < 2 ^ 31) : toInt (n % 2 ^ 32) = (n : Int) := by
  have h1 : n % 2 ^ 32 = n := Nat.mod_eq_of_lt (by omega)
  unfold toInt
  rw [h1, h1, if_pos h]

theorem Dictionary.dict_insert_false_eq (d : Dictionary) (str : String)
    (hf : (d.insert str).2 = false) : (d.insert str).1 = d := by
  unfold Dictionary.insert at hf ⊢
  simp only at hf ⊢
  cases hr : (d.hash_table.insert (str, toInt (d.words.length % 2 ^ 32))).2
  · rw [hr] at hf
    simp only [Bool.not_false, if_true]
    rw [HashTable.ht_insert_false_eq _ _ hr]
  · rw [hr] at hf
    simp at hf

theorem Dictionary.dict_insert_true_spec {d : Dictionary} (h : d.Inv) (str : String)
    (hb : 5 * (d.hash_table.curr_size + 1) < 2 ^ 33) (ht : (d.insert str).2 = true) :
    (d.insert str).1.Inv ∧ (d.insert str).1.words = d.words ++ [str] ∧
      (d.insert str).1.hash_table.curr_size = d.hash_table.curr_size + 1 := by
  have hlen : d.words.length < 2 ^ 31 := by rw [← h.size]; omega
  have htok := toInt_of_lt d.words.length hlen
  cases hr : (d.hash_table.insert (str, (d.words.length : Int))).2
  · unfold Dictionary.insert at ht
    simp only at ht
    rw [htok, hr] at ht
    simp at ht
  · have e : d.insert str = ((⟨d.words ++ [str],
        (d.hash_table.insert (str, (d.words.length : Int))).1⟩ : Dictionary), true) := by
      unfold Dictionary.insert
      simp only [htok, hr]
      rfl
    rw [e]
    obtain ⟨s1, s2, s3, _⟩ := HashTable.ht_insert_true_spec h.table _ hb hr
    refine ⟨⟨s1, ?_, ?_⟩, rfl, s3⟩
    · show (d.hash_table.insert (str, (d.words.length : Int))).1.curr_size + 1 =
        (d.words ++ [str]).length
      rw [s3, List.length_append, ← h.size]
      rfl
    · intro k v
      show (k, v) ∈ (d.hash_table.insert (str, (d.words.length : Int))).1.items ↔
        ∃ n : Nat, 1 ≤ n ∧ v = (n : Int) ∧ (d.words ++ [str])[n]? = some k
      rw [s2.mem_iff, List.mem_cons, h.toks]
      constructor
      · rintro (e | ⟨n, h1, h2, h3⟩)
        · cases e
          refine ⟨d.words.length, by rw [← h.size]; omega, rfl, ?_⟩
          simp
        · refine ⟨n, h1, h2, ?_⟩
          rw [List.getElem?_append_left (List.getElem?_eq_some_iff.1 h3).1]
          exact h3
      · rintro ⟨n, h1, h2, h3⟩
        by_cases hn : n < d.words.length
        · rw [List.getElem?_append_left hn] at h3
          exact Or.inr ⟨n, h1, h2, h3⟩
        · left
          have hn2 : n < (d.words ++ [str]).length := (List.getElem?_eq_some_iff.1 h3).1
          simp only [List.length_append, List.length_singleton] at hn2
          have hn3 : n = d.words.length := by omega
          subst hn3
          simp at h3
          rw [h2, h3]

theorem Dictionary.dict_create_inv (c : Nat) (hc : 1 ≤ c) : (Dictionary.create c).Inv := by
  refine ⟨HashTable.ht_create_inv c hc, rfl, ?_⟩
  intro k v
  show (k, v) ∈ (HashTable.create c).items ↔ ∃ n : Nat, 1 ≤ n ∧ v = (n : Int) ∧ [""][n]? = some k
  rw [HashTable.create_items]
  constructor
  · intro h; cases h
  · rintro ⟨n, h1, _, h3⟩
    have := (List.getElem?_eq_some_iff.1 h3).1
    simp at this
    omega

theorem Dictionary.dict_insertAll_cons (d : Dictionary) (p : String) (rest : List String) :
    d.insertAll (p :: rest) =
      (((d.insert p).1.insertAll rest).1, (d.insert p).2 :: ((d.insert p).1.insertAll rest).2) :=
  rfl

theorem Dictionary.dict_insertAll_spec (ops : List String) :
    ∀ d : Dictionary, d.Inv → 5 * (d.hash_table.curr_size + ops.length) < 2 ^ 33 →
      (d.insertAll ops).1.Inv ∧
      (d.insertAll ops).2.length = ops.length ∧
      (d.insertAll ops).1.words.length = d.words.length + (d.insertAll ops).2.count true ∧
      (∀ (i : Nat) w, ops[i]? = some w → (d.insertAll ops).2[i]? = some true →
        (d.insertAll ops).1.words[d.words.length + ((d.insertAll ops).2.take i).count true]? =
          some w) ∧
      (∀ (n : Nat) w, d.words.length ≤ n → (d.insertAll ops).1.words[n]? = some w →
        ∃ i : Nat, ops[i]? = some w ∧ (d.insertAll ops).2[i]? = some true) ∧
      (∀ n : Nat, n < d.words.length → (d.insertAll ops).1.words[n]? = d.words[n]?) := by
  induction ops with
  | nil =>
    intro d h _
    refine ⟨h, rfl, rfl, ?_, ?_, fun _ _ => rfl⟩
    · intro i w h1; simp at h1
    · intro n w h1 h2
      have := (List.getElem?_eq_some_iff.1 h2).1
      exact absurd (show n < d.words.length from this) (by omega)
  | cons p rest ih =>
    intro d h hb
    simp only [List.length_cons] at hb
    rw [Dictionary.dict_insertAll_cons]
    cases hf : (d.insert p).2
    · have e := Dictionary.dict_insert_false_eq d p hf
      rw [e]
      obtain ⟨i1, i2, i3, i4, i5, i6⟩ := ih d h (by omega)
      refine ⟨i1, by simp [i2], ?_, ?_, ?_, i6⟩
      · show _ = d.words.length + (false :: (d.insertAll rest).2).count true
        rw [List.count_cons_of_ne (by decide)]
        exact i3
      · intro i w h1 h2
        cases i with
        | zero => simp at h2
        | succ i =>
          have := i4 i w (by simpa using h1) (by simpa using h2)
          simpa using this
      · intro n w h1 h2
        obtain ⟨i, hi1, hi2⟩ := i5 n w h1 h2
        exact ⟨i + 1, by simpa using hi1, by simpa using hi2⟩
    · obtain ⟨s1, s2, s3⟩ := Dictionary.dict_insert_true_spec h p (by omega) hf
      obtain ⟨i1, i2, i3, i4, i5, i6⟩ := ih (d.insert p).1 s1 (by rw [s3]; omega)
      have hl : (d.insert p).1.words.length = d.words.length + 1 := by rw [s2]; simp
      rw [hl] at i3 i4 i5 i6
      have hlast : ((d.insert p).1.insertAll rest).1.words[d.words.length]? = some p := by
        rw [i6 _ (by omega), s2]
        simp
      refine ⟨i1, by simp [i2], ?_, ?_, ?_, ?_⟩
      · show _ = d.words.length + (true :: ((d.insert p).1.insertAll rest).2).count true
        rw [List.count_cons_self, i3]
        omega
      · intro i w h1 h2
        cases i with
        | zero =>
          have : p = w := by simpa using h1
          rw [← this]
          simpa using hlast
        | succ i =>
          have := i4 i w (by simpa using h1) (by simpa using h2)
          rw [List.take_succ_cons, List.count_cons_self]
          rw [← this]
          congr 1
          omega
      · intro n w h1 h2
        by_cases hn : n = d.words.length
        · subst hn
          rw [hlast] at h2
          exact ⟨0, by simpa using h2, by simp⟩
        · obtain ⟨i, hi1, hi2⟩ := i5 n w (by omega) h2
          exact ⟨i + 1, by simpa using hi1, by simpa using hi2⟩
      · intro n hn
        rw [i6 n (by omega), s2, List.getElem?_append_left hn]

theorem count_take_succ (rs : List Bool) (i : Nat) (h : rs[i]? = some true) :
    (rs.take (i + 1)).count true = (rs.take i).count true + 1 := by
  induction rs generalizing i with
  | nil => simp at h
  | cons b rs ih =>
    cases i with
    | zero =>
      have : b = true := by simpa using h
      subst this
      simp
    | succ i =>
      have h2 : rs[i]? = some true := by simpa using h
      rw [List.take_succ_cons, List.take_succ_cons, List.count_cons, List.count_cons, ih i h2]
      omega

theorem Dictionary.token_of_word {d : Dictionary} (h : d.Inv) (n : Nat) (w : String)
    (hn : 1 ≤ n) (hw : d.words[n]? = some w) : d.token w = (n : Int) := by
  have : d.hash_table.get w = some (n : Int) :=
    (HashTable.get_eq_some_iff h.table w n).2 ((h.toks w n).2 ⟨n, hn, rfl, hw⟩)
  unfold Dictionary.token
  rw [this]

theorem Dictionary.ret_of_word (d : Dictionary) (n : Nat) (w : String)
    (hn : 1 ≤ n) (hw : d.words[n]? = some w) : d.ret (n : Int) = w := by
  have hlt : n < d.words.length := (List.getElem?_eq_some_iff.1 hw).1
  unfold Dictionary.ret
  rw [if_neg (by omega)]
  simp [List.getD_eq_getElem?_getD, hw]

/-- Claim C24: for a dictionary created with size `c >= 1` and a sequence of fewer than
`2 ^ 33 / 5` `insert` calls: an `insert` that returns true as the `k`-th successful one
gives its word the token `k`, and `ret` of that token is the word; for every `t` from 1 to
the number of stored words `token(ret(t))` is `t`; the token of a word of which no
`insert` returned true is -1; and `ret(t)` is "N/A" for `t < 1` and for `t` greater than
the number of stored words. -/
theorem dict_round_trip (c : Nat) (ops : List String) (hc : 1 ≤ c)
    (hops : 5 * ops.length < 2 ^ 33) :
    (∀ (i : Nat) w, ops[i]? = some w →
        ((Dictionary.create c).insertAll ops).2[i]? = some true →
        ((Dictionary.create c).insertAll ops).1.token w =
          ((((Dictionary.create c).insertAll ops).2.take (i + 1)).count true : Nat) ∧
        ((Dictionary.create c).insertAll ops).1.ret
          (((Dictionary.create c).insertAll ops).1.token w) = w) ∧
    (∀ t : Int, 1 ≤ t → t ≤ (((Dictionary.create c).insertAll ops).2.count true : Nat) →
        ((Dictionary.create c).insertAll ops).1.token
          (((Dictionary.create c).insertAll ops).1.ret t) = t) ∧
    (∀ w, (∀ i : Nat, ops[i]? = some w →
          ((Dictionary.create c).insertAll ops).2[i]? = some false) →
        ((Dictionary.create c).insertAll ops).1.token w = -1) ∧
    (∀ t : Int, t < 1 ∨ (((Dictionary.create c).insertAll ops).2.count true : Nat) < t →
        ((Dictionary.create c).insertAll ops).1.ret t = "N/A") := by
  obtain ⟨i1, i2, i3, i4, i5, i6⟩ := Dictionary.dict_insertAll_spec ops (Dictionary.create c)
    (Dictionary.dict_create_inv c hc) (by show 5 * (0 + ops.length) < 2 ^ 33; omega)
  have hl0 : (Dictionary.create c).words.length = 1 := rfl
  rw [hl0] at i3 i4 i5
  refine ⟨?_, ?_, ?_, ?_⟩
  · intro i w h1 h2
    have hw := i4 i w h1 h2
    have hc2 := count_take_succ _ i h2
    have e : 1 + (((Dictionary.create c).insertAll ops).2.take i).count true =
        (((Dictionary.create c).insertAll ops).2.take (i + 1)).count true := by omega
    rw [e] at hw
    have htok := Dictionary.token_of_word i1 _ w (by omega) hw
    refine ⟨htok, ?_⟩
    rw [htok]
    exact Dictionary.ret_of_word _ _ w (by omega) hw
  · intro t h1 h2
    obtain ⟨n, rfl⟩ := Int.eq_ofNat_of_zero_le (by omega : 0 ≤ t)
    have hn1 : 1 ≤ n := by exact_mod_cast h1
    have hn2 : n < ((Dictionary.create c).insertAll ops).1.words.length := by
      rw [i3]
      have : n ≤ ((Dictionary.create c).insertAll ops).2.count true := by exact_mod_cast h2
      omega
    have hw : ((Dictionary.create c).insertAll ops).1.words[n]? =
        some (((Dictionary.create c).insertAll ops).1.words[n]) :=
      List.getElem?_eq_getElem hn2
    rw [Dictionary.ret_of_word _ n _ hn1 hw]
    exact Dictionary.token_of_word i1 n _ hn1 hw
  · intro w hw
    have hg : ((Dictionary.create c).insertAll ops).1.hash_table.get w = none := by
      rw [HashTable.get_eq_none_iff i1.table]
      intro v hv
      obtain ⟨n, h1, _, h3⟩ := (i1.toks w v).1 hv
      obtain ⟨i, hi1, hi2⟩ := i5 n w h1 h3
      have := hw i hi1
      rw [hi2] at this
      cases this
    unfold Dictionary.token
    rw [hg]
  · intro t ht
    unfold Dictionary.ret
    rw [if_pos]
    rw [i3]
    rcases ht with ht | ht
    · exact Or.inl ht
    · right
      push_cast
      omega

theorem dict_round_trip_witness :
    ((Dictionary.create 4).insertAll ["the", "cat", "the", "c4t", "sat"]).1.token "sat" = 3 ∧
    ((Dictionary.create 4).insertAll ["the", "cat", "the", "c4t", "sat"]).1.ret 3 = "sat" ∧
    ((Dictionary.create 4).insertAll ["the", "cat", "the", "c4t", "sat"]).1.token "dog" = -1 ∧
    ((Dictionary.create 4).insertAll ["the", "cat", "the", "c4t", "sat"]).1.ret 4 = "N/A" :=
  ⟨((dict_round_trip 4 ["the", "cat", "the", "c4t", "sat"] (by decide) (by decide)).1
      4 "sat" (by decide) (by decide!)).1.trans (by decide!),
    by decide!,
    (dict_round_trip 4 ["the", "cat", "the", "c4t", "sat"] (by decide) (by decide)).2.2.1
      "dog" (by
        intro i hi
        rcases i with _ | _ | _ | _ | _ | i <;> simp at hi),
    (dict_round_trip 4 ["the", "cat", "the", "c4t", "sat"] (by decide) (by decide)).2.2.2
      4 (Or.inr (by decide!))⟩

end Lab3

namespace Lab2

/-! ## Nodes and their slots -/

theorem WFList_iff (cs : List (Option TrieNode)) :
    WFList cs ↔ ∀ child, some child ∈ cs → child.WF := by
  induction cs with
  | nil => simp [WFList]
  | cons x cs ih =>
    cases x with
    | none =>
      rw [WFList, ih]
      constructor
      · intro h child hc
        rcases List.mem_cons.1 hc with h1 | h1
        · cases h1
        · exact h child h1
      · intro h child hc
        exact h child (List.mem_cons_of_mem _ hc)
    | some c =>
      rw [WFList, ih]
      constructor
      · rintro ⟨h1, h2⟩ child hc
        rcases List.mem_cons.1 hc with h3 | h3
        · cases h3; exact h1
        · exact h2 child h3
      · intro h
        exact ⟨h c (List.mem_cons_self _ _), fun child hc => h child (List.mem_cons_of_mem _ hc)⟩

theorem LiveList_iff (cs : List (Option TrieNode)) :
    LiveList cs ↔ ∀ child, some child ∈ cs → child.Live := by
  induction cs with
  | nil => simp [LiveList]
  | cons x cs ih =>
    cases x with
    | none =>
      rw [LiveList, ih]
      constructor
      · intro h child hc
        rcases List.mem_cons.1 hc with h1 | h1
        · cases h1
        · exact h child h1
      · intro h child hc
        exact h child (List.mem_cons_of_mem _ hc)
    | some c =>
      rw [LiveList, ih]
      constructor
      · rintro ⟨h1, h2⟩ child hc
        rcases List.mem_cons.1 hc with h3 | h3
        · cases h3; exact h1
        · exact h2 child h3
      · intro h
        exact ⟨h c (List.mem_cons_self _ _), fun child hc => h child (List.mem_cons_of_mem _ hc)⟩

theorem TrieNode.WF_iff (n : TrieNode) :
    n.WF ↔ n._children.length = 26 ∧ ∀ child, some child ∈ n._children → child.WF := by
  cases n with
  | mk cs b => rw [TrieNode.WF, WFList_iff]; rfl

theorem TrieNode.Live_iff (n : TrieNode) :
    n.Live ↔ (n.isLastChar = true ∨ n.has_children = true) ∧
      ∀ child, some child ∈ n._children → child.Live := by
  cases n with
  | mk cs b => rw [TrieNode.Live, LiveList_iff]; rfl

theorem mem_of_getD {cs : List (Option TrieNode)} {i : Nat} {child : TrieNode}
    (h : cs.getD i none = some child) : some child ∈ cs ∧ i < cs.length := by
  by_cases hi : i < cs.length
  · rw [List.getD_eq_getElem _ _ hi] at h
    exact ⟨h ▸ List.getElem_mem hi, hi⟩
  · rw [List.getD_eq_default _ _ (by omega)] at h
    cases h

theorem mem_set_slot {cs : List (Option TrieNode)} {i : Nat} {p x : Option TrieNode}
    (h : x ∈ cs.set i p) : x = p ∨ x ∈ cs := by
  rcases List.mem_or_eq_of_mem_set h with h1 | h1
  · exact Or.inr h1
  · exact Or.inl h1

theorem getD_set_slot (cs : List (Option TrieNode)) (i j : Nat) (p : Option TrieNode)
    (hi : i < cs.length) :
    (cs.set i p).getD j none = if j = i then p else cs.getD j none := by
  by_cases h : j = i
  · subst h
    rw [if_pos rfl, List.getD_eq_getElem _ _ (by simpa using hi)]
    simp
  · rw [if_neg h]
    simp only [List.getD_eq_getElem?_getD]
    rw [List.getElem?_set_ne (fun e => h e.symm)]

theorem set_getD_self (cs : List (Option TrieNode)) (i : Nat) :
    cs.set i (cs.getD i none) = cs := by
  induction cs generalizing i with
  | nil => rfl
  | cons x cs ih =>
    cases i with
    | zero => rfl
    | succ i =>
      rw [List.getD_cons_succ, List.set_cons_succ, ih]

theorem TrieNode.getChild_upper (n : TrieNode) (c : Nat) (h1 : 65 ≤ c) (h2 : c ≤ 90) :
    n.getChild c = some (n._children.getD (c - 65) none) := by
  unfold TrieNode.getChild
  rw [if_neg (by omega)]

theorem TrieNode.putChild_self (n : TrieNode) (c : Nat) :
    n.putChild c (n._children.getD (c - 65) none) = n := by
  cases n with
  | mk cs b =>
    show TrieNode.mk (cs.set (c - 65) (cs.getD (c - 65) none)) b = TrieNode.mk cs b
    rw [set_getD_self]

theorem TrieNode.create_WF (b : Bool) : (TrieNode.create b).WF := by
  rw [TrieNode.WF_iff]
  refine ⟨by simp [TrieNode.create, TrieNode._children], ?_⟩
  intro child hc
  simp [TrieNode.create, TrieNode._children, List.mem_replicate] at hc

theorem TrieNode.putChild_WF {n : TrieNode} (c : Nat) {p : Option TrieNode} (h : n.WF)
    (hp : ∀ m, p = some m → m.WF) : (n.putChild c p).WF := by
  rw [TrieNode.WF_iff] at h ⊢
  cases n with
  | mk cs b =>
  refine ⟨by simpa [TrieNode.putChild, TrieNode._children] using h.1, ?_⟩
  intro child hc
  rcases mem_set_slot hc with h1 | h1
  · exact hp child h1.symm
  · exact h.2 child h1

theorem TrieNode.setLastChar_WF {n : TrieNode} (b : Bool) (h : n.WF) :
    (n.setLastChar b).WF := by
  rw [TrieNode.WF_iff] at h ⊢
  exact h

theorem TrieNode.child_WF {n : TrieNode} {i : Nat} {child : TrieNode} (h : n.WF)
    (hc : n._children.getD i none = some child) : child.WF :=
  ((TrieNode.WF_iff n).1 h).2 child (mem_of_getD hc).1

/-! ## The stored words -/

theorem TrieNode.words_eq (n : TrieNode) :
    n.words = (if n.isLastChar then [[]] else []) ++ wordsFrom n._children 65 := by
  cases n with
  | mk cs b => rw [TrieNode.words]; rfl

theorem mem_wordsFrom (cs : List (Option TrieNode)) (c0 : Nat) (w : List Nat) :
    w ∈ wordsFrom cs c0 ↔
      ∃ ch w1 child, w = ch :: w1 ∧ c0 ≤ ch ∧ cs.getD (ch - c0) none = some child ∧
        w1 ∈ child.words := by
  induction cs generalizing c0 with
  | nil => simp [wordsFrom]
  | cons x cs ih =>
    have hstep : (∃ ch w1 child, w = ch :: w1 ∧ c0 + 1 ≤ ch ∧
          cs.getD (ch - (c0 + 1)) none = some child ∧ w1 ∈ child.words) ↔
        (∃ ch w1 child, w = ch :: w1 ∧ c0 + 1 ≤ ch ∧
          (x :: cs).getD (ch - c0) none = some child ∧ w1 ∈ child.words) := by
      constructor
      · rintro ⟨ch, w1, child, h1, h2, h3, h4⟩
        refine ⟨ch, w1, child, h1, h2, ?_, h4⟩
        have : ch - c0 = (ch - (c0 + 1)) + 1 := by omega
        rw [this, List.getD_cons_succ]
        exact h3
      · rintro ⟨ch, w1, child, h1, h2, h3, h4⟩
        refine ⟨ch, w1, child, h1, h2, ?_, h4⟩
        have : ch - c0 = (ch - (c0 + 1)) + 1 := by omega
        rw [this, List.getD_cons_succ] at h3
        exact h3
    cases x with
    | none =>
      rw [wordsFrom, ih, hstep]
      constructor
      · rintro ⟨ch, w1, child, h1, h2, h3, h4⟩
        exact ⟨ch, w1, child, h1, by omega, h3, h4⟩
      · rintro ⟨ch, w1, child, h1, h2, h3, h4⟩
        by_cases hc : ch = c0
        · subst hc
          simp at h3
        · exact ⟨ch, w1, child, h1, by omega, h3, h4⟩
    | some c =>
      rw [wordsFrom, List.mem_append, ih, hstep]
      constructor
      · rintro (h | ⟨ch, w1, child, h1, h2, h3, h4⟩)
        · obtain ⟨w1, hw1, e⟩ := List.mem_map.1 h
          exact ⟨c0, w1, c, e.symm, le_refl _, by simp, hw1⟩
        · exact ⟨ch, w1, child, h1, by omega, h3, h4⟩
      · rintro ⟨ch, w1, child, h1, h2, h3, h4⟩
        by_cases hc : ch = c0
        · subst hc
          left
          have : c = child := by simpa using h3
          subst this
          exact List.mem_map.2 ⟨w1, h4, h1.symm⟩
        · exact Or.inr ⟨ch, w1, child, h1, by omega, h3, h4⟩

theorem TrieNode.nil_mem_words (n : TrieNode) : [] ∈ n.words ↔ n.isLastChar = true := by
  rw [TrieNode.words_eq, List.mem_append, mem_wordsFrom]
  constructor
  · rintro (h | ⟨ch, w1, child, h1, _⟩)
    · cases hb : n.isLastChar
      · rw [hb] at h; simp at h
      · rfl
    · cases h1
  · intro h
    left
    rw [h]
    simp

theorem TrieNode.cons_mem_words (n : TrieNode) (ch : Nat) (w1 : List Nat) :
    (ch :: w1) ∈ n.words ↔
      65 ≤ ch ∧ ∃ child, n._children.getD (ch - 65) none = some child ∧ w1 ∈ child.words := by
  rw [TrieNode.words_eq, List.mem_append, mem_wordsFrom]
  constructor
  · rintro (h | ⟨ch2, w2, child, h1, h2, h3, h4⟩)
    · cases hb : n.isLastChar <;> rw [hb] at h <;> simp at h
    · cases h1
      exact ⟨h2, child, h3, h4⟩
  · rintro ⟨h2, child, h3, h4⟩
    exact Or.inr ⟨ch, w1, child, rfl, h2, h3, h4⟩

theorem TrieNode.cons_mem_words_slot (n : TrieNode) (ch : Nat) (w1 : List Nat) :
    (ch :: w1) ∈ n.words ↔
      65 ≤ ch ∧ w1 ∈ slotWords (n._children.getD (ch - 65) none) := by
  rw [TrieNode.cons_mem_words]
  constructor
  · rintro ⟨h1, child, h2, h3⟩
    rw [h2]
    exact ⟨h1, h3⟩
  · rintro ⟨h1, h2⟩
    cases hq : n._children.getD (ch - 65) none with
    | none => rw [hq] at h2; cases h2
    | some child => rw [hq] at h2; exact ⟨h1, child, rfl, h2⟩

theorem wordsFrom_replicate_none (k c : Nat) :
    wordsFrom (List.replicate k none) c = [] := by
  induction k generalizing c with
  | zero => rfl
  | succ k ih => rw [List.replicate_succ, wordsFrom, ih]

theorem TrieNode.create_words (b : Bool) :
    (TrieNode.create b).words = if b then [[]] else [] := by
  rw [TrieNode.words_eq]
  show (if b then [[]] else []) ++ wordsFrom (List.replicate 26 none) 65 = _
  rw [wordsFrom_replicate_none, List.append_nil]

theorem TrieNode.create_children (b : Bool) :
    (TrieNode.create b)._children = List.replicate 26 none := rfl

theorem TrieNode.create_Live : (TrieNode.create true).Live := by
  rw [TrieNode.Live_iff]
  refine ⟨Or.inl rfl, ?_⟩
  intro child hc
  rw [TrieNode.create_children] at hc
  simp [List.mem_replicate] at hc

theorem TrieNode.create_LiveList (b : Bool) : LiveList (TrieNode.create b)._children := by
  rw [LiveList_iff]
  intro child hc
  rw [TrieNode.create_children] at hc
  simp [List.mem_replicate] at hc

theorem has_children_of_slot {n : TrieNode} {i : Nat} {child : TrieNode}
    (h : n._children.getD i none = some child) : n.has_children = true := by
  unfold TrieNode.has_children
  exact List.any_eq_true.2 ⟨some child, (mem_of_getD h).1, rfl⟩

theorem TrieNode.putChild_children (n : TrieNode) (c : Nat) (p : Option TrieNode) :
    (n.putChild c p)._children = n._children.set (c - 65) p := rfl

theorem TrieNode.putChild_isLastChar (n : TrieNode) (c : Nat) (p : Option TrieNode) :
    (n.putChild c p).isLastChar = n.isLastChar := rfl

theorem TrieNode.putChild_LiveList {n : TrieNode} (c : Nat) {p : Option TrieNode}
    (h : LiveList n._children) (hp : ∀ m, p = some m → m.Live) :
    LiveList (n.putChild c p)._children := by
  rw [LiveList_iff] at h ⊢
  intro child hc
  rw [TrieNode.putChild_children] at hc
  rcases mem_set_slot hc with h1 | h1
  · exact hp child h1.symm
  · exact h child h1

/-- The effect on the stored words of putting a node into the slot of the letter `c`. -/
theorem TrieNode.putChild_spec {n : TrieNode} (hn : n.WF) (c : Nat) (h1 : 65 ≤ c)
    (h2 : c ≤ 90) (m : TrieNode) (rest : List Nat) (hm : m.WF)
    (hw : ∀ x1, x1 ∈ m.words ↔ x1 ∈ slotWords (n._children.getD (c - 65) none) ∨ x1 = rest) :
    (n.putChild c (some m)).WF ∧
    (n.putChild c (some m)).isLastChar = n.isLastChar ∧
    (n.putChild c (some m)).has_children = true ∧
    (∀ x, x ∈ (n.putChild c (some m)).words ↔ x ∈ n.words ∨ x = c :: rest) := by
  have hlen : c - 65 < n._children.length := by
    rw [((TrieNode.WF_iff n).1 hn).1]; omega
  have hslot : ∀ j, (n.putChild c (some m))._children.getD j none =
      if j = c - 65 then some m else n._children.getD j none := by
    intro j
    rw [TrieNode.putChild_children, getD_set_slot _ _ _ _ hlen]
  refine ⟨TrieNode.putChild_WF c hn (fun m1 e => by cases e; exact hm), rfl, ?_, ?_⟩
  · exact has_children_of_slot (by rw [hslot (c - 65), if_pos rfl])
  · intro x
    cases x with
    | nil =>
      rw [TrieNode.nil_mem_words, TrieNode.nil_mem_words, TrieNode.putChild_isLastChar]
      simp
    | cons ch x1 =>
      rw [TrieNode.cons_mem_words_slot, TrieNode.cons_mem_words_slot, hslot]
      by_cases hc : ch = c
      · subst hc
        rw [if_pos rfl]
        show 65 ≤ ch ∧ x1 ∈ m.words ↔ _
        rw [hw x1]
        constructor
        · rintro ⟨_, h | h⟩
          · exact Or.inl ⟨h1, h⟩
          · exact Or.inr (by rw [h])
        · rintro (⟨_, h⟩ | h)
          · exact ⟨h1, Or.inl h⟩
          · exact ⟨h1, Or.inr (List.cons.inj h).2⟩
      · by_cases hc65 : 65 ≤ ch
        · rw [if_neg (by omega)]
          constructor
          · intro h; exact Or.inl h
          · rintro (h | h)
            · exact h
            · exact absurd (List.cons.inj h).1 hc
        · constructor
          · intro h; exact absurd h.1 hc65
          · rintro (h | h)
            · exact absurd h.1 hc65
            · exact absurd (List.cons.inj h).1 hc

theorem insertLoop_cons (c : Nat) (rest : List Nat) (n : TrieNode) (h1 : 65 ≤ c)
    (h2 : c ≤ 90) :
    insertLoop (c :: rest) n =
      match n._children.getD (c - 65) none with
      | none =>
        (insertLoop rest (TrieNode.create rest.isEmpty)).map
          (fun r => (n.putChild c (some r.1), r.2))
      | some child =>
        if rest.isEmpty && child.isLastChar then some (n, false)
        else
          (insertLoop rest
            (if rest.isEmpty && !child.isLastChar then child.setLastChar true else child)).map
            (fun r => (n.putChild c (some r.1), r.2)) := by
  rw [insertLoop, TrieNode.getChild_upper n c h1 h2]
  cases n._children.getD (c - 65) none <;> rfl

theorem TrieNode.setLastChar_words (child : TrieNode) (h : child.isLastChar = false) :
    ∀ x1, x1 ∈ (child.setLastChar true).words ↔ x1 ∈ child.words ∨ x1 = [] := by
  intro x1
  cases child with
  | mk cs b =>
    have hb : b = false := h
    subst hb
    rw [TrieNode.words_eq, TrieNode.words_eq]
    show x1 ∈ [[]] ++ wordsFrom cs 65 ↔ x1 ∈ [] ++ wordsFrom cs 65 ∨ x1 = []
    simp only [List.mem_append, List.mem_singleton, List.not_mem_nil, false_or]
    exact or_comm

/-- What the loop of `insert` does below a node with 26-slot descendants, for a non-empty
word of letters. -/
theorem insertLoop_spec (w : List Nat) :
    ∀ n : TrieNode, n.WF → Upper w → w ≠ [] →
      ∃ n1 ok, insertLoop w n = some (n1, ok) ∧ n1.WF ∧ n1.isLastChar = n.isLastChar ∧
        (ok = false ↔ w ∈ n.words) ∧ (ok = false → n1 = n) ∧
        (ok = true → ∀ x, x ∈ n1.words ↔ x ∈ n.words ∨ x = w) ∧
        (LiveList n._children →
          LiveList n1._children ∧ (ok = true → n1.has_children = true)) := by
  induction w with
  | nil => intro n _ _ h; exact absurd rfl h
  | cons c rest ih =>
    intro n hn hu _
    have hc := hu c (List.mem_cons_self _ _)
    have hur : Upper rest := fun x hx => hu x (List.mem_cons_of_mem _ hx)
    rw [insertLoop_cons c rest n hc.1 hc.2]
    have hmem := TrieNode.cons_mem_words_slot n c rest
    cases hq : n._children.getD (c - 65) none with
    | none =>
      rw [hq] at hmem
      simp only
      have hnot : (c :: rest) ∉ n.words := fun h => by
        have := (hmem.1 h).2
        cases this
      cases rest with
      | nil =>
        have hs := TrieNode.putChild_spec hn c hc.1 hc.2 (TrieNode.create true) []
          (TrieNode.create_WF true) (by
            intro x1
            rw [hq, TrieNode.create_words]
            simp [slotWords])
        refine ⟨n.putChild c (some (TrieNode.create true)), true, rfl, hs.1, hs.2.1, ?_, ?_,
          fun _ => hs.2.2.2, ?_⟩
        · simp [hnot]
        · intro h; cases h
        · intro hl
          exact ⟨TrieNode.putChild_LiveList c hl (fun m e => by
            cases e; exact TrieNode.create_Live), fun _ => hs.2.2.1⟩
      | cons c2 r2 =>
        obtain ⟨m, ok, e, m1, m2, m3, m4, m5, m6⟩ :=
          ih (TrieNode.create false) (TrieNode.create_WF false) hur (by simp)
        have hok : ok = true := by
          cases ok
          · have := m3.1 rfl
            rw [TrieNode.create_words] at this
            simp at this
          · rfl
        subst hok
        have hs := TrieNode.putChild_spec hn c hc.1 hc.2 m (c2 :: r2) m1 (by
            intro x1
            rw [hq, m5 rfl x1, TrieNode.create_words]
            simp [slotWords])
        have e2 : insertLoop (c2 :: r2) (TrieNode.create (c2 :: r2).isEmpty) = some (m, true) := e
        rw [e2]
        refine ⟨n.putChild c (some m), true, rfl, hs.1, hs.2.1, ?_, ?_, fun _ => hs.2.2.2, ?_⟩
        · simp [hnot]
        · intro h; cases h
        · intro hl
          obtain ⟨l1, l2⟩ := m6 (TrieNode.create_LiveList false)
          refine ⟨TrieNode.putChild_LiveList c hl (fun m0 e0 => ?_), fun _ => hs.2.2.1⟩
          cases e0
          rw [TrieNode.Live_iff]
          exact ⟨Or.inr (l2 rfl), (LiveList_iff _).1 l1⟩
    | some child =>
      rw [hq] at hmem
      simp only
      have hcw : child.WF := TrieNode.child_WF hn hq
      have hcl : LiveList n._children → child.Live := fun hl =>
        (LiveList_iff _).1 hl child (mem_of_getD hq).1
      cases rest with
      | nil =>
        cases hb : child.isLastChar
        · have hs := TrieNode.putChild_spec hn c hc.1 hc.2 (child.setLastChar true) []
            (TrieNode.setLastChar_WF true hcw) (by
              intro x1
              rw [hq]
              exact TrieNode.setLastChar_words child hb x1)
          have hnot : [c] ∉ n.words := fun h => by
            have := (hmem.1 h).2
            have h3 := (TrieNode.nil_mem_words child).1 this
            rw [hb] at h3
            cases h3
          refine ⟨n.putChild c (some (child.setLastChar true)), true, by simp [insertLoop],
            hs.1, hs.2.1, ?_, ?_, fun _ => hs.2.2.2, ?_⟩
          · simp [hnot]
          · intro h; cases h
          · intro hl
            refine ⟨TrieNode.putChild_LiveList c hl (fun m0 e0 => ?_), fun _ => hs.2.2.1⟩
            cases e0
            have := (TrieNode.Live_iff child).1 (hcl hl)
            rw [TrieNode.Live_iff]
            exact ⟨Or.inl rfl, this.2⟩
        · have hin : [c] ∈ n.words :=
            hmem.2 ⟨hc.1, (TrieNode.nil_mem_words child).2 hb⟩
          refine ⟨n, false, by simp, hn, rfl, ?_, fun _ => rfl, ?_, fun hl => ⟨hl, ?_⟩⟩
          · simp [hin]
          · intro h; cases h
          · intro h; cases h
      | cons c2 r2 =>
        obtain ⟨m, ok, e, m1, m2, m3, m4, m5, m6⟩ := ih child hcw hur (by simp)
        have e2 : insertLoop (c2 :: r2)
            (if (c2 :: r2).isEmpty && !child.isLastChar then child.setLastChar true
              else child) = some (m, ok) := e
        have e3 : ((c2 :: r2).isEmpty && child.isLastChar) = false := rfl
        rw [e3, e2]
        cases ok with
        | false =>
          have hmc : m = child := m4 rfl
          have hin : (c :: c2 :: r2) ∈ n.words := hmem.2 ⟨hc.1, m3.1 rfl⟩
          have hself : n.putChild c (some m) = n := by
            rw [hmc, ← hq]
            exact TrieNode.putChild_self n c
          refine ⟨n.putChild c (some m), false, by simp, ?_, ?_, ?_, fun _ => hself, ?_, ?_⟩
          · rw [hself]; exact hn
          · rw [hself]
          · simp [hin]
          · intro h; cases h
          · intro hl
            rw [hself]
            exact ⟨hl, fun h => by cases h⟩
        | true =>
          have hs := TrieNode.putChild_spec hn c hc.1 hc.2 m (c2 :: r2) m1 (by
              intro x1
              rw [hq, m5 rfl x1]
              rfl)
          have hnot : (c :: c2 :: r2) ∉ n.words := fun h => by
            have := m3.2 (hmem.1 h).2
            cases this
          refine ⟨n.putChild c (some m), true, by simp, hs.1, hs.2.1, ?_, ?_,
            fun _ => hs.2.2.2, ?_⟩
          · simp [hnot]
          · intro h; cases h
          · intro hl
            obtain ⟨l1, l2⟩ := m6 ((TrieNode.Live_iff child).1 (hcl hl) |>.2 |>
              (LiveList_iff _).2)
            refine ⟨TrieNode.putChild_LiveList c hl (fun m0 e0 => ?_), fun _ => hs.2.2.1⟩
            cases e0
            rw [TrieNode.Live_iff]
            exact ⟨Or.inr (l2 rfl), (LiveList_iff _).1 l1⟩

/-! ## `insert` -/

theorem Trie.insert_eq (t : Trie) (word : List Nat) (n1 : TrieNode) (ok : Bool)
    (h : insertLoop word t._root = some (n1, ok)) :
    t.insert word = some
      (if ok then { _root := n1, num_words := (t.num_words + 1) % 2 ^ 32 }
        else { t with _root := n1 }, ok) := by
  unfold Trie.insert
  rw [h]
  cases ok <;> rfl

/-- Claim C25: for a trie whose nodes have their 26 slots and a non-empty word of letters
`A` to `Z`, `insert` returns, and it returns false exactly when the word is already
stored, in which case the trie is unchanged; when it returns true the words stored
afterwards are exactly the words stored before and the word. -/
theorem trie_insert_spec (t : Trie) (word : List Nat) (hwf : t._root.WF) (hne : word ≠ [])
    (hup : Upper word) :
    ∃ t1 b, t.insert word = some (t1, b) ∧
      (b = false ↔ word ∈ t.words) ∧ (b = false → t1 = t) ∧
      (b = true → ∀ x, x ∈ t1.words ↔ x ∈ t.words ∨ x = word) := by
  obtain ⟨n1, ok, e, _, _, h3, h4, h5, _⟩ := insertLoop_spec word t._root hwf hup hne
  refine ⟨_, ok, Trie.insert_eq t word n1 ok e, h3, ?_, ?_⟩
  · intro hf
    subst hf
    rw [h4 rfl]
    rfl
  · intro ht
    subst ht
    exact h5 rfl

/-! ## `erase` and `clear` keep the shape -/

theorem eraseRecursive_none (rest : List Nat) : eraseRecursive rest none = some (none, false) := by
  cases rest <;> rfl

theorem eraseRecursive_spec (rest : List Nat) :
    ∀ q : Option TrieNode, Upper rest → (∀ m, q = some m → m.WF ∧ m.Live) →
      ∃ q1 d, eraseRecursive rest q = some (q1, d) ∧ (∀ m, q1 = some m → m.WF ∧ m.Live) := by
  induction rest with
  | nil =>
    intro q _ hq
    cases q with
    | none => exact ⟨none, false, rfl, fun m e => by cases e⟩
    | some curr =>
      obtain ⟨h1, h2⟩ := hq curr rfl
      cases hc : (curr.setLastChar false).has_children
      · exact ⟨none, true, by simp [eraseRecursive, hc], fun m e => by cases e⟩
      · refine ⟨some (curr.setLastChar false), true, by simp [eraseRecursive, hc], ?_⟩
        intro m e
        cases e
        refine ⟨TrieNode.setLastChar_WF false h1, ?_⟩
        rw [TrieNode.Live_iff]
        exact ⟨Or.inr hc, ((TrieNode.Live_iff curr).1 h2).2⟩
  | cons c r ih =>
    intro q hu hq
    have hc := hu c (List.mem_cons_self _ _)
    have hur : Upper r := fun x hx => hu x (List.mem_cons_of_mem _ hx)
    cases q with
    | none => exact ⟨none, false, rfl, fun m e => by cases e⟩
    | some curr =>
      obtain ⟨h1, h2⟩ := hq curr rfl
      obtain ⟨q1, d, e, hq1⟩ := ih (curr._children.getD (c - 65) none) hur (by
        intro m hm
        exact ⟨TrieNode.child_WF h1 hm,
          ((TrieNode.Live_iff curr).1 h2).2 m (mem_of_getD hm).1⟩)
      have hwf : (curr.putChild c q1).WF :=
        TrieNode.putChild_WF c h1 (fun m em => (hq1 m em).1)
      have hll : LiveList (curr.putChild c q1)._children :=
        TrieNode.putChild_LiveList c ((LiveList_iff _).2 ((TrieNode.Live_iff curr).1 h2).2)
          (fun m em => (hq1 m em).2)
      have heq : eraseRecursive (c :: r) (some curr) =
          if (!(curr.putChild c q1).has_children && !(curr.putChild c q1).isLastChar) = true
          then some (none, d) else some (some (curr.putChild c q1), d) := by
        rw [eraseRecursive, TrieNode.getChild_upper curr c hc.1 hc.2]
        simp only [e]
      rw [heq]
      by_cases hdel : (!(curr.putChild c q1).has_children &&
          !(curr.putChild c q1).isLastChar) = true
      · rw [if_pos hdel]
        exact ⟨none, d, rfl, fun m em => by cases em⟩
      · rw [if_neg hdel]
        refine ⟨_, d, rfl, ?_⟩
        intro m em
        cases em
        refine ⟨hwf, ?_⟩
        rw [TrieNode.Live_iff]
        refine ⟨?_, (LiveList_iff _).1 hll⟩
        cases h3 : (curr.putChild c q1).has_children
        · cases h4 : (curr.putChild c q1).isLastChar
          · rw [h3, h4] at hdel
            exact absurd rfl hdel
          · exact Or.inl rfl
        · exact Or.inr rfl

theorem Trie.Inv.trie_create_inv : Trie.create.Inv :=
  ⟨TrieNode.create_WF false, TrieNode.create_LiveList false, rfl⟩

theorem Trie.Inv.insert_inv {t t1 : Trie} {word : List Nat} {b : Bool} (h : t.Inv)
    (hne : word ≠ []) (hup : Upper word) (e : t.insert word = some (t1, b)) : t1.Inv := by
  obtain ⟨n1, ok, e1, h1, h2, _, _, _, h6⟩ := insertLoop_spec word t._root h.wf hup hne
  rw [Trie.insert_eq t word n1 ok e1] at e
  have e2 := (Prod.mk.inj (Option.some.inj e)).1
  have hroot : t1._root = n1 := by
    rw [← e2]
    cases ok <;> rfl
  refine ⟨by rw [hroot]; exact h1, by rw [hroot]; exact (h6 h.live).1, ?_⟩
  rw [hroot, h2]
  exact h.root

theorem Trie.Inv.erase_inv {t t1 : Trie} {word : List Nat} {b : Bool} (h : t.Inv)
    (hne : word ≠ []) (hup : Upper word) (e : t.erase word = some (t1, b)) : t1.Inv := by
  cases word with
  | nil => exact absurd rfl hne
  | cons c r =>
    have hc := hup c (List.mem_cons_self _ _)
    have hur : Upper r := fun x hx => hup x (List.mem_cons_of_mem _ hx)
    obtain ⟨q1, d, e1, hq1⟩ := eraseRecursive_spec r (t._root._children.getD (c - 65) none)
      hur (by
        intro m hm
        exact ⟨TrieNode.child_WF h.wf hm, (LiveList_iff _).1 h.live m (mem_of_getD hm).1⟩)
    have hroot : t1._root = t._root.putChild c q1 := by
      unfold Trie.erase at e
      simp only [List.headD_cons, List.tail_cons] at e
      rw [TrieNode.getChild_upper _ c hc.1 hc.2] at e
      simp only [e1] at e
      cases d
      · simp only [Bool.false_eq_true, if_false, Option.some.injEq, Prod.mk.injEq] at e
        rw [← e.1]
      · simp only [if_true, Option.some.injEq, Prod.mk.injEq] at e
        rw [← e.1]
    refine ⟨?_, ?_, ?_⟩
    · rw [hroot]
      exact TrieNode.putChild_WF c h.wf (fun m em => (hq1 m em).1)
    · rw [hroot]
      exact TrieNode.putChild_LiveList c h.live (fun m em => (hq1 m em).2)
    · rw [hroot]
      exact h.root

theorem Trie.Inv.clear_inv {t : Trie} (h : t.Inv) : t.clear.Inv := by
  have hnone : ∀ child, some child ∉ t._root._children.map (fun _ => (none : Option TrieNode)) := by
    intro child hc
    obtain ⟨x, _, hx⟩ := List.mem_map.1 hc
    cases hx
  refine ⟨?_, ?_, h.root⟩
  · rw [TrieNode.WF_iff]
    refine ⟨?_, fun child hc => absurd hc (hnone child)⟩
    show (t._root._children.map (fun _ => (none : Option TrieNode))).length = 26
    rw [List.length_map]
    exact ((TrieNode.WF_iff _).1 h.wf).1
  · rw [LiveList_iff]
    exact fun child hc => absurd hc (hnone child)

theorem Trie.Reachable.trie_inv {t : Trie} (h : t.Reachable) : t.Inv := by
  induction h with
  | create => exact Trie.Inv.trie_create_inv
  | insert t t1 word b _ hne hup e ih => exact ih.insert_inv hne hup e
  | erase t t1 word b _ hne hup e ih => exact ih.erase_inv hne hup e
  | clear t _ ih => exact ih.clear_inv

theorem exAB_insert : Trie.create.insert (str "AB") = some (exAB, true) := rfl

theorem exAB_wf : exAB._root.WF :=
  (Trie.Inv.insert_inv Trie.Inv.trie_create_inv (by decide) (by decide) exAB_insert).wf

theorem trie_insert_spec_witness :
    (∃ t1 b, exAB.insert (str "A") = some (t1, b) ∧
      (b = false ↔ str "A" ∈ exAB.words) ∧ (b = false → t1 = exAB) ∧
      (b = true → ∀ x, x ∈ t1.words ↔ x ∈ exAB.words ∨ x = str "A")) ∧
    (exAB.insert (str "A")).map (fun r => (r.1.words, r.2)) = some ([str "A", str "AB"], true) ∧
    (exAB.insert (str "AB")).map (fun r => (r.1.words, r.2)) = some ([str "AB"], false) :=
  ⟨trie_insert_spec exAB (str "A") exAB_wf (by decide) (by decide), by decide, by decide⟩

/-! ## Counting the stored words -/

theorem wordsFrom_length (cs : List (Option TrieNode)) (c d : Nat) :
    (wordsFrom cs c).length = (wordsFrom cs d).length := by
  induction cs generalizing c d with
  | nil => rfl
  | cons x cs ih =>
    cases x with
    | none => rw [wordsFrom, wordsFrom]; exact ih _ _
    | some child =>
      rw [wordsFrom, wordsFrom, List.length_append, List.length_append, List.length_map,
        List.length_map, ih (c + 1) (d + 1)]

theorem TrieNode.words_length (n : TrieNode) :
    n.words.length = (if n.isLastChar then 1 else 0) + (wordsFrom n._children 65).length := by
  rw [TrieNode.words_eq, List.length_append]
  cases n.isLastChar <;> rfl

mutual
theorem numWordsRecursive_eq : ∀ (n : TrieNode) (acc : Nat),
    numWordsRecursive n acc % 2 ^ 32 = (acc + (wordsFrom n._children 65).length) % 2 ^ 32 ∧
      (acc < 2 ^ 32 → numWordsRecursive n acc < 2 ^ 32)
  | .mk cs b, acc => by
    rw [numWordsRecursive]
    exact numWordsLoop_eq cs 65 acc
theorem numWordsLoop_eq : ∀ (cs : List (Option TrieNode)) (c acc : Nat),
    numWordsLoop cs acc % 2 ^ 32 = (acc + (wordsFrom cs c).length) % 2 ^ 32 ∧
      (acc < 2 ^ 32 → numWordsLoop cs acc < 2 ^ 32)
  | [], c, acc => by
    rw [numWordsLoop, wordsFrom]
    exact ⟨rfl, fun h => h⟩
  | none :: cs, c, acc => by
    rw [numWordsLoop, wordsFrom]
    exact numWordsLoop_eq cs (c + 1) acc
  | some child :: cs, c, acc => by
    rw [numWordsLoop, wordsFrom, List.length_append, List.length_map]
    obtain ⟨h1, h2⟩ := numWordsRecursive_eq child
      ((acc + (if child.isLastChar then 1 else 0)) % 2 ^ 32)
    obtain ⟨h3, h4⟩ := numWordsLoop_eq cs (c + 1)
      (numWordsRecursive child ((acc + (if child.isLastChar then 1 else 0)) % 2 ^ 32))
    refine ⟨?_, fun _ => h4 (h2 (Nat.mod_lt _ (by norm_num)))⟩
    rw [h3, Nat.add_mod, h1, TrieNode.words_length]
    omega
end

theorem numWordsRecursive_words (n : TrieNode) :
    numWordsRecursive n (if n.isLastChar then 1 else 0) = n.words.length % 2 ^ 32 := by
  obtain ⟨h1, h2⟩ := numWordsRecursive_eq n (if n.isLastChar then 1 else 0)
  have hlt : (if n.isLastChar then 1 else 0) < 2 ^ 32 := by
    cases n.isLastChar <;> norm_num
  rw [TrieNode.words_length, ← h1]
  exact (Nat.mod_eq_of_lt (h2 hlt)).symm

mutual
theorem TrieNode.Live.words_ne : ∀ (n : TrieNode), n.Live → n.words ≠ []
  | .mk cs b, h => by
    rw [TrieNode.Live] at h
    rw [TrieNode.words]
    cases b with
    | true => simp
    | false =>
      have hany : cs.any (fun c => c.isSome) = true := by
        rcases h.1 with h1 | h1
        · cases h1
        · exact h1
      have := LiveList.wordsFrom_ne cs 65 h.2 hany
      simpa using this
theorem LiveList.wordsFrom_ne : ∀ (cs : List (Option TrieNode)) (c : Nat), LiveList cs →
    cs.any (fun c => c.isSome) = true → wordsFrom cs c ≠ []
  | [], _, _, h => by simp at h
  | none :: cs, c, h, ha => by
    rw [LiveList] at h
    rw [wordsFrom]
    exact LiveList.wordsFrom_ne cs (c + 1) h (by simpa using ha)
  | some child :: cs, c, h, _ => by
    rw [LiveList] at h
    rw [wordsFrom]
    have := TrieNode.Live.words_ne child h.1
    intro e
    rw [List.append_eq_nil] at e
    exact this (List.map_eq_nil_iff.1 e.1)
end

/-! ## Words with a given beginning -/

theorem countP_wordsFrom_lt (cs : List (Option TrieNode)) (c0 ch : Nat) (p : List Nat)
    (h : ch < c0) :
    (wordsFrom cs c0).countP (fun w => (ch :: p).isPrefixOf w) = 0 := by
  rw [List.countP_eq_zero]
  intro w hw
  obtain ⟨ch2, w1, child, h1, h2, _⟩ := (mem_wordsFrom cs c0 w).1 hw
  subst h1
  simp only [List.isPrefixOf, Bool.and_eq_true, beq_iff_eq, not_and]
  intro e
  omega

theorem countP_wordsFrom (cs : List (Option TrieNode)) (c0 ch : Nat) (p : List Nat)
    (h : c0 ≤ ch) :
    (wordsFrom cs c0).countP (fun w => (ch :: p).isPrefixOf w) =
      (slotWords (cs.getD (ch - c0) none)).countP (fun w => p.isPrefixOf w) := by
  induction cs generalizing c0 with
  | nil => rfl
  | cons x cs ih =>
    by_cases hc : ch = c0
    · subst hc
      have h0 : ch - ch = 0 := by omega
      rw [h0, List.getD_cons_zero]
      cases x with
      | none =>
        rw [wordsFrom, countP_wordsFrom_lt cs (ch + 1) ch p (by omega)]
        rfl
      | some child =>
        rw [wordsFrom, List.countP_append, countP_wordsFrom_lt cs (ch + 1) ch p (by omega),
          List.countP_map, Nat.add_zero]
        show List.countP ((fun w => (ch :: p).isPrefixOf w) ∘ fun w => ch :: w) child.words = _
        congr 1
        funext w
        simp [List.isPrefixOf]
    · have hk : ch - c0 = (ch - (c0 + 1)) + 1 := by omega
      rw [hk, List.getD_cons_succ, ← ih (c0 + 1) (by omega)]
      cases x with
      | none => rw [wordsFrom]
      | some child =>
        rw [wordsFrom, List.countP_append]
        have : (child.words.map (fun w => c0 :: w)).countP
            (fun w => (ch :: p).isPrefixOf w) = 0 := by
          rw [List.countP_eq_zero]
          intro w hw
          obtain ⟨w1, _, e⟩ := List.mem_map.1 hw
          subst e
          simp only [List.isPrefixOf, Bool.and_eq_true, beq_iff_eq, not_and]
          intro e
          exact absurd e hc
        rw [this, Nat.zero_add]

theorem TrieNode.countP_words_cons (n : TrieNode) (ch : Nat) (p : List Nat) (h : 65 ≤ ch) :
    n.words.countP (fun w => (ch :: p).isPrefixOf w) =
      (slotWords (n._children.getD (ch - 65) none)).countP (fun w => p.isPrefixOf w) := by
  rw [TrieNode.words_eq, List.countP_append, countP_wordsFrom _ 65 ch p h]
  cases n.isLastChar <;> simp [List.isPrefixOf]

theorem countP_nil_isPrefixOf (l : List (List Nat)) :
    l.countP (fun w => ([] : List Nat).isPrefixOf w) = l.length := by
  rw [List.countP_eq_length]
  intro w _
  cases w <;> rfl

/-- What `_findNode` finds below a node of a trie in order, for a word of letters. -/
theorem findLoop_spec (p : List Nat) :
    ∀ n : TrieNode, Upper p → (∀ child, some child ∈ n._children → child.Live) →
      (findLoop p n = some none ∧ p ≠ [] ∧
          n.words.countP (fun w => p.isPrefixOf w) = 0) ∨
      (∃ m, findLoop p n = some (some m) ∧
          n.words.countP (fun w => p.isPrefixOf w) = m.words.length ∧
          (p ≠ [] → m.words ≠ [])) := by
  induction p with
  | nil =>
    intro n _ _
    exact Or.inr ⟨n, rfl, countP_nil_isPrefixOf _, fun h => absurd rfl h⟩
  | cons c r ih =>
    intro n hu hl
    have hc := hu c (List.mem_cons_self _ _)
    have hur : Upper r := fun x hx => hu x (List.mem_cons_of_mem _ hx)
    rw [TrieNode.countP_words_cons n c r hc.1]
    rw [findLoop, TrieNode.getChild_upper n c hc.1 hc.2]
    cases hq : n._children.getD (c - 65) none with
    | none => exact Or.inl ⟨rfl, by simp, rfl⟩
    | some child =>
      have hcl : child.Live := hl child (mem_of_getD hq).1
      simp only
      rcases ih child hur ((TrieNode.Live_iff child).1 hcl).2 with ⟨h1, _, h3⟩ | ⟨m, h1, h2, h3⟩
      · exact Or.inl ⟨h1, by simp, h3⟩
      · refine Or.inr ⟨m, h1, h2, fun _ => ?_⟩
        cases r with
        | nil =>
          have : m = child := by
            have := h1
            simp only [findLoop, Option.some.injEq] at this
            exact this.symm
          rw [this]
          exact TrieNode.Live.words_ne child hcl
        | cons c2 r2 => exact h3 (by simp)

/-- Claim C27, as the code has it: in every trie reached from the empty trie by `insert`,
`erase` and `clear` with non-empty words of letters, and for every word `pfx` of letters
`A` to `Z`, `numWords(pfx)` throws exactly when `pfx` is not empty and no stored word
starts with it, and otherwise returns the number of stored words that start with `pfx`
(`pfx` itself included when it is stored), as an `unsigned int`. -/
theorem trie_prefix_count (t : Trie) (pfx : List Nat) (hr : t.Reachable) (hu : Upper pfx) :
    (t.numWordsWith pfx = none ↔
      pfx ≠ [] ∧ t.words.countP (fun w => pfx.isPrefixOf w) = 0) ∧
    (∀ k, t.numWordsWith pfx = some k →
      k = t.words.countP (fun w => pfx.isPrefixOf w) % 2 ^ 32) := by
  have hinv := hr.trie_inv
  unfold Trie.numWordsWith Trie._findNode Trie.words
  rcases findLoop_spec pfx t._root hu ((LiveList_iff _).1 hinv.live) with
    ⟨h1, h2, h3⟩ | ⟨m, h1, h2, h3⟩
  · rw [h1]
    simp only [true_iff]
    exact ⟨⟨h2, h3⟩, fun k hk => by cases hk⟩
  · rw [h1]
    refine ⟨Iff.intro (fun h => by cases h) ?_, ?_⟩
    · rintro ⟨hne, e⟩
      rw [h2] at e
      exact absurd (List.length_eq_zero.1 e) (h3 hne)
    · intro k hk
      simp only [Option.some.injEq] at hk
      rw [← hk, h2]
      exact numWordsRecursive_words m

theorem exABA_reachable : exABA.Reachable :=
  Trie.Reachable.insert exAB exABA (str "A") true
    (Trie.Reachable.insert Trie.create exAB (str "AB") true Trie.Reachable.create
      (by decide) (by decide) rfl)
    (by decide) (by decide) rfl

theorem trie_prefix_count_witness :
    exABA.numWordsWith (str "A") = some 2 ∧
    2 = exABA.words.countP (fun w => (str "A").isPrefixOf w) % 2 ^ 32 ∧
    (exABA.numWordsWith (str "B") = none ↔
      str "B" ≠ [] ∧ exABA.words.countP (fun w => (str "B").isPrefixOf w) = 0) :=
  ⟨by decide,
    (trie_prefix_count exABA (str "A") exABA_reachable (by decide)).2 2 (by decide),
    (trie_prefix_count exABA (str "B") exABA_reachable (by decide)).1⟩

/-- The claim C27 fails for the empty prefix on the empty trie: no stored word starts
with it, and `numWords("")` returns 0 instead of throwing. -/
theorem trie_empty_prefix_counterexample :
    Trie.create.words.countP (fun w => (str "").isPrefixOf w) = 0 ∧
      Trie.create.numWordsWith (str "") = some 0 :=
  ⟨by decide, by decide⟩

/-- Claim C26 fails: after `insert("AB")` and `erase("A")` on the empty trie the word `AB`
is still stored, in the one node marked as the last character of a word, but `numWords()`
returns 0: `erase` returned true for `A`, which was not stored, and decremented
`num_words`. -/
theorem trie_erase_miscount :
    (Trie.create.insert (str "AB")).map (fun r => r.2) = some true ∧
    ((Trie.create.insert (str "AB")).bind (fun r => r.1.erase (str "A"))).map (fun r => r.2) =
      some true ∧
    exMiscount.map Trie.words = some [str "AB"] ∧
    exMiscount.map Trie.numWords = some 0 :=
  ⟨by decide, by decide, by decide, by decide⟩

end Lab2

namespace Lab0

theorem ismember_fold (l : List Song) (song : Song) (b : Bool) :
    l.foldl (fun ismember s => if s = song then true else ismember) b = true ↔
      (b = true ∨ song ∈ l) := by
  induction l generalizing b with
  | nil => simp
  | cons a l ih =>
    rw [List.foldl_cons, ih]
    by_cases h : a = song
    · subst h; simp
    · have h2 : ¬ song = a := fun e => h e.symm
      simp [h, h2]

theorem take_set_self {α : Type} (l : List α) (n : Nat) (a : α) :
    (l.set n a).take n = l.take n := by
  induction l generalizing n with
  | nil => simp
  | cons b l ih =>
    cases n with
    | zero => simp
    | succ n => simp [ih]

theorem ismember_iff (p : Playlist) (song : Song) :
    p.ismember song = true ↔ song ∈ p.songs := by
  unfold Playlist.ismember Playlist.songs
  rw [ismember_fold]; simp

theorem valid_iff (p : Playlist) (song : Song) :
    p._is_valid_input song = true ↔
      (song ∉ p.songs ∧ song ≠ { _title := "Baby", _artist := "Justin Bieber" } ∧
        song._title ≠ "My Heart Will Go On" ∧ p._size < p._capacity) := by
  have h := ismember_iff p song
  unfold Playlist._is_valid_input
  cases hm : p.ismember song
  · have : song ∉ p.songs := fun hh => by rw [h.2 hh] at hm; cases hm
    simp [this, and_assoc]
  · have : song ∈ p.songs := h.1 hm
    simp [this]

/-- Claim C29: on a playlist whose array has its `_capacity` slots, `append` adds the song exactly when it is not already a member, is not
("Baby", "Justin Bieber"), is not titled "My Heart Will Go On" and the size is below the
capacity: then the songs become the old songs followed by the new one (so the new song is
at position `_size`, the size grows by one and every earlier song is unchanged) and
"success" is printed; otherwise the playlist is unchanged and "can not insert" is printed. -/
theorem append_iff (p : Playlist) (title artist : String)
    (hlen : p._song_arr.length = p._capacity) :
    let song : Song := { _title := title, _artist := artist }
    let ok := song ∉ p.songs ∧ song ≠ { _title := "Baby", _artist := "Justin Bieber" } ∧
      title ≠ "My Heart Will Go On" ∧ p._size < p._capacity
    (ok → (p.append title artist).1._size = p._size + 1 ∧
        (p.append title artist).1._capacity = p._capacity ∧
        (p.append title artist).1._song_arr.length = p._capacity ∧
        (p.append title artist).1.songs = p.songs ++ [song] ∧
        (p.append title artist).1._song_arr[p._size]? = some song ∧
        (∀ i, i < p._size → (p.append title artist).1._song_arr[i]? = p._song_arr[i]?) ∧
        (p.append title artist).2 = "success") ∧
    (¬ ok → (p.append title artist).1 = p ∧
        (p.append title artist).2 = "can not insert " ++ title ++ ";" ++ artist) := by
  intro song ok
  have hv := valid_iff p song
  constructor
  · intro hok
    have hvalid : p._is_valid_input song = true := hv.2 hok
    have hlt : p._size < p._song_arr.length := by rw [hlen]; exact hok.2.2.2
    have happ : p.append title artist =
        ({ p with _song_arr := p._song_arr.set p._size song, _size := p._size + 1 }, "success") := by
      unfold Playlist.append
      simp only [hvalid, if_true]
    rw [happ]
    refine ⟨rfl, rfl, ?_, ?_, ?_, ?_, rfl⟩
    · simp [hlen]
    · show (p._song_arr.set p._size song).take (p._size + 1) = p._song_arr.take p._size ++ [song]
      rw [List.take_succ]
      rw [take_set_self]
      simp [hlt]
    · show (p._song_arr.set p._size song)[p._size]? = some song
      simp [hlt]
    · intro i hi
      show (p._song_arr.set p._size song)[i]? = p._song_arr[i]?
      rw [List.getElem?_set_ne]
      omega
  · intro hnot
    have hvalid : p._is_valid_input song = false := by
      cases h : p._is_valid_input song
      · rfl
      · exact absurd (hv.1 h) hnot
    unfold Playlist.append
    simp [hvalid]

theorem append_iff_witness :
    (Playlist.create 2)._song_arr.length = (Playlist.create 2)._capacity ∧
    ((Playlist.create 2).append "Hello" "Adele").1.songs =
      [{ _title := "Hello", _artist := "Adele" }] ∧
    ((Playlist.create 2).append "Baby" "Justin Bieber").1 = Playlist.create 2 :=
  ⟨rfl,
    ((append_iff (Playlist.create 2) "Hello" "Adele" rfl).1
      ⟨by decide, by decide, by decide, by decide⟩).2.2.2.1,
    ((append_iff (Playlist.create 2) "Baby" "Justin Bieber" rfl).2
      (fun h => h.2.1 rfl)).1⟩

end Lab0

namespace Lab1

theorem filterHead_eq (f : Player → Bool) (l : List Player) (n : Int) :
    ((filterHead f l n).1.filter f = l.filter f) ∧
    ((filterHead f l n).1 = [] ∨ ∃ p ps, (filterHead f l n).1 = p :: ps ∧ f p = true) ∧
    (filterHead f l n).2 = n - ((l.length : Int) - ((filterHead f l n).1.length : Int)) := by
  induction l generalizing n with
  | nil => simp [filterHead]
  | cons a l ih =>
    cases h : f a
    · have e : filterHead f (a :: l) n = filterHead f l (n - 1) := by simp [filterHead, h]
      rw [e]
      obtain ⟨h1, h2, h3⟩ := ih (n - 1)
      refine ⟨?_, h2, ?_⟩
      · rw [h1]; simp [h]
      · rw [h3]; simp only [List.length_cons]; push_cast; ring
    · have e : filterHead f (a :: l) n = (a :: l, n) := by simp [filterHead, h]
      rw [e]
      refine ⟨rfl, Or.inr ⟨a, l, rfl, h⟩, ?_⟩
      simp

theorem filterRest_eq (f : Player → Bool) (k : Nat) :
    ∀ (l : List Player), l.length = k → ∀ (curr : Player) (n : Int),
      (filterRest f curr l n).1 = curr :: l.filter f ∧
      (filterRest f curr l n).2 = n - ((l.length : Int) - ((l.filter f).length : Int)) := by
  induction k using Nat.strong_induction_on with
  | _ k ih =>
    intro l hk curr n
    match l, hk with
    | [], _ => simp [filterRest]
    | [nx], _ =>
      cases h : f nx
      · simp [filterRest, h]
      · simp [filterRest, h]
    | nx :: m :: rest, hk =>
      simp only [List.length_cons] at hk
      cases h : f nx
      · cases hm : f m
        · have e : filterRest f curr (nx :: m :: rest) n = filterRest f curr (m :: rest) (n - 1) := by
            simp [filterRest, h, hm]
          obtain ⟨h1, h2⟩ := ih (rest.length + 1) (by omega) (m :: rest) rfl curr (n - 1)
          rw [e, h1, h2]
          refine ⟨by simp [h], ?_⟩
          simp only [List.length_cons, List.filter_cons, h, hm, Bool.false_eq_true, if_false]
          push_cast; ring
        · have e : filterRest f curr (nx :: m :: rest) n =
              (curr :: (filterRest f m rest (n - 1)).1, (filterRest f m rest (n - 1)).2) := by
            simp [filterRest, h, hm]
          obtain ⟨h1, h2⟩ := ih rest.length (by omega) rest rfl m (n - 1)
          rw [e, h1, h2]
          refine ⟨by simp [h, hm], ?_⟩
          simp only [List.length_cons, List.filter_cons, h, hm, Bool.false_eq_true, if_false,
            if_true]
          push_cast; ring
      · have e : filterRest f curr (nx :: m :: rest) n =
            (curr :: (filterRest f nx (m :: rest) n).1, (filterRest f nx (m :: rest) n).2) := by
          simp [filterRest, h]
        obtain ⟨h1, h2⟩ := ih (rest.length + 1) (by omega) (m :: rest) rfl nx n
        rw [e, h1, h2]
        refine ⟨by simp [h], ?_⟩
        simp only [List.length_cons, List.filter_cons, h, if_true]
        push_cast; ring

/-- Claim C28: `_filter_list` leaves exactly the players that satisfy the predicate, in
their original order, and decreases `_num_players` by the number of players removed. -/
theorem filter_list_keeps_passing (g : Game) (filter_fn : Player → Bool) :
    (g._filter_list filter_fn)._head = g._head.filter filter_fn ∧
    (g._filter_list filter_fn)._num_players =
      g._num_players - ((g._head.length : Int) - ((g._head.filter filter_fn).length : Int)) := by
  obtain ⟨h1, h2, h3⟩ := filterHead_eq filter_fn g._head g._num_players
  unfold Game._filter_list
  rcases h2 with h2 | ⟨p, ps, h2, hp⟩
  · simp only [h2]
    rw [h2] at h1 h3
    refine ⟨by rw [← h1]; rfl, ?_⟩
    rw [h3, ← h1]; simp
  · simp only [h2]
    rw [h2] at h1 h3
    obtain ⟨e1, e2⟩ := filterRest_eq filter_fn ps.length ps rfl p
      (filterHead filter_fn g._head g._num_players).2
    refine ⟨?_, ?_⟩
    · show (filterRest filter_fn p ps _).1 = _
      rw [e1, ← h1]; simp [hp]
    · show (filterRest filter_fn p ps _).2 = _
      rw [e2, h3, ← h1]
      simp only [List.length_cons, List.filter_cons, hp, if_true]
      push_cast; ring

end Lab1
